import Mathlib

/-!
# CommandInterface: tokenizer and dispatcher of `CLI.cpp` / `CLI.h`

A shallow embedding of the class `CommandInterface`.

Modelling conventions, all taken from the C++ source:

* A pointer is an address, a natural number; `NULL` is address `0`.  The bytes
  that pointers refer to live in one map `mem` from addresses to bytes, kept in
  the state next to the fields of the instance.  A read or write outside the
  input buffer is therefore visible in the model (it touches `mem` at an address
  outside `[_inputBuffer, _inputBuffer + _inputBufferLength)`) and the safety
  statements say where reads and writes land.
* A byte is a natural number; the stream delivers bytes one at a time.
* `_arguments` is the table `char * _arguments[CLI_MAX_ARGUMENTS]`, a map from
  slot index to address; only slots below `CLI_MAX_ARGUMENTS` exist in the
  source.
* `_stream` is `NULL` (`none`) or a stream, represented by the list of bytes it
  has pending: `available() > 0` is "the list is non-empty" and `read()` pops
  the first byte.
* `_manifest` is `NULL` (`none`) or a table of `CLICommand`, a list; the entry
  whose `cmd` is `NULL` (`none`) is the sentinel.
* `_inputBufferLength` is an `unsigned int` and `int` is taken 32 bits wide.
  The two comparisons of the write offset with the capacity (`CLI.cpp:55`,
  `CLI.cpp:117`) convert the capacity with `(int)_inputBufferLength`; `toInt`
  is that conversion, negative for a capacity above `INT_MAX`.
* The debug printing under `COMMANDINTERFACE_DEEP_DEBUG` is compiled out
  (`CLI.h:26` sets it to `0`).
* A handler is external code.  `executeInput` records each invocation with the
  arguments it passes; the value a handler returns is discarded by the source
  (`CLI.cpp:164`), and a handler is taken not to call back into the instance.
-/

namespace CLI

/-- The constant `CLI_MAX_ARGUMENTS` of `CLI.h:24`. -/
@[simp, reducible] def CLI_MAX_ARGUMENTS : Nat := 32

/-- The terminator byte `'\0'`. -/
@[simp, reducible] def NUL : Nat := 0
/-- The byte `'\t'`. -/
@[simp, reducible] def TAB : Nat := 9
/-- The byte `'\n'`. -/
@[simp, reducible] def LF : Nat := 10
/-- The byte `'\r'`. -/
@[simp, reducible] def CR : Nat := 13
/-- The byte `' '`. -/
@[simp, reducible] def SPACE : Nat := 32
/-- The byte `'"'`. -/
@[simp, reducible] def QUOTE : Nat := 34

/-- The largest value of the type `int`, 32 bits wide: `2^31 - 1`. -/
@[simp, reducible] def INT_MAX : Nat := 2147483647

/-- The conversion `(int)n` of an `unsigned int` value `n` (two's complement, 32
bits): `n` itself up to `INT_MAX`, and `n - 2^32`, a negative number, from
`2^31` up to `2^32 - 1`.  A natural number from `2^32` on is no `unsigned int`;
the result there is negative as well. -/
def toInt (n : Nat) : Int :=
  if n ≤ INT_MAX then (n : Int) else ((n % 4294967296 : Nat) : Int) - 4294967296

/-- Assignment through a pointer or to a table slot: `m[a] = v`. -/
def store (m : Nat → Nat) (a v : Nat) : Nat → Nat :=
  fun x => if x = a then v else m x

/-- The struct `CLICommand` of `CLI.h:30-35`.  `cmd` is the command string (the
bytes before its terminator) or `NULL`; the handler is named by its address. -/
structure CLICommand where
  cmd : Option (List Nat)
  handler_func : Nat
  handler_data : Nat
  deriving DecidableEq

/-- The fields of `class CommandInterface` (`CLI.h:39-48`) together with the
memory `mem` the pointers refer to. -/
structure CommandInterface where
  mem : Nat → Nat
  _inputBuffer : Nat
  _inputBufferLength : Nat
  _arguments : Nat → Nat
  _argc : Nat
  _ignore_spaces : Bool
  _manifest : Option (List CLICommand)
  _cmd_ready : Bool
  _stream : Option (List Nat)
  _head : Nat

namespace CommandInterface

/-- The constructor `CommandInterface::CommandInterface` (`CLI.cpp:26-37`).  The
argument `u` is the indeterminate prior content of the object: the constructor
leaves `_head` and `_ignore_spaces` unset. -/
def ctor (u : CommandInterface) (manif : Option (List CLICommand)) : CommandInterface :=
  { u with
    _inputBuffer := 0
    _inputBufferLength := 0
    _manifest := manif
    _cmd_ready := false
    _stream := none
    _arguments := fun i => if i < CLI_MAX_ARGUMENTS then 0 else u._arguments i
    _argc := 0 }

/-- The method `CommandInterface::begin` (`CLI.cpp:39-52`). -/
def begin (t : CommandInterface) (s : Option (List Nat)) (inbuf : Nat) (inbufLength : Nat) :
    CommandInterface :=
  if t._manifest = none ∨ s = none ∨ inbuf = 0 ∨ inbufLength < 2 then t
  else
    { t with
      _stream := s
      _inputBuffer := inbuf
      _inputBufferLength := inbufLength
      _cmd_ready := false
      _argc := 0
      _head := inbuf
      mem := store t.mem inbuf NUL
      _arguments := store t._arguments 0 inbuf
      _ignore_spaces := false }

/-- The method `CommandInterface::_head_record` (`CLI.cpp:54-67`): the state after
the call and the value returned. -/
def _head_record (t : CommandInterface) (c : Nat) : CommandInterface × Bool :=
  if (t._head : Int) - (t._inputBuffer : Int) < toInt t._inputBufferLength then
    ({ t with mem := store t.mem t._head c, _head := t._head + 1 }, true)
  else
    (t, false)

/-- The block of `processInput` run on a carriage return (`CLI.cpp:112-136`). -/
def lineEnd (t : CommandInterface) : CommandInterface :=
  let m :=
    if (t._head : Int) - (t._inputBuffer : Int) = toInt t._inputBufferLength then
      store t.mem (t._head - 1) NUL
    else
      store t.mem t._head NUL
  let n :=
    if t._argc < CLI_MAX_ARGUMENTS ∧ t._arguments t._argc < t._head then t._argc + 1
    else t._argc
  { t with mem := m, _argc := n, _head := t._inputBuffer, _ignore_spaces := false,
           _cmd_ready := true }

/-- The rest of the loop body of `processInput`, behind the block guarded by
`_argc < CLI_MAX_ARGUMENTS` (`CLI.cpp:112-141`): a carriage return ends the
line, a line feed is skipped, any other byte is recorded.  The second component
is `true` when `return true` is executed, `false` when the loop goes on. -/
def loopTail (t : CommandInterface) (c : Nat) : CommandInterface × Bool :=
  if c = CR then
    (t.lineEnd, true)
  else if c = LF then
    (t, false)
  else
    ((t._head_record c).1, false)

/-- One pass through the body of the `while` loop of `processInput`
(`CLI.cpp:75-141`) for the byte `c` just read.  The second component is `true`
when the body executes `return true`, `false` when the loop goes on (by
`continue` or by reaching the end of the body). -/
def loopBody (t : CommandInterface) (c : Nat) : CommandInterface × Bool :=
  if t._argc < CLI_MAX_ARGUMENTS then
    if c = QUOTE then
      let t1 := { t with _ignore_spaces := xor t._ignore_spaces true }
      if t1._ignore_spaces = false then
        let t2 := { t1 with _argc := t1._argc + 1 }
        if t2._argc < CLI_MAX_ARGUMENTS then
          let t3 := (t2._head_record NUL).1
          ({ t3 with _arguments := store t3._arguments t3._argc t3._head }, false)
        else
          (t2, false)
      else
        (t1, false)
    else if t._ignore_spaces = false ∧ (c = SPACE ∨ c = TAB) then
      if t._arguments t._argc = t._head then
        (t, false)
      else
        let t2 := { t with _argc := t._argc + 1 }
        if t2._argc < CLI_MAX_ARGUMENTS then
          let t3 := (t2._head_record NUL).1
          ({ t3 with _arguments := store t3._arguments t3._argc t3._head }, false)
        else
          ((t2._head_record c).1, false)
    else
      t.loopTail c
  else
    t.loopTail c

/-- The `while` loop of `processInput` (`CLI.cpp:74-143`) over the bytes the
stream has pending.  The stream keeps the bytes that were not read. -/
def drain (t : CommandInterface) : List Nat → Bool × CommandInterface
  | [] => (false, { t with _stream := some [] })
  | c :: rest =>
    match t.loopBody c with
    | (t1, true) => (true, { t1 with _stream := some rest })
    | (t1, false) => drain t1 rest

/-- The method `CommandInterface::processInput` (`CLI.cpp:69-144`): the value
returned and the state after the call.  The result is `none` when the loop
would call `available()` through a `NULL` stream. -/
def processInput (t : CommandInterface) : Option (Bool × CommandInterface) :=
  if t._cmd_ready then some (true, t)
  else
    match t._stream with
    | none => none
    | some pending => some (t.drain pending)

/-- The method `CommandInterface::_input_reset` (`CLI.cpp:146-152`). -/
def _input_reset (t : CommandInterface) : CommandInterface :=
  let t1 := { t with _argc := 0 }
  let t2 := { t1 with _head := t1._inputBuffer }
  let t3 := { t2 with _arguments := store t2._arguments t2._argc t2._head }
  { t3 with _ignore_spaces := false, _cmd_ready := false }

end CommandInterface

/-- The test `strcmp(name, cmd) == 0` of the C library for a string `name` whose
bytes are given and a string `cmd` read from memory at address `a`: `true` when
both hold the same bytes up to and including the first terminator. -/
def strcmpEq (m : Nat → Nat) : List Nat → Nat → Bool
  | [], a => m a == NUL
  | b :: bs, a => if b = NUL then m a == NUL else (m a == b && strcmpEq m bs (a + 1))

/-- One call of a handler: `handler_func(argc, argv, _stream, this, handler_data)`.
`argv` is a pointer into the argument table, given here by the slots it ranges
over: `argv j` is the address held in `argv[j]`. -/
structure Invocation where
  handler_func : Nat
  argc : Int
  argv : Nat → Nat
  handler_data : Nat

/-- The outcome of the scan `while (cmdhead->cmd != NULL)` over a command table
(`CLI.cpp:161-169`, `CLI.cpp:182-193`): `some (some e)` when entry `e` is the
first whose name compares equal, `some none` when the sentinel is reached, and
`none` when the table has no sentinel and the scan leaves the table. -/
def scanTable (m : Nat → Nat) (cmd : Nat) : List CLICommand → Option (Option CLICommand)
  | [] => none
  | e :: es =>
    match e.cmd with
    | none => some none
    | some name => if strcmpEq m name cmd then some (some e) else scanTable m cmd es

namespace CommandInterface

/-- The method `CommandInterface::executeInput` (`CLI.cpp:154-173`): the value
returned, the handler invocations made, in order, and the state after the call.
The result is `none` when the scan reads through a `NULL` manifest or leaves a
table that has no sentinel. -/
def executeInput (t : CommandInterface) : Option (Bool × List Invocation × CommandInterface) :=
  if t._cmd_ready = false then some (false, [], t)
  else if t._argc > 0 then
    match t._manifest with
    | none => none
    | some table =>
      match scanTable t.mem (t._arguments 0) table with
      | none => none
      | some (some e) =>
        some (true,
          [{ handler_func := e.handler_func
             argc := (t._argc : Int) - 1
             argv := fun j => t._arguments (j + 1)
             handler_data := e.handler_data }],
          t._input_reset)
      | some none => some (false, [], t._input_reset)
  else some (false, [], t._input_reset)

end CommandInterface

/-- The string a `char *` with address `a` denotes, read from memory up to the
first terminator within the next `fuel` bytes; `none` when none of these bytes
is a terminator. -/
def readCStr (m : Nat → Nat) : Nat → Nat → Option (List Nat)
  | _, 0 => none
  | a, fuel + 1 => if m a = NUL then some [] else (readCStr m (a + 1) fuel).map (m a :: ·)

namespace CommandInterface

/-- The address one past the end of the input buffer. -/
def bufferEnd (t : CommandInterface) : Nat := t._inputBuffer + t._inputBufferLength

/-- Argument `i` of the line as a handler reads it: the string at `_arguments[i]`,
`none` when that string has no terminator before the end of the input buffer. -/
def argument (t : CommandInterface) (i : Nat) : Option (List Nat) :=
  readCStr t.mem (t._arguments i) (t.bufferEnd - t._arguments i)

/-- The argument vector of the line: arguments `0 .. _argc - 1`. -/
def argumentVector (t : CommandInterface) : List (Option (List Nat)) :=
  (List.range t._argc).map t.argument

/-- The bytes `xs` arrive at the stream: they are appended to its pending bytes. -/
def feed (t : CommandInterface) (xs : List Nat) : CommandInterface :=
  { t with _stream := t._stream.map (· ++ xs) }

/-- What a successful `begin` establishes: manifest, stream and buffer are not
`NULL` and the buffer holds at least two bytes. -/
def Initialised (t : CommandInterface) : Prop :=
  t._manifest.isSome = true ∧ t._stream.isSome = true ∧ t._inputBuffer ≠ 0 ∧
    2 ≤ t._inputBufferLength

/-- The parse state at the start of a line, as `begin` and `_input_reset` leave
it: no line pending, no argument, cursor and argument slot 0 at the buffer
start, no open quote. -/
def FreshLine (t : CommandInterface) : Prop :=
  t._cmd_ready = false ∧ t._argc = 0 ∧ t._head = t._inputBuffer ∧
    t._arguments 0 = t._inputBuffer ∧ t._ignore_spaces = false

instance (t : CommandInterface) : Decidable t.Initialised := by
  unfold Initialised; infer_instance

instance (t : CommandInterface) : Decidable t.FreshLine := by
  unfold FreshLine; infer_instance

/-- The state of the loop of `processInput` after the bytes `xs`, none of which
ends the line, have been read. -/
def consumeBytes (t : CommandInterface) (xs : List Nat) : CommandInterface :=
  xs.foldl (fun u c => (u.loopBody c).1) t

end CommandInterface

/-- The bytes of the stream that lie after the first carriage return. -/
def afterFirstCR (xs : List Nat) : List Nat :=
  (xs.dropWhile (fun c => c != CR)).drop 1

/-- The bytes of the stream up to and including the first carriage return, all
of them when there is none. -/
def uptoFirstCR (xs : List Nat) : List Nat :=
  xs.takeWhile (fun c => c != CR) ++ (xs.dropWhile (fun c => c != CR)).take 1

/-- The bytes `w` written to memory from address `a` upwards. -/
def writeBytes (m : Nat → Nat) : Nat → List Nat → Nat → Nat
  | _, [] => m
  | a, b :: bs => writeBytes (store m a b) (a + 1) bs

/-- Memory holds the bytes `w` from address `a` upwards. -/
def StoredAt (m : Nat → Nat) : Nat → List Nat → Prop
  | _, [] => True
  | a, b :: bs => m a = b ∧ StoredAt m (a + 1) bs

namespace CommandInterface

/-- The byte `c` is ordinary data for the loop body in state `t`: it is neither
carriage return nor line feed and, while the argument count is below
`CLI_MAX_ARGUMENTS`, neither a double quote nor, outside quotes, a space or
tab. -/
def Plain (t : CommandInterface) (c : Nat) : Prop :=
  c ≠ CR ∧ c ≠ LF ∧
    (t._argc < CLI_MAX_ARGUMENTS →
      c ≠ QUOTE ∧ (t._ignore_spaces = false → c ≠ SPACE ∧ c ≠ TAB))

end CommandInterface

/-- The test `c == ' ' || c == '\t'` of `CLI.cpp:97`. -/
def isDelimiter (c : Nat) : Bool := c == SPACE || c == TAB

/-- The maximal runs of bytes other than space and tab in a line. -/
def tokens (line : List Nat) : List (List Nat) :=
  (line.splitOnP isDelimiter).filter (fun w => !w.isEmpty)

/-- The buffer bytes a list of tokens takes, each with its terminator:
the sum of `length + 1`. -/
def span (ws : List (List Nat)) : Nat := (ws.map (fun w => w.length + 1)).sum

/-- Whitespace splitting with the open token `cur` carried along: the tokens
that were closed by a space or tab, and the token still open at the end. -/
def scanTokens : List Nat → List Nat → List (List Nat) × List Nat
  | cur, [] => ([], cur)
  | cur, c :: cs =>
    if isDelimiter c then
      if cur = [] then scanTokens [] cs
      else (cur :: (scanTokens [] cs).1, (scanTokens [] cs).2)
    else scanTokens (cur ++ [c]) cs

/-- The tokens `ws` lie in memory one after the other from address `p`, each
followed by a terminator, and the argument table points at them from slot `a`
on. -/
def Layout (m : Nat → Nat) (args : Nat → Nat) : Nat → Nat → List (List Nat) → Prop
  | _, _, [] => True
  | a, p, w :: ws =>
    args a = p ∧ StoredAt m p w ∧ m (p + w.length) = NUL ∧
      Layout m args (a + 1) (p + w.length + 1) ws

/-- Tokens written one after the other with a single space in between. -/
def joinWords : List (List Nat) → List Nat
  | [] => []
  | [w] => w
  | w :: v :: ws => w ++ SPACE :: joinWords (v :: ws)

namespace CommandInterface

/-- The state `t'` reached from `t` outside quotes once the tokens `done` have
been closed and the token `cur` is open: the arguments were counted, the table
points at them, the buffer holds them behind the address `_arguments[_argc]` of
`t`, and nothing else was touched. -/
def Scanned (t t' : CommandInterface) (done : List (List Nat)) (cur : List Nat) : Prop :=
  t'._ignore_spaces = false ∧
  t'._argc = t._argc + done.length ∧
  t'._arguments (t._argc + done.length) = t._arguments t._argc + span done ∧
  t'._head = t._arguments t._argc + span done + cur.length ∧
  Layout t'.mem t'._arguments t._argc (t._arguments t._argc) done ∧
  StoredAt t'.mem (t._arguments t._argc + span done) cur ∧
  (∀ x, x < t._arguments t._argc ∨ t._arguments t._argc + span done + cur.length ≤ x →
    t'.mem x = t.mem x) ∧
  (∀ i, i ≤ t._argc ∨ t._argc + done.length < i → t'._arguments i = t._arguments i) ∧
  t'._inputBuffer = t._inputBuffer ∧
  t'._inputBufferLength = t._inputBufferLength ∧
  t'._cmd_ready = t._cmd_ready ∧
  t'._manifest = t._manifest

end CommandInterface

/-- A command table with the entries `on` and `off` and the sentinel. -/
def sampleTable : List CLICommand :=
  [⟨some [111, 110], 1, 7⟩, ⟨some [111, 102, 102], 2, 8⟩, ⟨none, 0, 0⟩]

/-- Storage for an instance before its constructor runs; every byte of memory
holds `255`. -/
def rawObject : CommandInterface :=
  { mem := fun _ => 255, _inputBuffer := 0, _inputBufferLength := 0, _arguments := fun _ => 0,
    _argc := 0, _ignore_spaces := true, _manifest := none, _cmd_ready := true,
    _stream := none, _head := 0 }

/-- An instance constructed over `sampleTable` and begun on a buffer of `n`
bytes at address `4096`, with the bytes `pending` waiting in its stream. -/
def sampleInterface (n : Nat) (pending : List Nat) : CommandInterface :=
  (rawObject.ctor (some sampleTable)).begin (some pending) 4096 n

namespace CommandInterface

/-- The bytes of `xs` arrive one at a time, with a call of `processInput` after
each; the state after the last call. -/
def feedOneByOne (t : CommandInterface) : List Nat → Option CommandInterface
  | [] => some t
  | c :: cs =>
    match (t.feed [c]).processInput with
    | none => none
    | some (_, t1) => feedOneByOne t1 cs

end CommandInterface

/-- The entries of a command table that lie before its sentinel. -/
def entriesBeforeSentinel (table : List CLICommand) : List CLICommand :=
  table.takeWhile (fun e => e.cmd.isSome)

/-- The table has a sentinel: an entry whose `cmd` is `NULL`. -/
def SentinelTerminated (table : List CLICommand) : Prop :=
  ∃ e ∈ table, e.cmd = none

instance (table : List CLICommand) : Decidable (SentinelTerminated table) := by
  unfold SentinelTerminated; infer_instance

/-- The name of entry `e` compares equal, by `strcmp`, to the string at address
`cmd`. -/
def nameMatches (m : Nat → Nat) (cmd : Nat) (e : CLICommand) : Bool :=
  match e.cmd with
  | none => false
  | some name => strcmpEq m name cmd

/-- The first entry before the sentinel whose name equals the string at address
`cmd`. -/
def firstMatch (m : Nat → Nat) (cmd : Nat) (table : List CLICommand) : Option CLICommand :=
  (entriesBeforeSentinel table).find? (nameMatches m cmd)

/-- The string a command name denotes: its bytes up to the first terminator. -/
def commandName (name : List Nat) : List Nat :=
  name.takeWhile (fun b => b != NUL)

namespace CommandInterface

/-- The invocations `executeInput` is to make on a ready line with a command
name: the handler of the first matching entry, once, with the argument count
less one, the argument table from slot 1 on and the user data of the entry;
none when no entry matches. -/
def expectedInvocations (t : CommandInterface) (table : List CLICommand) : List Invocation :=
  match firstMatch t.mem (t._arguments 0) table with
  | some e =>
    [{ handler_func := e.handler_func
       argc := (t._argc : Int) - 1
       argv := fun j => t._arguments (j + 1)
       handler_data := e.handler_data }]
  | none => []

end CommandInterface

/-- The sample interface after `processInput` has read the line `on x`. -/
def readySample : CommandInterface :=
  ((sampleInterface 8 []).drain [111, 110, 32, 120, 13]).2

/-- A line of 33 one-byte words. -/
def manyWords : List (List Nat) := List.replicate 33 [97]

namespace CommandInterface

/-- The method `CommandInterface::processSubCommand` (`CLI.cpp:175-196`): the
value returned, the handler invocations made and the state after the call.
`argv j` is the address held in `argv[j]`.  The result is `none` when the scan
reads through a `NULL` table or leaves a table that has no sentinel. -/
def processSubCommand (t : CommandInterface) (subcmds : Option (List CLICommand))
    (argc : Int) (argv : Nat → Nat) : Option (Bool × List Invocation × CommandInterface) :=
  if argc ≥ 0 then
    match subcmds with
    | none => none
    | some table =>
      match scanTable t.mem (argv 0) table with
      | none => none
      | some (some e) =>
        some (true,
          [{ handler_func := e.handler_func
             argc := argc - 1
             argv := fun j => argv (j + 1)
             handler_data := e.handler_data }],
          t)
      | some none => some (false, [], t)
  else some (false, [], t)

/-- The states an instance can be in: after a successful `begin` on any object,
and from there after bytes arrive at the stream, after a call of
`processInput` and after a call of `executeInput`, in any order. -/
inductive Reachable : CommandInterface → Prop
  | begin (t0 : CommandInterface) (s : Option (List Nat)) (inbuf n : Nat)
      (hm : t0._manifest ≠ none) (hs : s ≠ none) (hb : inbuf ≠ 0) (hn : 2 ≤ n) :
      Reachable (t0.begin s inbuf n)
  | arrive (t : CommandInterface) (xs : List Nat) (h : Reachable t) : Reachable (t.feed xs)
  | processInput (t t' : CommandInterface) (r : Bool) (h : Reachable t)
      (hp : t.processInput = some (r, t')) : Reachable t'
  | executeInput (t t' : CommandInterface) (r : Bool) (calls : List Invocation)
      (h : Reachable t) (he : t.executeInput = some (r, calls, t')) : Reachable t'

/-- The bounds kept by every operation: the argument count is at most
`CLI_MAX_ARGUMENTS`, the cursor lies between the buffer start and the buffer
end, the buffer holds at least two bytes, a pending line has no open quote, and
the cursor has left the buffer start only as far as the capacity converted to
`int` allows. -/
def WithinBounds (t : CommandInterface) : Prop :=
  t._argc ≤ CLI_MAX_ARGUMENTS ∧ t._inputBuffer ≤ t._head ∧
    t._head ≤ t._inputBuffer + t._inputBufferLength ∧ 2 ≤ t._inputBufferLength ∧
    (t._cmd_ready = true → t._ignore_spaces = false) ∧
    (t._head = t._inputBuffer ∨
      (t._head : Int) - (t._inputBuffer : Int) ≤ toInt t._inputBufferLength)

/-- The results of `n` calls of `processInput` in a row and the state after
the last. -/
def processInputTimes : Nat → CommandInterface → Option (List Bool × CommandInterface)
  | 0, t => some ([], t)
  | n + 1, t =>
    match t.processInput with
    | none => none
    | some (r, t1) =>
      match processInputTimes n t1 with
      | none => none
      | some (rs, t2) => some (r :: rs, t2)

/-- The argument table `a` with the slots from `CLI_MAX_ARGUMENTS` on, which lie
outside the table of the source, replaced by those of `b`. -/
def outsideTable (a b : Nat → Nat) : Nat → Nat :=
  fun i => if i < CLI_MAX_ARGUMENTS then a i else b i

end CommandInterface

/-- A byte sequence with its line feeds deleted. -/
def withoutLF (xs : List Nat) : List Nat := xs.filter (fun c => c != LF)

namespace CommandInterface

/-- The invocations `processSubCommand` is to make for the count `argc` and the
slice `argv`: the handler of the first entry before the sentinel whose name
equals the string at `argv[0]`, once, with count `argc - 1`, the slice from
`argv[1]` on and the user data of the entry; none when no entry matches. -/
def expectedSubInvocations (t : CommandInterface) (table : List CLICommand) (argc : Int)
    (argv : Nat → Nat) : List Invocation :=
  match firstMatch t.mem (argv 0) table with
  | some e =>
    [{ handler_func := e.handler_func
       argc := argc - 1
       argv := fun j => argv (j + 1)
       handler_data := e.handler_data }]
  | none => []

/-- The sample interface with the string `on` stored at offset 0 of its buffer
and a terminator behind it. -/
def sampleWithOn : CommandInterface :=
  { sampleInterface 8 [] with
    mem := store (store (store (sampleInterface 8 []).mem 4096 111) 4097 110) 4098 NUL }

end CommandInterface
namespace CommandInterface

/-- Two interfaces, each with its own buffer, agree on the parse state apart
from the argument table: same capacity, argument count and flags, the same
cursor offset, inside the buffer and away from the buffer start only as far as
the capacity converted to `int` allows, and the same bytes below the cursor. -/
def SameCore (t u : CommandInterface) : Prop :=
  t._inputBufferLength = u._inputBufferLength ∧ t._argc = u._argc ∧
  t._ignore_spaces = u._ignore_spaces ∧ t._cmd_ready = u._cmd_ready ∧
  t._inputBuffer ≤ t._head ∧ u._inputBuffer ≤ u._head ∧
  t._head - t._inputBuffer = u._head - u._inputBuffer ∧
  (t._head ≤ t._inputBuffer + t._inputBufferLength ∧
    (t._head = t._inputBuffer ∨
      (t._head : Int) - (t._inputBuffer : Int) ≤ toInt t._inputBufferLength)) ∧
  ∀ j, t._inputBuffer + j < t._head → t.mem (t._inputBuffer + j) = u.mem (u._inputBuffer + j)

/-- Two interfaces agree on the argument slots up to `n` that lie in the table:
each slot holds the same offset into the buffer, not past the cursor. -/
def SameSlots (n : Nat) (t u : CommandInterface) : Prop :=
  ∀ i, i ≤ n → i < CLI_MAX_ARGUMENTS →
    t._inputBuffer ≤ t._arguments i ∧ t._arguments i ≤ t._head ∧
    u._inputBuffer ≤ u._arguments i ∧
    t._arguments i - t._inputBuffer = u._arguments i - u._inputBuffer

/-- Two interfaces that have read the same bytes of a line from its start. -/
def SameLine (t u : CommandInterface) : Prop :=
  SameCore t u ∧ SameSlots t._argc t u

end CommandInterface
/-! ## Theorems -/

theorem store_same (m : Nat → Nat) (a v : Nat) : store m a v a = v := by
  simp [store]

theorem store_other (m : Nat → Nat) (a v x : Nat) (h : x ≠ a) : store m a v x = m x := by
  simp [store, h]

/-- The conversion to `int` keeps a capacity up to `INT_MAX` and makes a larger
one negative. -/
theorem toInt_cases (n : Nat) :
    (n ≤ 2147483647 ∧ toInt n = (n : Int)) ∨ (2147483648 ≤ n ∧ toInt n < 0) := by
  unfold toInt
  simp only [INT_MAX]
  split_ifs with h
  · left; exact ⟨h, rfl⟩
  · right; refine ⟨by omega, ?_⟩
    have := Nat.mod_lt n (show 0 < 4294967296 by decide)
    omega

theorem toInt_of_le (n : Nat) (h : n ≤ INT_MAX) : toInt n = (n : Int) := by
  unfold toInt
  rw [if_pos h]

/-- Between `2^31` and `2^32 - 1`, the values of an `unsigned int` above
`INT_MAX`, the conversion is the two's complement value `n - 2^32`. -/
theorem toInt_of_gt (n : Nat) (h1 : INT_MAX < n) (h2 : n < 4294967296) :
    toInt n = (n : Int) - 4294967296 := by
  unfold toInt
  rw [if_neg (by omega), Nat.mod_eq_of_lt h2]

namespace CommandInterface

/-- The loop body returns exactly on a carriage return. -/
theorem loopBody_snd (t : CommandInterface) (c : Nat) :
    (t.loopBody c).2 = decide (c = CR) := by
  unfold loopBody loopTail
  dsimp only
  split_ifs <;> simp_all <;> omega

theorem head_record_cmd_ready (t : CommandInterface) (c : Nat) :
    (t._head_record c).1._cmd_ready = t._cmd_ready := by
  unfold _head_record; split_ifs <;> rfl

theorem head_record_stream (t : CommandInterface) (c : Nat) :
    (t._head_record c).1._stream = t._stream := by
  unfold _head_record; split_ifs <;> rfl

/-- The ready flag after one pass: set on a carriage return, kept otherwise. -/
theorem loopBody_cmd_ready (t : CommandInterface) (c : Nat) :
    (t.loopBody c).1._cmd_ready = (t._cmd_ready || decide (c = CR)) := by
  unfold loopBody loopTail
  dsimp only
  split_ifs <;> simp_all [head_record_cmd_ready, lineEnd] <;> omega

theorem loopBody_CR (t : CommandInterface) : t.loopBody CR = (t.lineEnd, true) := by
  unfold loopBody loopTail
  simp

/-- The loop body neither reads nor writes the stream field. -/
theorem loopBody_with_stream (t : CommandInterface) (x : Option (List Nat)) (c : Nat) :
    ({ t with _stream := x }).loopBody c
      = ({ (t.loopBody c).1 with _stream := x }, (t.loopBody c).2) := by
  unfold loopBody loopTail _head_record lineEnd
  dsimp only
  split_ifs <;> rfl

theorem drain_with_stream (t : CommandInterface) (x : Option (List Nat)) (xs : List Nat) :
    ({ t with _stream := x }).drain xs = t.drain xs := by
  induction xs generalizing t with
  | nil => rfl
  | cons c cs ih =>
    simp only [drain, loopBody_with_stream]
    rcases h : t.loopBody c with ⟨t1, b⟩
    cases b
    · exact ih t1
    · rfl

theorem consumeBytes_nil (t : CommandInterface) : t.consumeBytes [] = t := rfl

theorem consumeBytes_cons (t : CommandInterface) (c : Nat) (cs : List Nat) :
    t.consumeBytes (c :: cs) = (t.loopBody c).1.consumeBytes cs := rfl

theorem consumeBytes_append (t : CommandInterface) (xs ys : List Nat) :
    t.consumeBytes (xs ++ ys) = (t.consumeBytes xs).consumeBytes ys := by
  simp [consumeBytes, List.foldl_append]

theorem consumeBytes_cmd_ready (t : CommandInterface) (xs : List Nat) (h : CR ∉ xs) :
    (t.consumeBytes xs)._cmd_ready = t._cmd_ready := by
  induction xs generalizing t with
  | nil => rfl
  | cons c cs ih =>
    simp only [List.mem_cons, not_or] at h
    have hc : c ≠ CR := fun e => h.1 e.symm
    rw [consumeBytes_cons, ih _ h.2, loopBody_cmd_ready]
    simp [hc]

/-- The loop over bytes without a carriage return reads them all and goes on. -/
theorem drain_append_of_no_CR (t : CommandInterface) (xs ys : List Nat) (h : CR ∉ xs) :
    t.drain (xs ++ ys) = (t.consumeBytes xs).drain ys := by
  induction xs generalizing t with
  | nil => rfl
  | cons c cs ih =>
    simp only [List.mem_cons, not_or] at h
    have hc : c ≠ CR := fun e => h.1 e.symm
    have h2 := loopBody_snd t c
    simp only [hc, decide_False] at h2
    rcases h3 : t.loopBody c with ⟨t1, b⟩
    rw [h3] at h2
    simp only at h2
    subst h2
    simp only [List.cons_append, drain, h3, consumeBytes_cons]
    exact ih t1 h.2

theorem drain_of_no_CR (t : CommandInterface) (xs : List Nat) (h : CR ∉ xs) :
    t.drain xs = (false, { t.consumeBytes xs with _stream := some [] }) := by
  have := drain_append_of_no_CR t xs [] h
  simpa [drain] using this

theorem drain_CR (t : CommandInterface) (rest : List Nat) :
    t.drain (CR :: rest) = (true, { t.lineEnd with _stream := some rest }) := by
  simp only [drain, loopBody_CR]

/-- The loop stops at the first carriage return and leaves the later bytes. -/
theorem drain_line (t : CommandInterface) (xs rest : List Nat) (h : CR ∉ xs) :
    t.drain (xs ++ CR :: rest)
      = (true, { (t.consumeBytes xs).lineEnd with _stream := some rest }) := by
  rw [drain_append_of_no_CR t xs _ h, drain_CR]

end CommandInterface

theorem split_at_first_CR (xs : List Nat) (h : CR ∈ xs) :
    ∃ pre post, CR ∉ pre ∧ xs = pre ++ CR :: post ∧ afterFirstCR xs = post ∧
      uptoFirstCR xs = pre ++ [CR] := by
  induction xs with
  | nil => simp at h
  | cons c cs ih =>
    by_cases hc : c = CR
    · subst hc
      exact ⟨[], cs, by simp, by simp, by simp [afterFirstCR], by simp [uptoFirstCR]⟩
    · have h2 : CR ∈ cs := by
        rcases List.mem_cons.1 h with e | e
        · exact absurd e.symm hc
        · exact e
      obtain ⟨pre, post, h3, h4, h5, h6⟩ := ih h2
      refine ⟨c :: pre, post, ?_, ?_, ?_, ?_⟩
      · simp only [List.mem_cons, not_or]; exact ⟨fun e => hc e.symm, h3⟩
      · rw [List.cons_append, ← h4]
      · have : afterFirstCR (c :: cs) = afterFirstCR cs := by
          simp [afterFirstCR, List.dropWhile_cons, hc]
        rw [this, h5]
      · have : uptoFirstCR (c :: cs) = c :: uptoFirstCR cs := by
          simp [uptoFirstCR, List.dropWhile_cons, List.takeWhile_cons, hc]
        rw [this, h6]; rfl

theorem no_CR_after (xs : List Nat) (h : CR ∉ xs) :
    afterFirstCR xs = [] ∧ uptoFirstCR xs = xs := by
  induction xs with
  | nil => simp [afterFirstCR, uptoFirstCR]
  | cons c cs ih =>
    simp only [List.mem_cons, not_or] at h
    have hc : c ≠ CR := fun e => h.1 e.symm
    have := ih h.2
    constructor
    · have e : afterFirstCR (c :: cs) = afterFirstCR cs := by
        simp [afterFirstCR, List.dropWhile_cons, hc]
      rw [e]; exact this.1
    · have e : uptoFirstCR (c :: cs) = c :: uptoFirstCR cs := by
        simp [uptoFirstCR, List.dropWhile_cons, List.takeWhile_cons, hc]
      rw [e, this.2]

namespace CommandInterface

theorem processInput_of_not_ready (t : CommandInterface) (pending : List Nat)
    (hready : t._cmd_ready = false) (hs : t._stream = some pending) :
    t.processInput = some (t.drain pending) := by
  simp [processInput, hready, hs]

theorem uptoFirstCR_append_after (xs : List Nat) : uptoFirstCR xs ++ afterFirstCR xs = xs := by
  unfold uptoFirstCR afterFirstCR
  rw [List.append_assoc, List.take_append_drop, List.takeWhile_append_dropWhile]

/-- Claim C3.  For a state with no line pending whose stream holds the bytes
`pending`, `processInput` returns `true` exactly when `pending` contains a
carriage return; the ready flag afterwards equals the value returned; the
stream keeps exactly the bytes after the first carriage return (none when there
is no carriage return); and the bytes left unread play no part: the call made
with only the consumed bytes pending ends in the same state with the stream
empty. -/
theorem processInput_result_and_consumption (t : CommandInterface) (pending : List Nat)
    (hready : t._cmd_ready = false) (hs : t._stream = some pending) :
    ∃ t', t.processInput = some (decide (CR ∈ pending), t') ∧
      t'._cmd_ready = decide (CR ∈ pending) ∧
      t'._stream = some (afterFirstCR pending) ∧
      uptoFirstCR pending ++ afterFirstCR pending = pending ∧
      (CR ∈ pending → ∃ pre, CR ∉ pre ∧ uptoFirstCR pending = pre ++ [CR]) ∧
      (CR ∉ pending → uptoFirstCR pending = pending ∧ afterFirstCR pending = []) ∧
      ({ t with _stream := some (uptoFirstCR pending) }).processInput
        = some (decide (CR ∈ pending), { t' with _stream := some [] }) := by
  rw [processInput_of_not_ready t pending hready hs]
  rw [processInput_of_not_ready { t with _stream := some (uptoFirstCR pending) }
    (uptoFirstCR pending) hready rfl, drain_with_stream t (some (uptoFirstCR pending))]
  by_cases h : CR ∈ pending
  · obtain ⟨pre, post, h1, h2, h3, h4⟩ := split_at_first_CR pending h
    refine ⟨{ (t.consumeBytes pre).lineEnd with _stream := some post },
      ?_, ?_, by rw [h3], uptoFirstCR_append_after pending, fun _ => ⟨pre, h1, h4⟩,
      fun h' => absurd h h', ?_⟩
    · rw [h2, drain_line t pre _ h1]
      simp
    · simp [h, lineEnd]
    · rw [h4, drain_line t pre _ h1]
      simp [h]
  · obtain ⟨h1, h2⟩ := no_CR_after pending h
    refine ⟨{ t.consumeBytes pending with _stream := some [] },
      ?_, ?_, by rw [h1], uptoFirstCR_append_after pending, fun h' => absurd h' h,
      fun _ => ⟨h2, h1⟩, ?_⟩
    · rw [drain_of_no_CR t pending h]
      simp [h]
    · simp [h, consumeBytes_cmd_ready t pending h, hready]
    · rw [h2, drain_of_no_CR t pending h]
      simp [h]

theorem feed_feed (t : CommandInterface) (xs ys : List Nat) :
    (t.feed xs).feed ys = t.feed (xs ++ ys) := by
  cases t with
  | mk mem ib il ar ac ig mf cr st hd =>
    cases st <;> simp [feed]

theorem processInput_split (t : CommandInterface) (pending ys zs : List Nat)
    (hs : t._stream = some pending) :
    ∃ r1 t1, (t.feed ys).processInput = some (r1, t1) ∧
      (t1.feed zs).processInput = (t.feed (ys ++ zs)).processInput ∧
      ((t.feed (ys ++ zs)).processInput).isSome = true ∧
      ∃ q, t1._stream = some q := by
  by_cases hready : t._cmd_ready = true
  · refine ⟨true, t.feed ys, ?_, ?_, ?_, ?_⟩
    · simp [processInput, feed, hready]
    · rw [feed_feed]
    · simp [processInput, feed, hready]
    · simp [feed, hs]
  · simp only [Bool.not_eq_true] at hready
    have e1 : (t.feed ys).processInput = some (t.drain (pending ++ ys)) := by
      have := processInput_of_not_ready (t.feed ys) (pending ++ ys) hready (by simp [feed, hs])
      rw [this]; simp only [feed]; exact congrArg some (drain_with_stream t _ _)
    have e2 : (t.feed (ys ++ zs)).processInput = some (t.drain (pending ++ (ys ++ zs))) := by
      have := processInput_of_not_ready (t.feed (ys ++ zs)) (pending ++ (ys ++ zs)) hready
        (by simp [feed, hs])
      rw [this]; simp only [feed]; exact congrArg some (drain_with_stream t _ _)
    refine ⟨(t.drain (pending ++ ys)).1, (t.drain (pending ++ ys)).2, e1, ?_, by simp [e2], ?_⟩
    · rw [e2]
      by_cases h : CR ∈ pending ++ ys
      · obtain ⟨pre, post, h1, h2, _, _⟩ := split_at_first_CR _ h
        have h3 : pending ++ (ys ++ zs) = pre ++ CR :: (post ++ zs) := by
          rw [← List.append_assoc, h2]; simp
        rw [h3, drain_line t pre _ h1, h2, drain_line t pre _ h1]
        simp [processInput, feed, lineEnd]
      · rw [drain_of_no_CR t _ h]
        have h4 := consumeBytes_cmd_ready t _ h
        rw [hready] at h4
        rw [processInput_of_not_ready _ zs (by simpa [feed] using h4) (by simp [feed])]
        simp only [feed]
        rw [drain_with_stream _ (Option.map (fun x => x ++ zs) (some [])) zs,
          ← List.append_assoc, drain_append_of_no_CR t _ zs h]
    · by_cases h : CR ∈ pending ++ ys
      · obtain ⟨pre, post, h1, h2, _, _⟩ := split_at_first_CR _ h
        rw [h2, drain_line t pre _ h1]
        exact ⟨_, rfl⟩
      · rw [drain_of_no_CR t _ h]
        exact ⟨_, rfl⟩

theorem feedOneByOne_eq (t : CommandInterface) (pending : List Nat) (c : Nat) (cs : List Nat)
    (hs : t._stream = some pending) :
    feedOneByOne t (c :: cs) = ((t.feed (c :: cs)).processInput).map (fun r => r.2) := by
  induction cs generalizing t pending c with
  | nil =>
    obtain ⟨r1, t1, h1, _, _, _⟩ := processInput_split t pending [c] [] hs
    simp [feedOneByOne, h1]
  | cons d ds ih =>
    obtain ⟨r1, t1, h1, h2, _, q, h4⟩ := processInput_split t pending [c] (d :: ds) hs
    have := ih t1 q d h4
    simp only [feedOneByOne, h1] at this ⊢
    rw [this, h2]
    rfl

/-- Claim C4.  Chunking independence.  For a state whose stream is not `NULL`,
let the bytes `ys` arrive, call `processInput`, let the bytes `zs` arrive and
call `processInput` again: the second call returns the same value and ends in
the same state (argument count, argument table, buffer contents, cursor, quote
flag, ready flag and unread stream bytes, all fields) as the single call made
after `ys ++ zs` has arrived.  The same holds when a non-empty byte sequence
arrives one byte at a time with a call after every byte. -/
theorem processInput_chunking (t : CommandInterface) (pending ys zs : List Nat)
    (hs : t._stream = some pending) :
    (∃ r1 t1, (t.feed ys).processInput = some (r1, t1) ∧
      (t1.feed zs).processInput = (t.feed (ys ++ zs)).processInput ∧
      ((t.feed (ys ++ zs)).processInput).isSome = true) ∧
    (ys ≠ [] →
      feedOneByOne t ys = ((t.feed ys).processInput).map (fun r => r.2) ∧
      (feedOneByOne t ys).isSome = true) := by
  constructor
  · obtain ⟨r1, t1, h1, h2, h3, _⟩ := processInput_split t pending ys zs hs
    exact ⟨r1, t1, h1, h2, h3⟩
  · intro hne
    cases ys with
    | nil => exact absurd rfl hne
    | cons c cs =>
      have e := feedOneByOne_eq t pending c cs hs
      refine ⟨e, ?_⟩
      rw [e]
      obtain ⟨r1, t1, h1, _, _, _⟩ := processInput_split t pending (c :: cs) [] hs
      simp [h1]

end CommandInterface

theorem writeBytes_below (m : Nat → Nat) (a : Nat) (w : List Nat) (x : Nat) (h : x < a) :
    writeBytes m a w x = m x := by
  induction w generalizing m a with
  | nil => rfl
  | cons b bs ih =>
    rw [writeBytes, ih _ _ (by omega), store_other _ _ _ _ (by omega)]

theorem writeBytes_above (m : Nat → Nat) (a : Nat) (w : List Nat) (x : Nat)
    (h : a + w.length ≤ x) : writeBytes m a w x = m x := by
  induction w generalizing m a with
  | nil => rfl
  | cons b bs ih =>
    simp only [List.length_cons] at h
    rw [writeBytes, ih _ _ (by omega), store_other _ _ _ _ (by omega)]

theorem storedAt_writeBytes (m : Nat → Nat) (a : Nat) (w : List Nat) :
    StoredAt (writeBytes m a w) a w := by
  induction w generalizing m a with
  | nil => trivial
  | cons b bs ih =>
    refine ⟨?_, ih _ _⟩
    rw [writeBytes, writeBytes_below _ _ _ _ (by omega), store_same]

theorem storedAt_congr (m m' : Nat → Nat) (a : Nat) (w : List Nat)
    (h : ∀ x, a ≤ x → x < a + w.length → m' x = m x) (hs : StoredAt m a w) :
    StoredAt m' a w := by
  induction w generalizing a with
  | nil => trivial
  | cons b bs ih =>
    simp only [List.length_cons] at h
    refine ⟨?_, ih _ (fun x h1 h2 => h x (by omega) (by omega)) hs.2⟩
    rw [h a (by omega) (by omega)]; exact hs.1

theorem storedAt_append (m : Nat → Nat) (a : Nat) (u v : List Nat) :
    StoredAt m a (u ++ v) ↔ StoredAt m a u ∧ StoredAt m (a + u.length) v := by
  induction u generalizing a with
  | nil => simp [StoredAt]
  | cons b bs ih =>
    have e : a + 1 + bs.length = a + (b :: bs).length := by
      simp only [List.length_cons]; omega
    show (m a = b ∧ StoredAt m (a + 1) (bs ++ v)) ↔
      (m a = b ∧ StoredAt m (a + 1) bs) ∧ StoredAt m (a + (b :: bs).length) v
    rw [ih, e, and_assoc]

theorem storedAt_take (m : Nat → Nat) (a : Nat) (w : List Nat) (k : Nat)
    (hs : StoredAt m a w) : StoredAt m a (w.take k) := by
  have := (storedAt_append m a (w.take k) (w.drop k)).1 (by rw [List.take_append_drop]; exact hs)
  exact this.1

/-- A string stored with its terminator and holding no terminator byte itself
is the string read back. -/
theorem readCStr_of_storedAt (m : Nat → Nat) (a : Nat) (w : List Nat) (fuel : Nat)
    (hs : StoredAt m a w) (hz : m (a + w.length) = NUL) (hn : ∀ b ∈ w, b ≠ NUL)
    (hf : w.length < fuel) : readCStr m a fuel = some w := by
  induction w generalizing a fuel with
  | nil =>
    cases fuel with
    | zero => simp at hf
    | succ n => simp only [List.length_nil, Nat.add_zero] at hz; simp [readCStr, hz]
  | cons b bs ih =>
    cases fuel with
    | zero => simp at hf
    | succ n =>
      simp only [List.length_cons] at hz hf
      have hb : b ≠ NUL := hn b (List.mem_cons_self _ _)
      have := ih (a + 1) n hs.2 (by rw [← hz]; congr 1; omega)
        (fun x hx => hn x (List.mem_cons_of_mem _ hx)) (by omega)
      rw [readCStr, hs.1, if_neg hb, this]
      rfl

namespace CommandInterface

theorem head_record_of_lt (t : CommandInterface) (c : Nat)
    (h : (t._head : Int) - (t._inputBuffer : Int) < toInt t._inputBufferLength) :
    (t._head_record c).1 = { t with mem := store t.mem t._head c, _head := t._head + 1 } := by
  unfold _head_record
  rw [if_pos h]

theorem head_record_of_not_lt (t : CommandInterface) (c : Nat)
    (h : ¬ (t._head : Int) - (t._inputBuffer : Int) < toInt t._inputBufferLength) :
    (t._head_record c).1 = t := by
  unfold _head_record
  rw [if_neg h]

theorem head_record_of_room (t : CommandInterface) (c : Nat)
    (hcap : t._inputBufferLength ≤ INT_MAX)
    (h : t._head < t._inputBuffer + t._inputBufferLength) :
    (t._head_record c).1 = { t with mem := store t.mem t._head c, _head := t._head + 1 } := by
  have hti := toInt_of_le _ hcap
  exact head_record_of_lt t c (by omega)

theorem head_record_of_full (t : CommandInterface) (c : Nat)
    (h : t._inputBuffer + t._inputBufferLength ≤ t._head) :
    (t._head_record c).1 = t := by
  have hti := toInt_cases t._inputBufferLength
  exact head_record_of_not_lt t c (by omega)

/-- An ordinary data byte is handed to `_head_record` and the loop goes on. -/
theorem loopBody_plain (t : CommandInterface) (c : Nat) (h : t.Plain c) :
    t.loopBody c = ((t._head_record c).1, false) := by
  obtain ⟨h1, h2, h3⟩ := h
  have htail : t.loopTail c = ((t._head_record c).1, false) := by
    unfold loopTail
    rw [if_neg h1, if_neg h2]
  unfold loopBody
  dsimp only
  by_cases ha : t._argc < CLI_MAX_ARGUMENTS
  · obtain ⟨h4, h5⟩ := h3 ha
    rw [if_pos ha, if_neg h4]
    by_cases hi : t._ignore_spaces = false
    · obtain ⟨h6, h7⟩ := h5 hi
      rw [if_neg (by rintro ⟨_, e | e⟩ <;> contradiction), htail]
    · rw [if_neg (by rintro ⟨e, _⟩; exact hi e), htail]
  · rw [if_neg ha, htail]

/-- Ordinary data bytes are stored at the cursor one after the other while the
buffer has room; the bytes that do not fit are dropped. -/
theorem consumeBytes_plain (t : CommandInterface) (w : List Nat)
    (hp : ∀ c ∈ w, t.Plain c) (hcap : t._inputBufferLength ≤ INT_MAX)
    (hlo : t._inputBuffer ≤ t._head)
    (hhi : t._head ≤ t._inputBuffer + t._inputBufferLength) :
    t.consumeBytes w =
      { t with
        mem := writeBytes t.mem t._head
          (w.take (t._inputBuffer + t._inputBufferLength - t._head))
        _head := t._head + min w.length (t._inputBuffer + t._inputBufferLength - t._head) } := by
  induction w generalizing t with
  | nil => simp [consumeBytes, writeBytes]
  | cons c cs ih =>
    rw [consumeBytes_cons, loopBody_plain t c (hp c (List.mem_cons_self _ _))]
    by_cases hr : t._head < t._inputBuffer + t._inputBufferLength
    · rw [head_record_of_room t c hcap hr]
      have key := ih { t with mem := store t.mem t._head c, _head := t._head + 1 }
        (fun d hd => hp d (List.mem_cons_of_mem _ hd)) hcap (Nat.le_succ_of_le hlo) hr
      rw [key]
      obtain ⟨k, hk⟩ : ∃ k, t._inputBuffer + t._inputBufferLength - t._head = k + 1 :=
        ⟨t._inputBuffer + t._inputBufferLength - t._head - 1, by omega⟩
      have hk2 : t._inputBuffer + t._inputBufferLength - (t._head + 1) = k := by omega
      simp only [hk, hk2, List.take_succ_cons, writeBytes, List.length_cons]
      congr 1
      omega
    · rw [head_record_of_full t c (by omega)]
      rw [ih t (fun d hd => hp d (List.mem_cons_of_mem _ hd)) hcap hlo hhi]
      have hk : t._inputBuffer + t._inputBufferLength - t._head = 0 := by omega
      simp [hk, writeBytes]

end CommandInterface
namespace CommandInterface

theorem argumentVector_one (t : CommandInterface) (h : t._argc = 1) :
    t.argumentVector = [t.argument 0] := by
  rw [argumentVector, h]; rfl

/-- Claim C6, as amended.  Buffer exhaustion truncates.  For a freshly begun or
reset interface with capacity `n`, `2 ≤ n ≤ INT_MAX`, and a non-empty token `w`
holding no space, tab, double quote, carriage return, line feed or terminator
byte,
`processInput` on `w` followed by a carriage return makes the line ready with
one argument: `w` when `w` is shorter than `n`, else the first `n - 1` bytes of
`w`; memory outside the `n` bytes of the buffer is left as it was. -/
theorem single_token_truncated (t : CommandInterface) (w rest : List Nat)
    (hfresh : t.FreshLine) (hn : 2 ≤ t._inputBufferLength)
    (hcap : t._inputBufferLength ≤ INT_MAX)
    (hs : t._stream = some (w ++ CR :: rest)) (hw : w ≠ [])
    (hbytes : ∀ c ∈ w, c ≠ SPACE ∧ c ≠ TAB ∧ c ≠ QUOTE ∧ c ≠ CR ∧ c ≠ LF ∧ c ≠ NUL) :
    ∃ t', t.processInput = some (true, t') ∧ t'._cmd_ready = true ∧ t'._argc = 1 ∧
      t'.argumentVector
        = [some (if w.length < t._inputBufferLength then w
                 else w.take (t._inputBufferLength - 1))] ∧
      t'._stream = some rest ∧
      ∀ x, x < t._inputBuffer ∨ t._inputBuffer + t._inputBufferLength ≤ x →
        t'.mem x = t.mem x := by
  obtain ⟨h1, h2, h3, h4, h5⟩ := hfresh
  have hcr : CR ∉ w := fun h => (hbytes CR h).2.2.2.1 rfl
  have hplain : ∀ c ∈ w, t.Plain c := fun c hc =>
    ⟨(hbytes c hc).2.2.2.1, (hbytes c hc).2.2.2.2.1,
      fun _ => ⟨(hbytes c hc).2.2.1, fun _ => ⟨(hbytes c hc).1, (hbytes c hc).2.1⟩⟩⟩
  have hnul : ∀ c ∈ w, c ≠ NUL := fun c hc => (hbytes c hc).2.2.2.2.2
  have hlen : 0 < w.length := List.length_pos.2 hw
  have hti : toInt t._inputBufferLength = (t._inputBufferLength : Int) := toInt_of_le _ hcap
  rw [processInput_of_not_ready t _ h1 hs, drain_line t w rest hcr,
    consumeBytes_plain t w hplain hcap (by omega) (by omega)]
  refine ⟨_, rfl, rfl, ?_, ?_, rfl, ?_⟩
  · simp only [lineEnd, h2, h3, h4]
    rw [if_pos (by constructor <;> [decide; omega])]
  · have hargc : ∀ (u : CommandInterface), u._argc = 1 → u.argumentVector = [u.argument 0] :=
      argumentVector_one
    rw [hargc _ (by
      simp only [lineEnd, h2, h3, h4]
      rw [if_pos (by constructor <;> [decide; omega])])]
    simp only [argument, bufferEnd, lineEnd, h3, h4, hti, Nat.add_sub_cancel_left]
    congr 1
    by_cases hlt : w.length < t._inputBufferLength
    · rw [if_pos hlt, if_neg (by simp only [Nat.min_def]; split_ifs <;> omega),
        List.take_of_length_le (by omega)]
      apply readCStr_of_storedAt _ _ _ _ _ _ hnul hlt
      · apply storedAt_congr _ _ _ _ _ (storedAt_writeBytes t.mem t._inputBuffer w)
        intro x hx1 hx2
        rw [store_other _ _ _ _ (by simp only [Nat.min_def]; split_ifs <;> omega)]
      · have : t._inputBuffer + min w.length t._inputBufferLength = t._inputBuffer + w.length := by
          simp only [Nat.min_def]; split_ifs <;> omega
        rw [this, store_same]
    · rw [if_neg hlt, if_pos (by simp only [Nat.min_def]; split_ifs <;> omega)]
      have hmin : t._inputBuffer + min w.length t._inputBufferLength - 1
          = t._inputBuffer + (w.take (t._inputBufferLength - 1)).length := by
        simp only [List.length_take, Nat.min_def]; split_ifs <;> omega
      apply readCStr_of_storedAt _ _ _ _ _ _
        (fun b hb => hnul b (List.mem_of_mem_take hb))
        (by simp only [List.length_take, Nat.min_def]; split_ifs <;> omega)
      · have hst := storedAt_take _ _ _ (t._inputBufferLength - 1)
          (storedAt_writeBytes t.mem t._inputBuffer (w.take t._inputBufferLength))
        rw [List.take_take, Nat.min_eq_left (Nat.sub_le _ _)] at hst
        apply storedAt_congr _ _ _ _ _ hst
        intro x hx1 hx2
        rw [store_other _ _ _ _ (by rw [hmin]; omega)]
      · rw [hmin, store_same]
  · intro x hx
    have hl : (w.take (t._inputBuffer + t._inputBufferLength - t._inputBuffer)).length
        ≤ t._inputBufferLength := by
      rw [List.length_take]; omega
    have hwb : writeBytes t.mem t._inputBuffer
        (w.take (t._inputBuffer + t._inputBufferLength - t._inputBuffer)) x = t.mem x := by
      rcases hx with hx | hx
      · exact writeBytes_below _ _ _ _ hx
      · exact writeBytes_above _ _ _ _ (by omega)
    simp only [lineEnd, h3, hti]
    split_ifs with hc
    · rw [store_other _ _ _ _ (by omega), hwb]
    · rw [store_other _ _ _ _ (by
        simp only [Nat.min_def] at hc ⊢; split_ifs at hc ⊢ <;> omega), hwb]

end CommandInterface

theorem span_nil : span [] = 0 := rfl

theorem span_cons (w : List Nat) (ws : List (List Nat)) :
    span (w :: ws) = w.length + 1 + span ws := by
  simp [span]

theorem span_append (us vs : List (List Nat)) : span (us ++ vs) = span us + span vs := by
  simp [span]

theorem scanTokens_nil (cur : List Nat) : scanTokens cur [] = ([], cur) := rfl

theorem scanTokens_skip (c : Nat) (cs : List Nat) (h : isDelimiter c = true) :
    scanTokens [] (c :: cs) = scanTokens [] cs := by
  simp [scanTokens, h]

theorem scanTokens_close (cur : List Nat) (c : Nat) (cs : List Nat)
    (h : isDelimiter c = true) (hc : cur ≠ []) :
    scanTokens cur (c :: cs) = (cur :: (scanTokens [] cs).1, (scanTokens [] cs).2) := by
  simp [scanTokens, h, hc]

theorem scanTokens_data (cur : List Nat) (c : Nat) (cs : List Nat)
    (h : isDelimiter c = false) :
    scanTokens cur (c :: cs) = scanTokens (cur ++ [c]) cs := by
  simp [scanTokens, h]

theorem isDelimiter_iff (c : Nat) : isDelimiter c = true ↔ c = SPACE ∨ c = TAB := by
  simp [isDelimiter]

theorem isDelimiter_false_iff (c : Nat) : isDelimiter c = false ↔ c ≠ SPACE ∧ c ≠ TAB := by
  simp [isDelimiter]

/-- The open token never shrinks: what is scanned takes at least its length. -/
theorem scanTokens_size (l : List Nat) (cur : List Nat) :
    cur.length ≤ span (scanTokens cur l).1 + (scanTokens cur l).2.length := by
  induction l generalizing cur with
  | nil => simp [scanTokens_nil]
  | cons c cs ih =>
    by_cases h : isDelimiter c = true
    · by_cases hc : cur = []
      · subst hc; simp
      · rw [scanTokens_close cur c cs h hc]
        simp only [span_cons]
        omega
    · simp only [Bool.not_eq_true] at h
      rw [scanTokens_data cur c cs h]
      have := ih (cur ++ [c])
      simp only [List.length_append, List.length_singleton] at this
      omega

/-- The scan with an open token agrees with splitting on spaces and tabs and
dropping the empty pieces. -/
theorem scanTokens_eq_split (l : List Nat) (cur : List Nat) :
    (scanTokens cur l).1 ++ (if (scanTokens cur l).2 = [] then [] else [(scanTokens cur l).2])
      = ((l.splitOnP isDelimiter).modifyHead (cur ++ ·)).filter (fun w => !w.isEmpty) := by
  induction l generalizing cur with
  | nil =>
    by_cases hc : cur = []
    · subst hc; simp [scanTokens_nil]
    · simp [scanTokens_nil, hc, List.filter_cons, List.isEmpty_iff]
  | cons c cs ih =>
    by_cases h : isDelimiter c = true
    · have e0 := ih []
      have e1 : List.modifyHead (fun x => [] ++ x) (List.splitOnP isDelimiter cs)
          = List.splitOnP isDelimiter cs := by
        cases List.splitOnP isDelimiter cs <;> simp [List.modifyHead]
      rw [e1] at e0
      by_cases hc : cur = []
      · subst hc
        rw [scanTokens_skip c cs h, e0]
        simp [List.splitOnP_cons, h, List.modifyHead, List.filter_cons]
      · rw [scanTokens_close cur c cs h hc]
        simp only [List.splitOnP_cons, h, if_true, List.modifyHead, List.append_nil,
          List.cons_append]
        rw [e0, List.filter_cons]
        simp [List.isEmpty_iff, hc]
    · simp only [Bool.not_eq_true] at h
      rw [scanTokens_data cur c cs h, ih (cur ++ [c])]
      simp only [List.splitOnP_cons, h, Bool.false_eq_true, if_false,
        List.modifyHead_modifyHead]
      congr 2
      funext x
      simp

theorem tokens_eq_scan (l : List Nat) :
    tokens l = (scanTokens [] l).1
      ++ (if (scanTokens [] l).2 = [] then [] else [(scanTokens [] l).2]) := by
  rw [scanTokens_eq_split, tokens]
  congr 1
  cases List.splitOnP isDelimiter l <;> simp [List.modifyHead]

theorem layout_congr (m m' : Nat → Nat) (args args' : Nat → Nat) (a p : Nat)
    (ws : List (List Nat))
    (hm : ∀ x, p ≤ x → x < p + span ws → m' x = m x)
    (ha : ∀ i, a ≤ i → i < a + ws.length → args' i = args i)
    (h : Layout m args a p ws) : Layout m' args' a p ws := by
  induction ws generalizing a p with
  | nil => trivial
  | cons w ws ih =>
    simp only [span_cons, List.length_cons] at hm ha
    obtain ⟨h1, h2, h3, h4⟩ := h
    refine ⟨?_, ?_, ?_, ?_⟩
    · rw [ha a (by omega) (by omega)]; exact h1
    · exact storedAt_congr _ _ _ _ (fun x hx1 hx2 => hm x hx1 (by omega)) h2
    · rw [hm _ (by omega) (by omega)]; exact h3
    · exact ih _ _ (fun x hx1 hx2 => hm x (by omega) (by omega))
        (fun i hi1 hi2 => ha i (by omega) (by omega)) h4

theorem layout_append (m : Nat → Nat) (args : Nat → Nat) (a p : Nat)
    (us vs : List (List Nat)) :
    Layout m args a p (us ++ vs)
      ↔ Layout m args a p us ∧ Layout m args (a + us.length) (p + span us) vs := by
  induction us generalizing a p with
  | nil => simp [Layout, span_nil]
  | cons u us ih =>
    have e1 : a + 1 + us.length = a + (u :: us).length := by
      simp only [List.length_cons]; omega
    have e2 : p + u.length + 1 + span us = p + span (u :: us) := by
      rw [span_cons]; omega
    show (args a = p ∧ StoredAt m p u ∧ m (p + u.length) = NUL ∧
        Layout m args (a + 1) (p + u.length + 1) (us ++ vs)) ↔
      (args a = p ∧ StoredAt m p u ∧ m (p + u.length) = NUL ∧
        Layout m args (a + 1) (p + u.length + 1) us) ∧ _
    rw [ih, e1, e2]
    tauto

/-- The terminator of the last token of a layout. -/
theorem layout_last (m : Nat → Nat) (args : Nat → Nat) (a p : Nat) (ws : List (List Nat))
    (h : Layout m args a p ws) (hne : ws ≠ []) : m (p + span ws - 1) = NUL := by
  induction ws generalizing a p with
  | nil => exact absurd rfl hne
  | cons w ws ih =>
    obtain ⟨_, _, h3, h4⟩ := h
    cases ws with
    | nil =>
      simp only [span_cons, span_nil]
      rw [← h3]; congr 1
    | cons v vs =>
      have := ih _ _ h4 (List.cons_ne_nil _ _)
      rw [← this]
      simp only [span_cons]
      congr 1
      omega

namespace CommandInterface

/-- Outside quotes a space or tab met while the current argument is empty is
skipped (`CLI.cpp:99-101`). -/
theorem loopBody_skip (t : CommandInterface) (c : Nat) (hc : c = SPACE ∨ c = TAB)
    (ha : t._argc < CLI_MAX_ARGUMENTS) (hi : t._ignore_spaces = false)
    (he : t._arguments t._argc = t._head) : t.loopBody c = (t, false) := by
  have hq : c ≠ QUOTE := by rcases hc with e | e <;> simp [e]
  unfold loopBody
  dsimp only
  rw [if_pos ha, if_neg hq, if_pos ⟨hi, hc⟩, if_pos he]

/-- Outside quotes a space or tab after a non-empty argument closes it: the
terminator is stored and the next slot points behind it (`CLI.cpp:102-105`). -/
theorem loopBody_close (t : CommandInterface) (c : Nat) (hc : c = SPACE ∨ c = TAB)
    (ha : t._argc + 1 < CLI_MAX_ARGUMENTS) (hi : t._ignore_spaces = false)
    (he : t._arguments t._argc ≠ t._head)
    (hcap : t._inputBufferLength ≤ INT_MAX)
    (hr : t._head < t._inputBuffer + t._inputBufferLength) :
    t.loopBody c =
      ({ t with
          _argc := t._argc + 1
          mem := store t.mem t._head NUL
          _head := t._head + 1
          _arguments := store t._arguments (t._argc + 1) (t._head + 1) }, false) := by
  have hq : c ≠ QUOTE := by rcases hc with e | e <;> simp [e]
  unfold loopBody
  dsimp only
  rw [if_pos (by omega), if_neg hq, if_pos ⟨hi, hc⟩, if_neg he, if_pos ha,
    head_record_of_room { t with _argc := t._argc + 1 } NUL hcap hr]

/-- Outside quotes a space or tab that closes argument `CLI_MAX_ARGUMENTS - 1`
is stored as data (`CLI.cpp:106-108`). -/
theorem loopBody_overflow (t : CommandInterface) (c : Nat) (hc : c = SPACE ∨ c = TAB)
    (ha : t._argc + 1 = CLI_MAX_ARGUMENTS) (hi : t._ignore_spaces = false)
    (he : t._arguments t._argc ≠ t._head)
    (hcap : t._inputBufferLength ≤ INT_MAX)
    (hr : t._head < t._inputBuffer + t._inputBufferLength) :
    t.loopBody c =
      ({ t with
          _argc := t._argc + 1
          mem := store t.mem t._head c
          _head := t._head + 1 }, false) := by
  have hq : c ≠ QUOTE := by rcases hc with e | e <;> simp [e]
  unfold loopBody
  dsimp only
  rw [if_pos (by omega), if_neg hq, if_pos ⟨hi, hc⟩, if_neg he, if_neg (by omega),
    head_record_of_room { t with _argc := t._argc + 1 } c hcap hr]

/-- An opening double quote only sets the quote flag (`CLI.cpp:92-95`). -/
theorem loopBody_open (t : CommandInterface)
    (ha : t._argc < CLI_MAX_ARGUMENTS) (hi : t._ignore_spaces = false) :
    t.loopBody QUOTE = ({ t with _ignore_spaces := true }, false) := by
  unfold loopBody
  dsimp only
  rw [if_pos ha, if_pos rfl, hi]
  rfl

/-- A closing double quote closes the argument (`CLI.cpp:81-91`). -/
theorem loopBody_close_quote (t : CommandInterface)
    (ha : t._argc + 1 < CLI_MAX_ARGUMENTS) (hi : t._ignore_spaces = true)
    (hcap : t._inputBufferLength ≤ INT_MAX)
    (hr : t._head < t._inputBuffer + t._inputBufferLength) :
    t.loopBody QUOTE =
      ({ t with
          _ignore_spaces := false
          _argc := t._argc + 1
          mem := store t.mem t._head NUL
          _head := t._head + 1
          _arguments := store t._arguments (t._argc + 1) (t._head + 1) }, false) := by
  unfold loopBody
  dsimp only
  rw [if_pos (by omega), if_pos rfl, hi]
  simp only [Bool.xor_self, if_true]
  rw [if_pos ha,
    head_record_of_room { t with _ignore_spaces := false, _argc := t._argc + 1 } NUL hcap hr]

end CommandInterface
namespace CommandInterface

/-- Outside quotes, with room in the argument table and in the buffer, the loop
tokenizes a run of bytes free of double quotes, carriage returns and line feeds
as the scan with an open token does. -/
theorem consumeBytes_unquoted (l : List Nat) (t : CommandInterface) (cur : List Nat)
    (hl : ∀ c ∈ l, c ≠ QUOTE ∧ c ≠ CR ∧ c ≠ LF)
    (hcap : t._inputBufferLength ≤ INT_MAX)
    (hi : t._ignore_spaces = false)
    (hh : t._head = t._arguments t._argc + cur.length)
    (ha : t._argc + (scanTokens cur l).1.length < CLI_MAX_ARGUMENTS)
    (hr : t._arguments t._argc + span (scanTokens cur l).1 + (scanTokens cur l).2.length
        ≤ t._inputBuffer + t._inputBufferLength)
    (hst : StoredAt t.mem (t._arguments t._argc) cur) :
    Scanned t (t.consumeBytes l) (scanTokens cur l).1 (scanTokens cur l).2 := by
  induction l generalizing t cur with
  | nil =>
    rw [scanTokens_nil, consumeBytes_nil]
    refine ⟨hi, rfl, ?_, ?_, trivial, ?_, fun _ _ => rfl, fun _ _ => rfl, rfl, rfl, rfl, rfl⟩
    · simp [span_nil]
    · simpa [span_nil] using hh
    · simpa [span_nil] using hst
  | cons c cs ih =>
    have hcs : ∀ d ∈ cs, d ≠ QUOTE ∧ d ≠ CR ∧ d ≠ LF :=
      fun d hd => hl d (List.mem_cons_of_mem _ hd)
    obtain ⟨hc1, hc2, hc3⟩ := hl c (List.mem_cons_self _ _)
    rw [consumeBytes_cons]
    by_cases hd : isDelimiter c = true
    · have hd' := (isDelimiter_iff c).1 hd
      by_cases hcur : cur = []
      · subst hcur
        rw [scanTokens_skip c cs hd] at ha hr ⊢
        rw [loopBody_skip t c hd' (by omega) hi (by simpa using hh.symm)]
        exact ih t [] hcs hcap hi hh ha hr hst
      · rw [scanTokens_close cur c cs hd hcur] at ha hr ⊢
        simp only [List.length_cons, span_cons] at ha hr
        have hlen : 0 < cur.length := List.length_pos.2 hcur
        rw [loopBody_close t c hd' (by omega) hi (by omega) hcap (by omega)]
        have key := ih
          { t with
            _argc := t._argc + 1
            mem := store t.mem t._head NUL
            _head := t._head + 1
            _arguments := store t._arguments (t._argc + 1) (t._head + 1) } [] hcs hcap hi
          (by show t._head + 1 = store t._arguments (t._argc + 1) (t._head + 1) (t._argc + 1) + 0
              rw [store_same])
          (by show t._argc + 1 + (scanTokens [] cs).1.length < CLI_MAX_ARGUMENTS; omega)
          (by show store t._arguments (t._argc + 1) (t._head + 1) (t._argc + 1)
                + span (scanTokens [] cs).1 + (scanTokens [] cs).2.length
                ≤ t._inputBuffer + t._inputBufferLength
              rw [store_same]; omega)
          trivial
        obtain ⟨k1, k2, k3, k4, k5, k6, k7, k8, k9, k10, k11, k12⟩ := key
        simp only [store_same] at k2 k3 k4 k5 k6 k7 k8
        have hargs : ∀ i, i ≤ t._argc ∨ t._argc + ((scanTokens [] cs).1.length + 1) < i →
            (consumeBytes
              { t with
                _argc := t._argc + 1
                mem := store t.mem t._head NUL
                _head := t._head + 1
                _arguments := store t._arguments (t._argc + 1) (t._head + 1) } cs)._arguments i
              = t._arguments i := by
          intro i hi'
          rw [k8 i (by omega), store_other _ _ _ _ (by omega)]
        refine ⟨k1, ?_, ?_, ?_, ⟨?_, ?_, ?_, ?_⟩, ?_, ?_, hargs, k9, k10, k11, k12⟩
        · rw [k2]; simp only [List.length_cons]; omega
        · simp only [List.length_cons, span_cons]
          rw [show t._argc + ((scanTokens [] cs).1.length + 1)
            = t._argc + 1 + (scanTokens [] cs).1.length by omega, k3]
          omega
        · rw [k4]; simp only [span_cons]; omega
        · exact hargs _ (Or.inl (Nat.le_refl _))
        · apply storedAt_congr _ _ _ _ _ hst
          intro x hx1 hx2
          rw [k7 x (Or.inl (by omega)), store_other _ _ _ _ (by omega)]
        · rw [k7 _ (Or.inl (by omega)), ← hh, store_same]
        · rw [← hh]; exact k5
        · simp only [span_cons]
          rw [show t._arguments t._argc + (cur.length + 1 + span (scanTokens [] cs).1)
            = t._head + 1 + span (scanTokens [] cs).1 by omega]
          exact k6
        · intro x hx
          simp only [span_cons] at hx
          rw [k7 x (by omega), store_other _ _ _ _ (by omega)]
    · simp only [Bool.not_eq_true] at hd
      have hd' := (isDelimiter_false_iff c).1 hd
      rw [scanTokens_data cur c cs hd] at ha hr ⊢
      have hsz := scanTokens_size cs (cur ++ [c])
      simp only [List.length_append, List.length_singleton] at hsz
      rw [loopBody_plain t c ⟨hc2, hc3, fun _ => ⟨hc1, fun _ => hd'⟩⟩,
        head_record_of_room t c hcap (by omega)]
      have key := ih { t with mem := store t.mem t._head c, _head := t._head + 1 } (cur ++ [c])
        hcs hcap hi
        (by show t._head + 1 = t._arguments t._argc + (cur ++ [c]).length
            simp only [List.length_append, List.length_singleton]; omega)
        ha hr
        (by show StoredAt (store t.mem t._head c) (t._arguments t._argc) (cur ++ [c])
            rw [storedAt_append]
            refine ⟨?_, ?_, trivial⟩
            · apply storedAt_congr _ _ _ _ _ hst
              intro x hx1 hx2
              rw [store_other _ _ _ _ (by omega)]
            · rw [← hh, store_same])
      obtain ⟨k1, k2, k3, k4, k5, k6, k7, k8, k9, k10, k11, k12⟩ := key
      refine ⟨k1, k2, k3, k4, k5, k6, ?_, k8, k9, k10, k11, k12⟩
      intro x hx
      rw [k7 x hx]
      show store t.mem t._head c x = t.mem x
      rw [store_other _ _ _ _ (by omega)]

end CommandInterface

/-- The arguments of a layout whose tokens hold no terminator byte read back as
the tokens. -/
theorem layout_arguments (m : Nat → Nat) (args : Nat → Nat) (a p e : Nat)
    (ws : List (List Nat)) (h : Layout m args a p ws)
    (hn : ∀ w ∈ ws, ∀ b ∈ w, b ≠ NUL) (he : p + span ws ≤ e) :
    (List.range' a ws.length).map (fun i => readCStr m (args i) (e - args i))
      = ws.map some := by
  induction ws generalizing a p with
  | nil => rfl
  | cons w ws ih =>
    obtain ⟨h1, h2, h3, h4⟩ := h
    simp only [span_cons] at he
    simp only [List.length_cons, List.range'_succ, List.map_cons]
    congr 1
    · rw [h1]
      exact readCStr_of_storedAt m p w _ h2 h3 (hn w (List.mem_cons_self _ _)) (by omega)
    · exact ih (a + 1) (p + w.length + 1) h4
        (fun v hv => hn v (List.mem_cons_of_mem _ hv)) (by omega)

theorem scanTokens_bytes (l : List Nat) (cur : List Nat) :
    (∀ w ∈ (scanTokens cur l).1, ∀ b ∈ w, b ∈ cur ∨ b ∈ l) ∧
      (∀ b ∈ (scanTokens cur l).2, b ∈ cur ∨ b ∈ l) := by
  induction l generalizing cur with
  | nil =>
    rw [scanTokens_nil]
    exact ⟨fun w hw => absurd hw (List.not_mem_nil _), fun b hb => Or.inl hb⟩
  | cons c cs ih =>
    by_cases h : isDelimiter c = true
    · by_cases hc : cur = []
      · subst hc
        rw [scanTokens_skip c cs h]
        obtain ⟨i1, i2⟩ := ih []
        refine ⟨fun w hw b hb => ?_, fun b hb => ?_⟩
        · rcases i1 w hw b hb with e | e
          · exact Or.inl e
          · exact Or.inr (List.mem_cons_of_mem _ e)
        · rcases i2 b hb with e | e
          · exact Or.inl e
          · exact Or.inr (List.mem_cons_of_mem _ e)
      · rw [scanTokens_close cur c cs h hc]
        obtain ⟨i1, i2⟩ := ih []
        refine ⟨fun w hw b hb => ?_, fun b hb => ?_⟩
        · rcases List.mem_cons.1 hw with e | e
          · subst e; exact Or.inl hb
          · rcases i1 w e b hb with e' | e'
            · exact absurd e' (List.not_mem_nil _)
            · exact Or.inr (List.mem_cons_of_mem _ e')
        · rcases i2 b hb with e | e
          · exact absurd e (List.not_mem_nil _)
          · exact Or.inr (List.mem_cons_of_mem _ e)
    · simp only [Bool.not_eq_true] at h
      rw [scanTokens_data cur c cs h]
      obtain ⟨i1, i2⟩ := ih (cur ++ [c])
      have aux : ∀ b, b ∈ cur ++ [c] ∨ b ∈ cs → b ∈ cur ∨ b ∈ c :: cs := by
        intro b hb
        rcases hb with e | e
        · rcases List.mem_append.1 e with e' | e'
          · exact Or.inl e'
          · rw [List.mem_singleton] at e'; subst e'; exact Or.inr (List.mem_cons_self _ _)
        · exact Or.inr (List.mem_cons_of_mem _ e)
      exact ⟨fun w hw b hb => aux b (i1 w hw b hb), fun b hb => aux b (i2 b hb)⟩

/-- Every byte of a token of a line is a byte of the line. -/
theorem tokens_bytes (l : List Nat) : ∀ w ∈ tokens l, ∀ b ∈ w, b ∈ l := by
  intro w hw b hb
  rw [tokens_eq_scan] at hw
  obtain ⟨i1, i2⟩ := scanTokens_bytes l []
  rcases List.mem_append.1 hw with e | e
  · rcases i1 w e b hb with e' | e'
    · exact absurd e' (List.not_mem_nil _)
    · exact e'
  · split_ifs at e with h0
    · exact absurd e (List.not_mem_nil _)
    · rw [List.mem_singleton] at e
      subst e
      rcases i2 b hb with e' | e'
      · exact absurd e' (List.not_mem_nil _)
      · exact e'

theorem tokens_ne_nil (l : List Nat) : ∀ w ∈ tokens l, w ≠ [] := by
  intro w hw
  simp only [tokens, List.mem_filter, Bool.not_eq_true', List.isEmpty_eq_false] at hw
  exact hw.2

namespace CommandInterface

theorem argumentVector_eq (t : CommandInterface) :
    t.argumentVector
      = (List.range' 0 t._argc).map
          (fun i => readCStr t.mem (t._arguments i)
            (t._inputBuffer + t._inputBufferLength - t._arguments i)) := by
  rw [argumentVector, List.range_eq_range']
  rfl

/-- The end of the line after an unquoted scan: the open token, if any, is
counted and terminated, and the closed tokens stay as they are. -/
theorem lineEnd_scanned (t u : CommandInterface) (done : List (List Nat)) (cur : List Nat)
    (hsc : Scanned t u done cur)
    (hcap : t._inputBufferLength ≤ INT_MAX)
    (ha : t._argc + done.length < CLI_MAX_ARGUMENTS)
    (hp : t._arguments t._argc < t._inputBuffer + t._inputBufferLength)
    (hr : t._arguments t._argc + span (done ++ (if cur = [] then [] else [cur]))
      ≤ t._inputBuffer + t._inputBufferLength) :
    u.lineEnd._argc = t._argc + (done ++ (if cur = [] then [] else [cur])).length ∧
    Layout u.lineEnd.mem u.lineEnd._arguments t._argc (t._arguments t._argc)
      (done ++ (if cur = [] then [] else [cur])) := by
  obtain ⟨k1, k2, k3, k4, k5, k6, k7, k8, k9, k10, k11, k12⟩ := hsc
  have hti : toInt t._inputBufferLength = (t._inputBufferLength : Int) := toInt_of_le _ hcap
  by_cases hc : cur = []
  · subst hc
    simp only [if_true, List.append_nil, List.length_nil, Nat.add_zero] at hr k4 ⊢
    constructor
    · simp only [lineEnd]
      rw [if_neg (by rw [k2, k3, k4]; omega), k2]
    · simp only [lineEnd]
      apply layout_congr _ _ _ _ _ _ _ _ (fun _ _ _ => rfl) k5
      intro x hx1 hx2
      split_ifs with hfull
      · have hne : done ≠ [] := by
          intro e; subst e; simp only [span_nil, k9, k10] at k4 hfull; omega
        have hz := layout_last _ _ _ _ _ k5 hne
        by_cases hx : x = u._head - 1
        · rw [hx, store_same, ← hz, k4]
        · rw [store_other _ _ _ _ hx]
      · rw [store_other _ _ _ _ (by omega)]
  · simp only [hc, if_false] at hr ⊢
    have hlen : 0 < cur.length := List.length_pos.2 hc
    simp only [span_append, span_cons, span_nil] at hr
    constructor
    · simp only [lineEnd]
      rw [if_pos ⟨by rw [k2]; exact ha, by rw [k2, k3, k4]; omega⟩, k2]
      simp only [List.length_append, List.length_singleton]
      omega
    · simp only [lineEnd]
      rw [if_neg (by rw [k4, k9, k10]; omega)]
      rw [layout_append]
      refine ⟨?_, k3, ?_, ?_, trivial⟩
      · apply layout_congr _ _ _ _ _ _ _ _ (fun _ _ _ => rfl) k5
        intro x hx1 hx2
        rw [store_other _ _ _ _ (by omega)]
      · apply storedAt_congr _ _ _ _ _ k6
        intro x hx1 hx2
        rw [store_other _ _ _ _ (by omega)]
      · rw [← k4, store_same]

end CommandInterface
namespace CommandInterface

/-- A successful `begin` leaves the parse state at the start of a line. -/
theorem begin_freshLine (t : CommandInterface) (s : Option (List Nat)) (inbuf n : Nat)
    (hm : t._manifest ≠ none) (hs : s ≠ none) (hb : inbuf ≠ 0) (hn : 2 ≤ n) :
    (t.begin s inbuf n).FreshLine := by
  unfold begin
  rw [if_neg (by rintro (h | h | h | h) <;> [exact hm h; exact hs h; exact hb h; omega])]
  exact ⟨rfl, rfl, rfl, store_same t._arguments 0 inbuf, rfl⟩

/-- The reset `_input_reset` leaves the parse state at the start of a line. -/
theorem input_reset_freshLine (t : CommandInterface) : t._input_reset.FreshLine :=
  ⟨rfl, rfl, rfl, store_same t._arguments 0 t._inputBuffer, rfl⟩

/-- Claim C1, as amended.  Unquoted tokenization equals whitespace splitting.
For an interface at the start of a line (freshly begun or reset) with a buffer
of at least two and at most `INT_MAX` bytes, and a line holding no double
quote, carriage return, line feed or terminator byte whose tokens (maximal runs
of bytes other than space and tab) number fewer than `CLI_MAX_ARGUMENTS` and
fit the buffer with one terminator each, `processInput` on the line followed by
a carriage return makes the line ready with the tokens as its arguments, in
order; no argument is empty. -/
theorem unquoted_line_tokenized (t : CommandInterface) (line rest : List Nat)
    (hfresh : t.FreshLine) (hn : 2 ≤ t._inputBufferLength)
    (hcap : t._inputBufferLength ≤ INT_MAX)
    (hs : t._stream = some (line ++ CR :: rest))
    (hbytes : ∀ c ∈ line, c ≠ QUOTE ∧ c ≠ CR ∧ c ≠ LF ∧ c ≠ NUL)
    (hk : (tokens line).length < CLI_MAX_ARGUMENTS)
    (hroom : span (tokens line) ≤ t._inputBufferLength) :
    ∃ t', t.processInput = some (true, t') ∧ t'._cmd_ready = true ∧
      t'._argc = (tokens line).length ∧
      t'.argumentVector = (tokens line).map some ∧
      (∀ a ∈ t'.argumentVector, a ≠ some []) ∧
      t'._stream = some rest := by
  obtain ⟨h1, h2, h3, h4, h5⟩ := hfresh
  have hcr : CR ∉ line := fun h => (hbytes CR h).2.1 rfl
  rw [tokens_eq_scan] at hk hroom
  have hsc := consumeBytes_unquoted line t []
    (fun c hc => ⟨(hbytes c hc).1, (hbytes c hc).2.1, (hbytes c hc).2.2.1⟩) hcap h5
    (by rw [h2, h4, h3]; rfl)
    (by rw [h2]; simp only [List.length_append] at hk; omega)
    (by rw [h2, h4]
        simp only [span_append] at hroom
        split_ifs at hroom with h0
        · rw [h0]; simp only [span_nil, List.length_nil] at hroom ⊢; omega
        · simp only [span_cons, span_nil] at hroom; omega)
    trivial
  have hle := lineEnd_scanned t (t.consumeBytes line) _ _ hsc hcap
    (by rw [h2]; simp only [List.length_append] at hk; omega)
    (by rw [h2, h4]; omega)
    (by rw [h2, h4]; omega)
  rw [← tokens_eq_scan, h2, h4] at hle
  obtain ⟨l1, l2⟩ := hle
  obtain ⟨_, _, _, _, _, _, _, _, k9, k10, _, _⟩ := hsc
  have hvec : ({ (t.consumeBytes line).lineEnd with _stream := some rest }).argumentVector
      = (tokens line).map some := by
    rw [argumentVector_eq]
    show (List.range' 0 (t.consumeBytes line).lineEnd._argc).map
      (fun i => readCStr (t.consumeBytes line).lineEnd.mem
        ((t.consumeBytes line).lineEnd._arguments i)
        ((t.consumeBytes line)._inputBuffer + (t.consumeBytes line)._inputBufferLength
          - (t.consumeBytes line).lineEnd._arguments i)) = _
    rw [l1, Nat.zero_add, k9, k10]
    exact layout_arguments _ _ 0 t._inputBuffer _ _ l2
      (fun w hw b hb => (hbytes b (tokens_bytes line w hw b hb)).2.2.2)
      (by rw [tokens_eq_scan]; omega)
  refine ⟨_, ?_, rfl, ?_, hvec, ?_, rfl⟩
  · rw [processInput_of_not_ready t _ h1 hs, drain_line t line rest hcr]
  · show (t.consumeBytes line).lineEnd._argc = _
    rw [l1, Nat.zero_add]
  · rw [hvec]
    intro a ha
    obtain ⟨w, hw, rfl⟩ := List.mem_map.1 ha
    intro e
    exact tokens_ne_nil line w hw (Option.some.inj e)

/-- Claim C1 fails as stated for a line with a terminator byte and for a
capacity above `INT_MAX`.  On the line holding the single byte `0` the one
token is `[0]`, and the argument read back is the empty string.  With a
capacity of `2^31` bytes the line `a b` has the two tokens `a` and `b`, and
`processInput` leaves the argument count `0`: the capacity converted to `int`
is negative, no byte is recorded. -/
theorem unquoted_line_counterexample :
    (tokens [NUL] = [[NUL]] ∧
      ((sampleInterface 8 [NUL, CR]).processInput).map
          (fun r => (r.1, r.2._argc, r.2.argumentVector))
        = some (true, 1, [some []])) ∧
    (tokens [97, 32, 98] = [[97], [98]] ∧
      (sampleInterface 2147483648 [97, 32, 98, CR]).FreshLine ∧
      ((sampleInterface 2147483648 [97, 32, 98, CR]).processInput).map
          (fun r => (r.1, r.2._argc, r.2.argumentVector))
        = some (true, 0, [])) := by
  refine ⟨⟨?_, ?_⟩, ?_, ?_, ?_⟩ <;> decide

/-- Claim C1 at a concrete line: two spaces, `a`, two spaces, `b`, a tab. -/
theorem unquoted_line_tokenized_witness :
    (sampleInterface 4 [32, 32, 97, 32, 32, 98, 9, 13, 99]).FreshLine ∧
    2 ≤ (sampleInterface 4 [32, 32, 97, 32, 32, 98, 9, 13, 99])._inputBufferLength ∧
    (sampleInterface 4 [32, 32, 97, 32, 32, 98, 9, 13, 99])._inputBufferLength ≤ INT_MAX ∧
    (∃ t', (sampleInterface 4 [32, 32, 97, 32, 32, 98, 9, 13, 99]).processInput
        = some (true, t') ∧ t'._cmd_ready = true ∧
      t'._argc = (tokens [32, 32, 97, 32, 32, 98, 9]).length ∧
      t'.argumentVector = (tokens [32, 32, 97, 32, 32, 98, 9]).map some ∧
      (∀ a ∈ t'.argumentVector, a ≠ some []) ∧
      t'._stream = some [99]) ∧
    tokens [32, 32, 97, 32, 32, 98, 9] = [[97], [98]] :=
  ⟨by decide, by decide, by decide,
    unquoted_line_tokenized (sampleInterface 4 [32, 32, 97, 32, 32, 98, 9, 13, 99])
      [32, 32, 97, 32, 32, 98, 9] [99] (by decide) (by decide) (by decide) rfl (by decide)
      (by decide) (by decide),
    by decide⟩

end CommandInterface

/-- Every address holds, after a write of bytes, its old byte or one of them. -/
theorem writeBytes_old_or_mem (m : Nat → Nat) (a : Nat) (w : List Nat) (x : Nat) :
    writeBytes m a w x = m x ∨ writeBytes m a w x ∈ w := by
  induction w generalizing m a with
  | nil => exact Or.inl rfl
  | cons b bs ih =>
    rw [writeBytes]
    rcases ih (store m a b) (a + 1) with e | e
    · by_cases hx : x = a
      · right; rw [e, hx, store_same]; exact List.mem_cons_self _ _
      · left; rw [e, store_other _ _ _ _ hx]
    · exact Or.inr (List.mem_cons_of_mem _ e)

namespace CommandInterface

/-- The state after an opening quote, the quoted bytes `s` and the closing
quote, read from the start of a line with room for `s` and its terminator. -/
theorem consumeBytes_quoted (t : CommandInterface) (s : List Nat)
    (hfresh : t.FreshLine) (hcap : t._inputBufferLength ≤ INT_MAX)
    (hbytes : ∀ c ∈ s, c ≠ QUOTE ∧ c ≠ CR ∧ c ≠ LF)
    (hroom : s.length + 1 ≤ t._inputBufferLength) :
    t.consumeBytes (QUOTE :: (s ++ [QUOTE])) =
      { t with
        _ignore_spaces := false
        _argc := 1
        mem := store (writeBytes t.mem t._inputBuffer s) (t._inputBuffer + s.length) NUL
        _head := t._inputBuffer + s.length + 1
        _arguments := store t._arguments 1 (t._inputBuffer + s.length + 1) } := by
  obtain ⟨h1, h2, h3, h4, h5⟩ := hfresh
  rw [consumeBytes_cons, loopBody_open t (by rw [h2]; decide) h5, consumeBytes_append]
  have e2 : ({ t with _ignore_spaces := true } : CommandInterface).consumeBytes s
      = { t with
          _ignore_spaces := true
          mem := writeBytes t.mem t._inputBuffer s
          _head := t._inputBuffer + s.length } := by
    rw [consumeBytes_plain { t with _ignore_spaces := true } s
      (fun c hc => ⟨(hbytes c hc).2.1, (hbytes c hc).2.2,
        fun _ => ⟨(hbytes c hc).1, fun h => by simp at h⟩⟩)
      hcap
      (by show t._inputBuffer ≤ t._head; omega)
      (by show t._head ≤ t._inputBuffer + t._inputBufferLength; omega)]
    show ({ t with
      _ignore_spaces := true
      mem := writeBytes t.mem t._head (s.take (t._inputBuffer + t._inputBufferLength - t._head))
      _head := t._head + min s.length (t._inputBuffer + t._inputBufferLength - t._head) }
        : CommandInterface) = _
    rw [h3, List.take_of_length_le (by omega), Nat.min_eq_left (by omega)]
  rw [e2, consumeBytes_cons, consumeBytes_nil,
    loopBody_close_quote
      { t with
        _ignore_spaces := true
        mem := writeBytes t.mem t._inputBuffer s
        _head := t._inputBuffer + s.length }
      (by show t._argc + 1 < CLI_MAX_ARGUMENTS; rw [h2]; decide) rfl hcap
      (by show t._inputBuffer + s.length < t._inputBuffer + t._inputBufferLength; omega)]
  show ({ t with
      _ignore_spaces := false
      _argc := t._argc + 1
      mem := store (writeBytes t.mem t._inputBuffer s) (t._inputBuffer + s.length) NUL
      _head := t._inputBuffer + s.length + 1
      _arguments := store t._arguments (t._argc + 1) (t._inputBuffer + s.length + 1) }
        : CommandInterface) = _
  rw [h2]

/-- Claim C2, as amended.  A quoted span is one argument with its whitespace
kept.  For an interface at the start of a line with a buffer of at least two
and at most `INT_MAX` bytes and a byte string `s` holding no double quote,
carriage return, line feed or terminator byte (spaces and tabs allowed) that
fits the buffer with its terminator, `processInput` on `"`, `s`, `"`, carriage
return makes the line ready with the single argument `s`; no address of memory
receives a double quote. -/
theorem quoted_span_single_argument (t : CommandInterface) (s rest : List Nat)
    (hfresh : t.FreshLine) (hn : 2 ≤ t._inputBufferLength)
    (hcap : t._inputBufferLength ≤ INT_MAX)
    (hs : t._stream = some (QUOTE :: (s ++ [QUOTE]) ++ CR :: rest))
    (hbytes : ∀ c ∈ s, c ≠ QUOTE ∧ c ≠ CR ∧ c ≠ LF ∧ c ≠ NUL)
    (hroom : s.length + 1 ≤ t._inputBufferLength) :
    ∃ t', t.processInput = some (true, t') ∧ t'._cmd_ready = true ∧ t'._argc = 1 ∧
      t'.argumentVector = [some s] ∧
      (∀ x, t'.mem x = t.mem x ∨ t'.mem x ≠ QUOTE) ∧
      t'._stream = some rest := by
  have hti : toInt t._inputBufferLength = (t._inputBufferLength : Int) := toInt_of_le _ hcap
  have hq := consumeBytes_quoted t s hfresh hcap
    (fun c hc => ⟨(hbytes c hc).1, (hbytes c hc).2.1, (hbytes c hc).2.2.1⟩) hroom
  obtain ⟨h1, h2, h3, h4, h5⟩ := hfresh
  have hcr : CR ∉ QUOTE :: (s ++ [QUOTE]) := by
    simp only [List.mem_cons, List.mem_append, List.mem_singleton, not_or]
    exact ⟨by decide, fun h => (hbytes CR h).2.1 rfl, by decide, List.not_mem_nil _⟩
  rw [processInput_of_not_ready t _ h1 hs, drain_line t _ rest hcr, hq]
  refine ⟨_, rfl, rfl, ?_, ?_, ?_, rfl⟩
  · simp only [lineEnd, store_same]
    rw [if_neg (by omega)]
  · rw [argumentVector_one _ (by
      simp only [lineEnd, store_same]
      rw [if_neg (by omega)])]
    simp only [argument, bufferEnd, lineEnd]
    rw [store_other _ _ _ _ (by decide : (0 : Nat) ≠ 1), h4, Nat.add_sub_cancel_left]
    congr 1
    apply readCStr_of_storedAt _ _ _ _ _ _ (fun b hb => (hbytes b hb).2.2.2) (by omega)
    · apply storedAt_congr _ _ _ _ _ (storedAt_writeBytes t.mem t._inputBuffer s)
      intro x hx1 hx2
      split_ifs <;> rw [store_other _ _ _ _ (by omega), store_other _ _ _ _ (by omega)]
    · split_ifs
      · rw [Nat.add_sub_cancel, store_same]
      · rw [store_other _ _ _ _ (by omega), store_same]
  · intro x
    have hw := writeBytes_old_or_mem t.mem t._inputBuffer s x
    have key : ∀ a, store (store (writeBytes t.mem t._inputBuffer s)
          (t._inputBuffer + s.length) NUL) a NUL x = t.mem x ∨
        store (store (writeBytes t.mem t._inputBuffer s)
          (t._inputBuffer + s.length) NUL) a NUL x ≠ QUOTE := by
      intro a
      by_cases hx : x = a
      · right; rw [hx, store_same]; decide
      · rw [store_other _ _ _ _ hx]
        by_cases hx2 : x = t._inputBuffer + s.length
        · right; rw [hx2, store_same]; decide
        · rw [store_other _ _ _ _ hx2]
          rcases hw with e | e
          · exact Or.inl e
          · exact Or.inr (hbytes _ e).1
    simp only [lineEnd]
    split_ifs <;> exact key _

/-- Claim C2 fails as stated for a quoted span with a terminator byte and for
a capacity above `INT_MAX`.  For the span `[0]` the argument read back is the
empty string.  With a capacity of `2^31` bytes the span `a b` gives one
argument, the empty string: the capacity converted to `int` is negative and no
byte is recorded. -/
theorem quoted_span_counterexample :
    ((sampleInterface 8 [QUOTE, NUL, QUOTE, CR]).processInput).map
        (fun r => (r.1, r.2._argc, r.2.argumentVector))
      = some (true, 1, [some []]) ∧
    ((sampleInterface 2147483648 [QUOTE, 97, 32, 98, QUOTE, CR]).FreshLine ∧
      ((sampleInterface 2147483648 [QUOTE, 97, 32, 98, QUOTE, CR]).processInput).map
          (fun r => (r.1, r.2._argc, r.2.argumentVector))
        = some (true, 1, [some []])) := by
  refine ⟨?_, ?_, ?_⟩ <;> decide

/-- Claim C2 at the line `"a b"`. -/
theorem quoted_span_single_argument_witness :
    (sampleInterface 4 [34, 97, 32, 98, 34, 13]).FreshLine ∧
    2 ≤ (sampleInterface 4 [34, 97, 32, 98, 34, 13])._inputBufferLength ∧
    (sampleInterface 4 [34, 97, 32, 98, 34, 13])._inputBufferLength ≤ INT_MAX ∧
    ∃ t', (sampleInterface 4 [34, 97, 32, 98, 34, 13]).processInput = some (true, t') ∧
      t'._cmd_ready = true ∧ t'._argc = 1 ∧
      t'.argumentVector = [some [97, 32, 98]] ∧
      (∀ x, t'.mem x = (sampleInterface 4 [34, 97, 32, 98, 34, 13]).mem x ∨ t'.mem x ≠ QUOTE) ∧
      t'._stream = some [] :=
  ⟨by decide, by decide, by decide,
    quoted_span_single_argument (sampleInterface 4 [34, 97, 32, 98, 34, 13]) [97, 32, 98] []
      (by decide) (by decide) (by decide) rfl (by decide) (by decide)⟩

end CommandInterface

theorem joinWords_cons (w : List Nat) (vs : List (List Nat)) (h : vs ≠ []) :
    joinWords (w :: vs) = w ++ SPACE :: joinWords vs := by
  cases vs with
  | nil => exact absurd rfl h
  | cons v vs => rfl

theorem joinWords_append (us vs : List (List Nat)) (hu : us ≠ []) (hv : vs ≠ []) :
    joinWords (us ++ vs) = joinWords us ++ SPACE :: joinWords vs := by
  induction us with
  | nil => exact absurd rfl hu
  | cons u us ih =>
    cases us with
    | nil =>
      show joinWords (u :: vs) = u ++ SPACE :: joinWords vs
      exact joinWords_cons u vs hv
    | cons u' us' =>
      rw [List.cons_append, joinWords_cons _ _ (by simp), ih (by simp),
        joinWords_cons u (u' :: us') (by simp), List.append_assoc]
      rfl

theorem length_joinWords (us : List (List Nat)) (w : List Nat) :
    (joinWords (us ++ [w])).length = span us + w.length := by
  induction us with
  | nil => simp [joinWords, span_nil]
  | cons u us ih =>
    rw [List.cons_append, joinWords_cons _ _ (by simp), List.length_append, List.length_cons, ih,
      span_cons]
    omega

theorem joinWords_bytes (ws : List (List Nat)) :
    ∀ b ∈ joinWords ws, b = SPACE ∨ ∃ w ∈ ws, b ∈ w := by
  induction ws with
  | nil => intro b hb; exact absurd hb (List.not_mem_nil _)
  | cons u us ih =>
    intro b hb
    cases us with
    | nil => exact Or.inr ⟨u, List.mem_cons_self _ _, hb⟩
    | cons v vs =>
      rw [joinWords_cons _ _ (by simp)] at hb
      rcases List.mem_append.1 hb with e | e
      · exact Or.inr ⟨u, List.mem_cons_self _ _, e⟩
      · rcases List.mem_cons.1 e with e' | e'
        · exact Or.inl e'
        · rcases ih b e' with e2 | ⟨w, hw, hbw⟩
          · exact Or.inl e2
          · exact Or.inr ⟨w, List.mem_cons_of_mem _ hw, hbw⟩

theorem scanTokens_word (w : List Nat) (cur l : List Nat)
    (hw : ∀ c ∈ w, isDelimiter c = false) :
    scanTokens cur (w ++ l) = scanTokens (cur ++ w) l := by
  induction w generalizing cur with
  | nil => simp
  | cons c cs ih =>
    rw [List.cons_append, scanTokens_data cur c _ (hw c (List.mem_cons_self _ _)),
      ih _ (fun d hd => hw d (List.mem_cons_of_mem _ hd)), List.append_assoc]
    rfl

/-- Words joined by single spaces scan to all but the last word closed and the
last word open. -/
theorem scanTokens_joinWords (us : List (List Nat)) (w : List Nat)
    (hus : ∀ u ∈ us, u ≠ [] ∧ ∀ c ∈ u, isDelimiter c = false)
    (hw : ∀ c ∈ w, isDelimiter c = false) :
    scanTokens [] (joinWords (us ++ [w])) = (us, w) := by
  induction us with
  | nil =>
    have := scanTokens_word w [] [] hw
    simp only [List.append_nil, List.nil_append] at this
    rw [List.nil_append]
    show scanTokens [] w = _
    rw [this, scanTokens_nil]
  | cons u us ih =>
    obtain ⟨hu1, hu2⟩ := hus u (List.mem_cons_self _ _)
    rw [List.cons_append, joinWords_cons _ _ (by simp), scanTokens_word u [] _ hu2,
      List.nil_append, scanTokens_close u SPACE _ (by decide) hu1,
      ih (fun v hv => hus v (List.mem_cons_of_mem _ hv))]

namespace CommandInterface

/-- Bytes read once the argument count has reached `CLI_MAX_ARGUMENTS`: all
but carriage return and line feed are data. -/
theorem plain_of_full (t : CommandInterface) (c : Nat) (ha : ¬ t._argc < CLI_MAX_ARGUMENTS)
    (h1 : c ≠ CR) (h2 : c ≠ LF) : t.Plain c :=
  ⟨h1, h2, fun h => absurd h ha⟩

/-- The state at the end of a line of more than `CLI_MAX_ARGUMENTS` words: the
words before the last slot are closed, the rest of the line lies in the last
slot. -/
theorem overflow_line_state (t : CommandInterface) (front : List (List Nat))
    (w : List Nat) (back : List (List Nat))
    (hfresh : t.FreshLine) (hcap : t._inputBufferLength ≤ INT_MAX)
    (hf : front.length + 1 = CLI_MAX_ARGUMENTS) (hb : back ≠ [])
    (hws : ∀ u ∈ front ++ w :: back,
      u ≠ [] ∧ ∀ c ∈ u, c ≠ SPACE ∧ c ≠ TAB ∧ c ≠ QUOTE ∧ c ≠ CR ∧ c ≠ LF ∧ c ≠ NUL)
    (hroom : (joinWords (front ++ w :: back)).length < t._inputBufferLength) :
    (t.consumeBytes (joinWords (front ++ w :: back))).lineEnd._argc = CLI_MAX_ARGUMENTS ∧
    (t.consumeBytes (joinWords (front ++ w :: back))).lineEnd._inputBuffer = t._inputBuffer ∧
    (t.consumeBytes (joinWords (front ++ w :: back))).lineEnd._inputBufferLength
      = t._inputBufferLength ∧
    Layout (t.consumeBytes (joinWords (front ++ w :: back))).lineEnd.mem
      (t.consumeBytes (joinWords (front ++ w :: back))).lineEnd._arguments 0 t._inputBuffer
      (front ++ [joinWords (w :: back)]) := by
  obtain ⟨h1, h2, h3, h4, h5⟩ := hfresh
  have hti : toInt t._inputBufferLength = (t._inputBufferLength : Int) := toInt_of_le _ hcap
  have hdel : ∀ u ∈ front ++ w :: back, ∀ c ∈ u, isDelimiter c = false := fun u hu c hc =>
    (isDelimiter_false_iff c).2 ⟨((hws u hu).2 c hc).1, ((hws u hu).2 c hc).2.1⟩
  have hw := hws w (by simp)
  have hwlen : 0 < w.length := List.length_pos.2 hw.1
  have hsplit : joinWords (front ++ w :: back)
      = joinWords (front ++ [w]) ++ SPACE :: joinWords back := by
    rw [show front ++ w :: back = (front ++ [w]) ++ back by simp,
      joinWords_append _ _ (by simp) hb]
  have hlen1 := length_joinWords front w
  have hscan := scanTokens_joinWords front w
    (fun u hu => ⟨(hws u (by simp [hu])).1, hdel u (by simp [hu])⟩) (hdel w (by simp))
  rw [hsplit, List.length_append, List.length_cons, hlen1] at hroom
  have hsc := consumeBytes_unquoted (joinWords (front ++ [w])) t []
    (by
      intro c hc
      rcases joinWords_bytes _ c hc with e | ⟨u, hu, hcu⟩
      · subst e; exact ⟨by decide, by decide, by decide⟩
      · have := (hws u (by
          rcases List.mem_append.1 hu with e | e
          · simp [e]
          · rw [List.mem_singleton] at e; subst e; simp)).2 c hcu
        exact ⟨this.2.2.1, this.2.2.2.1, this.2.2.2.2.1⟩)
    hcap h5 (by rw [h2, h4, h3]; rfl)
    (by rw [hscan, h2]; show 0 + front.length < CLI_MAX_ARGUMENTS; omega)
    (by rw [hscan, h2, h4]
        show t._inputBuffer + span front + w.length ≤ t._inputBuffer + t._inputBufferLength
        omega)
    trivial
  rw [hscan] at hsc
  obtain ⟨k1, k2, k3, k4, k5, k6, k7, k8, k9, k10, k11, k12⟩ := hsc
  simp only [h2, h4, Nat.zero_add] at k2 k3 k4 k5 k6 k7 k8
  rw [hsplit, consumeBytes_append, consumeBytes_cons]
  generalize t.consumeBytes (joinWords (front ++ [w])) = u1 at k1 k2 k3 k4 k5 k6 k7 k8 k9 k10 k11 k12
  rw [loopBody_overflow u1 SPACE (Or.inl rfl) (by rw [k2]; exact hf) k1
    (by rw [k2, k3, k4]; omega) (by rw [k10]; exact hcap) (by rw [k4, k9, k10]; omega)]
  have hplain : ∀ c ∈ joinWords back,
      ({ u1 with _argc := u1._argc + 1, mem := store u1.mem u1._head SPACE,
                 _head := u1._head + 1 } : CommandInterface).Plain c := by
    intro c hc
    apply plain_of_full
    · show ¬ u1._argc + 1 < CLI_MAX_ARGUMENTS
      rw [k2]; omega
    · rcases joinWords_bytes _ c hc with e | ⟨u, hu, hcu⟩
      · subst e; decide
      · exact ((hws u (by simp [hu])).2 c hcu).2.2.2.1
    · rcases joinWords_bytes _ c hc with e | ⟨u, hu, hcu⟩
      · subst e; decide
      · exact ((hws u (by simp [hu])).2 c hcu).2.2.2.2.1
  rw [consumeBytes_plain _ _ hplain
    (by show u1._inputBufferLength ≤ INT_MAX; rw [k10]; exact hcap)
    (by show u1._inputBuffer ≤ u1._head + 1; rw [k4, k9]; omega)
    (by show u1._head + 1 ≤ u1._inputBuffer + u1._inputBufferLength; rw [k4, k9, k10]; omega)]
  have htake : (joinWords back).take (u1._inputBuffer + u1._inputBufferLength - (u1._head + 1))
      = joinWords back := List.take_of_length_le (by rw [k4, k9, k10]; omega)
  have hmin : min (joinWords back).length
      (u1._inputBuffer + u1._inputBufferLength - (u1._head + 1)) = (joinWords back).length :=
    Nat.min_eq_left (by rw [k4, k9, k10]; omega)
  simp only [lineEnd, htake, hmin]
  refine ⟨?_, k9, k10, ?_⟩
  · rw [if_neg (by rw [k2]; omega), k2]; exact hf
  · rw [if_neg (by rw [k4, k9, k10]; omega), layout_append]
    constructor
    · apply layout_congr _ _ _ _ _ _ _ _ (fun _ _ _ => rfl) k5
      intro x hx1 hx2
      rw [store_other _ _ _ _ (by omega), writeBytes_below _ _ _ _ (by omega),
        store_other _ _ _ _ (by omega)]
    · simp only [Nat.zero_add]
      refine ⟨k3, ?_, ?_, trivial⟩
      · rw [joinWords_cons _ _ hb, storedAt_append]
        refine ⟨?_, ?_, ?_⟩
        · apply storedAt_congr _ _ _ _ _ k6
          intro x hx1 hx2
          rw [store_other _ _ _ _ (by omega), writeBytes_below _ _ _ _ (by omega),
            store_other _ _ _ _ (by omega)]
        · rw [store_other _ _ _ _ (by omega), writeBytes_below _ _ _ _ (by omega), ← k4,
            store_same]
        · rw [← k4]
          apply storedAt_congr _ _ _ _ _
            (storedAt_writeBytes (store u1.mem u1._head SPACE) (u1._head + 1) (joinWords back))
          intro x hx1 hx2
          rw [store_other _ _ _ _ (by omega)]
      · rw [joinWords_cons _ _ hb, List.length_append, List.length_cons]
        rw [show t._inputBuffer + span front + (w.length + ((joinWords back).length + 1))
          = u1._head + 1 + (joinWords back).length by rw [k4]; omega, store_same]

end CommandInterface

theorem length_joinWords_split (front : List (List Nat)) (w : List Nat)
    (back : List (List Nat)) :
    (joinWords (front ++ w :: back)).length = span front + (joinWords (w :: back)).length := by
  induction front with
  | nil => simp [span_nil]
  | cons u us ih =>
    rw [List.cons_append, joinWords_cons _ _ (by simp), List.length_append, List.length_cons, ih,
      span_cons]
    omega

namespace CommandInterface

/-- Claim C5, as amended.  Argument-count overflow.  For an interface at the
start of a line and a line of more than `CLI_MAX_ARGUMENTS` non-empty words
(free of space, tab, double quote, carriage return, line feed and terminator
bytes) separated by single spaces, shorter than the buffer, whose capacity is
at most `INT_MAX`, `processInput` on the line followed by a carriage return
makes the line ready with exactly `CLI_MAX_ARGUMENTS` arguments: the first 31
words, and as the last argument the rest of the line from word 32 on, spaces
included. -/
theorem argument_count_overflow (t : CommandInterface) (ws : List (List Nat))
    (rest : List Nat) (hfresh : t.FreshLine) (hcap : t._inputBufferLength ≤ INT_MAX)
    (hs : t._stream = some (joinWords ws ++ CR :: rest))
    (hn : CLI_MAX_ARGUMENTS < ws.length)
    (hws : ∀ u ∈ ws,
      u ≠ [] ∧ ∀ c ∈ u, c ≠ SPACE ∧ c ≠ TAB ∧ c ≠ QUOTE ∧ c ≠ CR ∧ c ≠ LF ∧ c ≠ NUL)
    (hroom : (joinWords ws).length < t._inputBufferLength) :
    ∃ t', t.processInput = some (true, t') ∧ t'._cmd_ready = true ∧
      t'._argc = CLI_MAX_ARGUMENTS ∧
      t'.argumentVector
        = (ws.take (CLI_MAX_ARGUMENTS - 1)).map some
            ++ [some (joinWords (ws.drop (CLI_MAX_ARGUMENTS - 1)))] ∧
      t'._stream = some rest := by
  obtain ⟨front, w, back, rfl, hf, hb⟩ :
      ∃ front w back, ws = front ++ w :: back ∧ front.length = 31 ∧ back ≠ [] := by
    have e := (List.take_append_drop 31 ws).symm
    have hl : (ws.drop 31).length = ws.length - 31 := List.length_drop _ _
    simp only [CLI_MAX_ARGUMENTS] at hn
    cases hd : ws.drop 31 with
    | nil => rw [hd] at hl; simp only [List.length_nil] at hl; omega
    | cons w back =>
      rw [hd] at e hl
      refine ⟨ws.take 31, w, back, e, ?_, ?_⟩
      · rw [List.length_take]; omega
      · intro hb; subst hb; simp only [List.length_singleton] at hl; omega
  have hst := overflow_line_state t front w back hfresh hcap (by rw [hf]) hb hws hroom
  obtain ⟨s1, s2, s3, s4⟩ := hst
  have hcr : CR ∉ joinWords (front ++ w :: back) := by
    intro h
    rcases joinWords_bytes _ _ h with e | ⟨u, hu, hcu⟩
    · exact absurd e (by decide)
    · exact ((hws u hu).2 CR hcu).2.2.2.1 rfl
  have htake : (front ++ w :: back).take (CLI_MAX_ARGUMENTS - 1) = front :=
    List.take_left' hf
  have hdrop : (front ++ w :: back).drop (CLI_MAX_ARGUMENTS - 1) = w :: back :=
    List.drop_left' hf
  have hnul : ∀ v ∈ front ++ [joinWords (w :: back)], ∀ b ∈ v, b ≠ NUL := by
    intro v hv b hb'
    rcases List.mem_append.1 hv with e | e
    · exact ((hws v (by simp [e])).2 b hb').2.2.2.2.2
    · rw [List.mem_singleton] at e
      subst e
      rcases joinWords_bytes _ b hb' with e' | ⟨u, hu, hbu⟩
      · rw [e']; decide
      · exact ((hws u (List.mem_append_right _ hu)).2 b hbu).2.2.2.2.2
  rw [length_joinWords_split] at hroom
  have hvec := layout_arguments _ _ 0 t._inputBuffer (t._inputBuffer + t._inputBufferLength)
    _ s4 hnul (by simp only [span_append, span_cons, span_nil]; omega)
  obtain ⟨h1, _, _, _, _⟩ := hfresh
  refine ⟨{ (t.consumeBytes (joinWords (front ++ w :: back))).lineEnd with _stream := some rest },
    ?_, rfl, s1, ?_, rfl⟩
  · rw [processInput_of_not_ready t _ h1 hs, drain_line t _ rest hcr]
  · rw [argumentVector_eq, htake, hdrop]
    show (List.range' 0 (t.consumeBytes (joinWords (front ++ w :: back))).lineEnd._argc).map
      (fun i => readCStr (t.consumeBytes (joinWords (front ++ w :: back))).lineEnd.mem
        ((t.consumeBytes (joinWords (front ++ w :: back))).lineEnd._arguments i)
        ((t.consumeBytes (joinWords (front ++ w :: back))).lineEnd._inputBuffer
          + (t.consumeBytes (joinWords (front ++ w :: back))).lineEnd._inputBufferLength
          - (t.consumeBytes (joinWords (front ++ w :: back))).lineEnd._arguments i)) = _
    rw [s1, s2, s3]
    have hlen : (front ++ [joinWords (w :: back)]).length = CLI_MAX_ARGUMENTS := by
      rw [List.length_append, hf]; rfl
    rw [hlen] at hvec
    rw [hvec, List.map_append]
    rfl

end CommandInterface

/-- The test `strcmp(name, cmd) == 0` holds exactly when the string `name`
denotes is the string read at `cmd`. -/
theorem strcmpEq_iff (m : Nat → Nat) (name : List Nat) (a fuel : Nat) (s : List Nat)
    (h : readCStr m a fuel = some s) : strcmpEq m name a = true ↔ commandName name = s := by
  induction name generalizing a fuel s with
  | nil =>
    cases fuel with
    | zero => simp [readCStr] at h
    | succ n =>
      rw [readCStr] at h
      by_cases hz : m a = NUL
      · rw [if_pos hz] at h
        simp [strcmpEq, commandName, hz, ← Option.some.inj h]
      · rw [if_neg hz] at h
        cases hr : readCStr m (a + 1) n with
        | none => rw [hr] at h; simp at h
        | some s' =>
          rw [hr] at h
          simp only [Option.map_some', Option.some.injEq] at h
          subst h
          simp only [NUL] at hz
          simp [strcmpEq, commandName, hz]
  | cons b bs ih =>
    cases fuel with
    | zero => simp [readCStr] at h
    | succ n =>
      rw [readCStr] at h
      by_cases hz : m a = NUL
      · rw [if_pos hz] at h
        have hs : s = [] := (Option.some.inj h).symm
        subst hs
        by_cases hb : b = NUL
        · simp [strcmpEq, commandName, hz, hb]
        · simp only [NUL] at hz hb
          simp [strcmpEq, commandName, hz, hb, Ne.symm hb]
      · rw [if_neg hz] at h
        cases hr : readCStr m (a + 1) n with
        | none => rw [hr] at h; simp at h
        | some s' =>
          rw [hr] at h
          simp only [Option.map_some', Option.some.injEq] at h
          subst h
          have key := ih (a + 1) n s' hr
          by_cases hb : b = NUL
          · simp only [NUL] at hz hb
            simp [strcmpEq, commandName, hz, hb]
          · have e1 : strcmpEq m (b :: bs) a = (m a == b && strcmpEq m bs (a + 1)) := by
              rw [strcmpEq, if_neg hb]
            have e2 : commandName (b :: bs) = b :: commandName bs := by
              simp only [NUL] at hb
              simp [commandName, List.takeWhile_cons, hb]
            rw [e1, e2, Bool.and_eq_true, beq_iff_eq, List.cons.injEq, key]
            constructor <;> rintro ⟨x, y⟩ <;> exact ⟨x.symm, y⟩

/-- On a table with a sentinel the scan finds the first matching entry before
the sentinel, or none. -/
theorem scanTable_eq_firstMatch (m : Nat → Nat) (cmd : Nat) (table : List CLICommand)
    (h : SentinelTerminated table) : scanTable m cmd table = some (firstMatch m cmd table) := by
  induction table with
  | nil => obtain ⟨e, he, _⟩ := h; exact absurd he (List.not_mem_nil _)
  | cons e es ih =>
    cases hc : e.cmd with
    | none =>
      simp [scanTable, firstMatch, entriesBeforeSentinel, hc, List.takeWhile_cons]
    | some name =>
      have hes : SentinelTerminated es := by
        obtain ⟨e', he', hn⟩ := h
        rcases List.mem_cons.1 he' with e1 | e1
        · subst e1; rw [hc] at hn; simp at hn
        · exact ⟨e', e1, hn⟩
      have := ih hes
      by_cases hm : strcmpEq m name cmd = true
      · simp [scanTable, firstMatch, entriesBeforeSentinel, hc, List.takeWhile_cons,
          nameMatches, hm]
      · simp only [Bool.not_eq_true] at hm
        simp only [firstMatch, entriesBeforeSentinel] at this
        simp [scanTable, firstMatch, entriesBeforeSentinel, hc, List.takeWhile_cons,
          nameMatches, hm, this]

theorem nameMatches_iff (m : Nat → Nat) (cmd fuel : Nat) (s : List Nat) (e : CLICommand)
    (name : List Nat) (hr : readCStr m cmd fuel = some s) (he : e.cmd = some name) :
    nameMatches m cmd e = true ↔ commandName name = s := by
  rw [nameMatches, he]
  exact strcmpEq_iff m name cmd fuel s hr

namespace CommandInterface

theorem executeInput_of_ready (t : CommandInterface) (table : List CLICommand)
    (hready : t._cmd_ready = true) (hargc : 0 < t._argc) (hm : t._manifest = some table)
    (hsent : SentinelTerminated table) :
    t.executeInput
      = some ((firstMatch t.mem (t._arguments 0) table).isSome, t.expectedInvocations table,
          t._input_reset) := by
  unfold executeInput expectedInvocations
  rw [if_neg (by rw [hready]; decide), if_pos hargc, hm]
  simp only
  rw [scanTable_eq_firstMatch _ _ _ hsent]
  cases firstMatch t.mem (t._arguments 0) table <;> rfl

theorem executeInput_of_empty (t : CommandInterface)
    (hready : t._cmd_ready = true) (hargc : t._argc = 0) :
    t.executeInput = some (false, [], t._input_reset) := by
  unfold executeInput
  rw [if_neg (by rw [hready]; decide), if_neg (by omega)]

theorem executeInput_of_not_ready (t : CommandInterface) (hready : t._cmd_ready = false) :
    t.executeInput = some (false, [], t) := by
  unfold executeInput
  rw [if_pos hready]

/-- Claim C8.  Handler selection and arguments.  On a ready line with at least
one argument and a manifest with a sentinel, `executeInput` makes exactly the
expected invocations: when some entry before the sentinel has a name equal to
argument 0, one invocation, of the handler of the first such entry in table
order, with count `_argc - 1`, with the argument table from slot 1 on (element
`j` is argument `j + 1` of the line) and with the user data of that entry;
when none has, no invocation.  The name test is byte-for-byte equality with
the string read as argument 0. -/
theorem executeInput_dispatch (t : CommandInterface) (table : List CLICommand)
    (hready : t._cmd_ready = true) (hargc : 0 < t._argc) (hm : t._manifest = some table)
    (hsent : SentinelTerminated table) :
    (∃ r t', t.executeInput = some (r, t.expectedInvocations table, t')) ∧
    (∀ e, (entriesBeforeSentinel table).find? (nameMatches t.mem (t._arguments 0)) = some e →
      t.expectedInvocations table
        = [{ handler_func := e.handler_func
             argc := (t._argc : Int) - 1
             argv := fun j => t._arguments (j + 1)
             handler_data := e.handler_data }]) ∧
    ((∀ e ∈ entriesBeforeSentinel table, nameMatches t.mem (t._arguments 0) e = false) →
      t.expectedInvocations table = []) ∧
    (∀ cmd e name, t.argument 0 = some cmd → e.cmd = some name →
      (nameMatches t.mem (t._arguments 0) e = true ↔ commandName name = cmd)) := by
  refine ⟨⟨_, _, executeInput_of_ready t table hready hargc hm hsent⟩, ?_, ?_, ?_⟩
  · intro e he
    simp only [expectedInvocations, firstMatch, he]
  · intro hnone
    have : (entriesBeforeSentinel table).find? (nameMatches t.mem (t._arguments 0)) = none := by
      rw [List.find?_eq_none]
      intro e he
      rw [hnone e he]; decide
    simp only [expectedInvocations, firstMatch, this]
  · intro cmd e name hcmd he
    exact nameMatches_iff _ _ _ _ e name hcmd he

/-- Claim C9.  Dispatch always resets and reports the match.  On a ready line
and a manifest with a sentinel, `executeInput` ends in the state with `_argc`
zero, the cursor and argument slot 0 at the buffer start, the quote flag and
the ready flag clear, whether or not a command matched (the value a handler
returns is not looked at); it returns `true` exactly when `_argc > 0` and some
entry before the sentinel has a name equal to argument 0; on an empty line it
returns `false` and invokes nothing. -/
theorem executeInput_resets (t : CommandInterface) (table : List CLICommand)
    (hready : t._cmd_ready = true) (hm : t._manifest = some table)
    (hsent : SentinelTerminated table) :
    ∃ r calls t', t.executeInput = some (r, calls, t') ∧
      t'._argc = 0 ∧ t'._head = t._inputBuffer ∧ t'._arguments 0 = t._inputBuffer ∧
      t'._ignore_spaces = false ∧ t'._cmd_ready = false ∧
      t'._inputBuffer = t._inputBuffer ∧
      (r = true ↔ 0 < t._argc ∧
        ∃ e ∈ entriesBeforeSentinel table, nameMatches t.mem (t._arguments 0) e = true) ∧
      (t._argc = 0 → r = false ∧ calls = []) := by
  by_cases hargc : 0 < t._argc
  · refine ⟨_, _, _, executeInput_of_ready t table hready hargc hm hsent, rfl, rfl,
      store_same t._arguments 0 t._inputBuffer, rfl, rfl, rfl, ?_, fun h => by omega⟩
    rw [firstMatch, List.find?_isSome]
    constructor
    · rintro ⟨e, he, hme⟩; exact ⟨hargc, e, he, hme⟩
    · rintro ⟨_, e, he, hme⟩; exact ⟨e, he, hme⟩
  · have h0 : t._argc = 0 := by omega
    refine ⟨_, _, _, executeInput_of_empty t hready h0, rfl, rfl, store_same t._arguments 0 t._inputBuffer, rfl, rfl,
      rfl, ?_, fun _ => ⟨rfl, rfl⟩⟩
    constructor
    · intro h; exact absurd h (by decide)
    · rintro ⟨h, _⟩; exact absurd h hargc

/-- Claim C10.  Without a pending line `executeInput` returns `false`, invokes
no handler and leaves the whole state, hence `_argc`, the argument table, the
buffer, the cursor and the quote flag, as it is.  On a ready line whose
argument 0 names the entry `e`, the first entry before the sentinel to match,
the first of two calls in a row returns `true` and makes one invocation, that
of the handler of `e` with count `_argc - 1`, the argument table from slot 1
on and the user data of `e`, and the second call, on the state the first
leaves, returns `false`, invokes nothing and changes nothing: the two calls
together invoke the matched handler exactly once.  On a ready line that is
empty or matches no entry both calls return `false` and invoke nothing. -/
theorem executeInput_without_line (t : CommandInterface) :
    (t._cmd_ready = false → t.executeInput = some (false, [], t)) ∧
    (∀ table e, t._cmd_ready = true → 0 < t._argc → t._manifest = some table →
      SentinelTerminated table →
      (entriesBeforeSentinel table).find? (nameMatches t.mem (t._arguments 0)) = some e →
      t.executeInput
        = some (true,
            [{ handler_func := e.handler_func
               argc := (t._argc : Int) - 1
               argv := fun j => t._arguments (j + 1)
               handler_data := e.handler_data }],
            t._input_reset) ∧
      t._input_reset.executeInput = some (false, [], t._input_reset)) ∧
    (∀ table, t._cmd_ready = true → t._manifest = some table → SentinelTerminated table →
      (t._argc = 0 ∨
        ∀ e ∈ entriesBeforeSentinel table, nameMatches t.mem (t._arguments 0) e = false) →
      t.executeInput = some (false, [], t._input_reset) ∧
      t._input_reset.executeInput = some (false, [], t._input_reset)) := by
  refine ⟨executeInput_of_not_ready t, ?_, ?_⟩
  · intro table e hready hargc hm hsent he
    refine ⟨?_, executeInput_of_not_ready _ rfl⟩
    rw [executeInput_of_ready t table hready hargc hm hsent]
    simp only [expectedInvocations, firstMatch, he, Option.isSome_some]
  · intro table hready hm hsent hno
    refine ⟨?_, executeInput_of_not_ready _ rfl⟩
    by_cases hargc : 0 < t._argc
    · have hnone : ∀ e ∈ entriesBeforeSentinel table,
          nameMatches t.mem (t._arguments 0) e = false := by
        rcases hno with h0 | h
        · omega
        · exact h
      have : (entriesBeforeSentinel table).find? (nameMatches t.mem (t._arguments 0)) = none := by
        rw [List.find?_eq_none]
        intro e he
        rw [hnone e he]; decide
      rw [executeInput_of_ready t table hready hargc hm hsent]
      simp only [expectedInvocations, firstMatch, this, Option.isSome_none]
    · exact executeInput_of_empty t hready (by omega)

end CommandInterface
namespace CommandInterface

/-- Claim C3 at the pending bytes `a`, carriage return, `b`. -/
theorem processInput_result_and_consumption_witness :
    (sampleInterface 8 [97, 13, 98])._cmd_ready = false ∧
    (sampleInterface 8 [97, 13, 98])._stream = some [97, 13, 98] ∧
    ∃ t', (sampleInterface 8 [97, 13, 98]).processInput
        = some (decide (CR ∈ [97, 13, 98]), t') ∧
      t'._cmd_ready = decide (CR ∈ [97, 13, 98]) ∧
      t'._stream = some (afterFirstCR [97, 13, 98]) ∧
      uptoFirstCR [97, 13, 98] ++ afterFirstCR [97, 13, 98] = [97, 13, 98] ∧
      (CR ∈ [97, 13, 98] → ∃ pre, CR ∉ pre ∧ uptoFirstCR [97, 13, 98] = pre ++ [CR]) ∧
      (CR ∉ [97, 13, 98] →
        uptoFirstCR [97, 13, 98] = [97, 13, 98] ∧ afterFirstCR [97, 13, 98] = []) ∧
      ({ sampleInterface 8 [97, 13, 98] with
          _stream := some (uptoFirstCR [97, 13, 98]) }).processInput
        = some (decide (CR ∈ [97, 13, 98]), { t' with _stream := some [] }) :=
  ⟨by decide, rfl,
    processInput_result_and_consumption (sampleInterface 8 [97, 13, 98]) [97, 13, 98]
      (by decide) rfl⟩

/-- Claim C4 at the line `a b` split inside, with a byte left over. -/
theorem processInput_chunking_witness :
    (sampleInterface 8 [])._stream = some [] ∧
    ((∃ r1 t1, ((sampleInterface 8 []).feed [97, 32]).processInput = some (r1, t1) ∧
      (t1.feed [98, 13, 99]).processInput
        = ((sampleInterface 8 []).feed ([97, 32] ++ [98, 13, 99])).processInput ∧
      (((sampleInterface 8 []).feed ([97, 32] ++ [98, 13, 99])).processInput).isSome = true) ∧
    (([97, 32] : List Nat) ≠ [] →
      feedOneByOne (sampleInterface 8 []) [97, 32]
        = (((sampleInterface 8 []).feed [97, 32]).processInput).map (fun r => r.2) ∧
      (feedOneByOne (sampleInterface 8 []) [97, 32]).isSome = true)) :=
  ⟨rfl, processInput_chunking (sampleInterface 8 []) [] [97, 32] [98, 13, 99] rfl⟩

/-- Claim C5 at a line of 33 one-byte words in a buffer of 128 bytes. -/
theorem argument_count_overflow_witness :
    (sampleInterface 128 (joinWords manyWords ++ CR :: [])).FreshLine ∧
    (sampleInterface 128 (joinWords manyWords ++ CR :: []))._inputBufferLength ≤ INT_MAX ∧
    CLI_MAX_ARGUMENTS < manyWords.length ∧
    (joinWords manyWords).length < (sampleInterface 128 (joinWords manyWords ++ CR :: []))._inputBufferLength ∧
    ∃ t', (sampleInterface 128 (joinWords manyWords ++ CR :: [])).processInput = some (true, t') ∧
      t'._cmd_ready = true ∧ t'._argc = CLI_MAX_ARGUMENTS ∧
      t'.argumentVector
        = (manyWords.take (CLI_MAX_ARGUMENTS - 1)).map some
            ++ [some (joinWords (manyWords.drop (CLI_MAX_ARGUMENTS - 1)))] ∧
      t'._stream = some [] :=
  ⟨by decide, by decide, by decide, by decide,
    argument_count_overflow (sampleInterface 128 (joinWords manyWords ++ CR :: [])) manyWords []
      (by decide) (by decide) rfl (by decide) (by decide) (by decide)⟩

/-- Claim C5 fails as stated for a word with a terminator byte and for a
capacity above `INT_MAX`.  With the first of 33 words being `[0]`, argument 0
reads back as the empty string.  With a capacity of `2^31` bytes the line of 33
words `a`, 65 bytes long, leaves the argument count `0`: the capacity
converted to `int` is negative and no byte is recorded. -/
theorem argument_count_overflow_counterexample :
    (((sampleInterface 128 (joinWords ([NUL] :: manyWords.tail) ++ [CR])).processInput).map
        (fun r => (r.1, r.2._argc, r.2.argument 0))
      = some (true, 32, some []) ∧
      (([NUL] :: manyWords.tail).take (CLI_MAX_ARGUMENTS - 1)).head? = some [NUL]) ∧
    ((sampleInterface 2147483648 (joinWords manyWords ++ [CR])).FreshLine ∧
      CLI_MAX_ARGUMENTS < manyWords.length ∧
      (joinWords manyWords).length
        < (sampleInterface 2147483648 (joinWords manyWords ++ [CR]))._inputBufferLength ∧
      ((sampleInterface 2147483648 (joinWords manyWords ++ [CR])).processInput).map
          (fun r => (r.1, r.2._argc, r.2.argumentVector))
        = some (true, 0, [])) := by
  refine ⟨⟨?_, ?_⟩, ?_, ?_, ?_, ?_⟩ <;> decide

/-- Claim C6 at the token `abcdef` in a buffer of four bytes. -/
theorem single_token_truncated_witness :
    (sampleInterface 4 [97, 98, 99, 100, 101, 102, 13])._inputBufferLength = 4 ∧
    (sampleInterface 4 [97, 98, 99, 100, 101, 102, 13]).FreshLine ∧
    (sampleInterface 4 [97, 98, 99, 100, 101, 102, 13])._inputBufferLength ≤ INT_MAX ∧
    ∃ t', (sampleInterface 4 [97, 98, 99, 100, 101, 102, 13]).processInput = some (true, t') ∧
      t'._cmd_ready = true ∧ t'._argc = 1 ∧
      t'.argumentVector
        = [some (if ([97, 98, 99, 100, 101, 102] : List Nat).length
              < (sampleInterface 4 [97, 98, 99, 100, 101, 102, 13])._inputBufferLength
            then [97, 98, 99, 100, 101, 102]
            else ([97, 98, 99, 100, 101, 102] : List Nat).take
              ((sampleInterface 4 [97, 98, 99, 100, 101, 102, 13])._inputBufferLength - 1))] ∧
      t'._stream = some [] ∧
      ∀ x, x < (sampleInterface 4 [97, 98, 99, 100, 101, 102, 13])._inputBuffer ∨
          (sampleInterface 4 [97, 98, 99, 100, 101, 102, 13])._inputBuffer
            + (sampleInterface 4 [97, 98, 99, 100, 101, 102, 13])._inputBufferLength ≤ x →
        t'.mem x = (sampleInterface 4 [97, 98, 99, 100, 101, 102, 13]).mem x :=
  ⟨rfl, by decide, by decide,
    single_token_truncated (sampleInterface 4 [97, 98, 99, 100, 101, 102, 13])
      [97, 98, 99, 100, 101, 102] [] (by decide) (by decide) (by decide) rfl (by decide)
      (by decide)⟩

/-- Claim C6 fails as stated for a token with a terminator byte and for a
capacity above `INT_MAX`.  The token `[0]` in a buffer of two bytes reads back
as the empty string.  With a capacity of `2^31` bytes the token `abc` leaves
the argument count `0`: the capacity converted to `int` is negative and no
byte is recorded. -/
theorem single_token_counterexample :
    ((sampleInterface 2 [NUL, CR]).processInput).map
        (fun r => (r.1, r.2._argc, r.2.argumentVector))
      = some (true, 1, [some []]) ∧
    ((sampleInterface 2147483648 [97, 98, 99, CR]).FreshLine ∧
      ((sampleInterface 2147483648 [97, 98, 99, CR]).processInput).map
          (fun r => (r.1, r.2._argc, r.2.argumentVector))
        = some (true, 0, [])) := by
  refine ⟨?_, ?_, ?_⟩ <;> decide

/-- Claim C7 at capacity 2 and the line `ab""""`: the line is ready with two
arguments counted, and argument slot 1 holds the address one past the end of
the buffer, where no terminator lies inside the buffer. -/
theorem counted_argument_past_buffer :
    ((sampleInterface 2 [97, 98, 34, 34, 34, 34, 13]).processInput).map
        (fun r => (r.1, r.2._argc, r.2._arguments 1 - r.2._inputBuffer,
          r.2._inputBufferLength, r.2.argument 1))
      = some (true, 2, 2, 2, none) := by
  decide

/-- Claim C8 on the sample line `on x`. -/
theorem executeInput_dispatch_witness :
    readySample._cmd_ready = true ∧ 0 < readySample._argc ∧
    readySample._manifest = some sampleTable ∧ SentinelTerminated sampleTable ∧
    ((∃ r t', readySample.executeInput
        = some (r, readySample.expectedInvocations sampleTable, t')) ∧
    (∀ e, (entriesBeforeSentinel sampleTable).find?
          (nameMatches readySample.mem (readySample._arguments 0)) = some e →
      readySample.expectedInvocations sampleTable
        = [{ handler_func := e.handler_func
             argc := (readySample._argc : Int) - 1
             argv := fun j => readySample._arguments (j + 1)
             handler_data := e.handler_data }]) ∧
    ((∀ e ∈ entriesBeforeSentinel sampleTable,
        nameMatches readySample.mem (readySample._arguments 0) e = false) →
      readySample.expectedInvocations sampleTable = []) ∧
    (∀ cmd e name, readySample.argument 0 = some cmd → e.cmd = some name →
      (nameMatches readySample.mem (readySample._arguments 0) e = true
        ↔ commandName name = cmd))) ∧
    (readySample.expectedInvocations sampleTable).map
        (fun c => (c.handler_func, c.argc, c.argv 0, c.handler_data))
      = [(1, 1, 4099, 7)] :=
  ⟨by decide, by decide, rfl, by decide,
    executeInput_dispatch readySample sampleTable (by decide) (by decide) rfl (by decide),
    by decide⟩

/-- Claim C9 on the sample line `on x`. -/
theorem executeInput_resets_witness :
    readySample._cmd_ready = true ∧ readySample._manifest = some sampleTable ∧
    SentinelTerminated sampleTable ∧
    ∃ r calls t', readySample.executeInput = some (r, calls, t') ∧
      t'._argc = 0 ∧ t'._head = readySample._inputBuffer ∧
      t'._arguments 0 = readySample._inputBuffer ∧
      t'._ignore_spaces = false ∧ t'._cmd_ready = false ∧
      t'._inputBuffer = readySample._inputBuffer ∧
      (r = true ↔ 0 < readySample._argc ∧
        ∃ e ∈ entriesBeforeSentinel sampleTable,
          nameMatches readySample.mem (readySample._arguments 0) e = true) ∧
      (readySample._argc = 0 → r = false ∧ calls = []) :=
  ⟨by decide, rfl, by decide,
    executeInput_resets readySample sampleTable (by decide) rfl (by decide)⟩

/-- Claim C10 on the sample interface before any input and on the sample line
`on x`, which names the first entry of the sample table: the first call invokes
handler `1` once, with one argument and the user data `7`, and the second call
invokes nothing. -/
theorem executeInput_without_line_witness :
    (sampleInterface 8 [])._cmd_ready = false ∧
    (sampleInterface 8 []).executeInput = some (false, [], sampleInterface 8 []) ∧
    readySample._cmd_ready = true ∧ 0 < readySample._argc ∧
    readySample._manifest = some sampleTable ∧ SentinelTerminated sampleTable ∧
    (entriesBeforeSentinel sampleTable).find?
        (nameMatches readySample.mem (readySample._arguments 0))
      = some ⟨some [111, 110], 1, 7⟩ ∧
    (readySample.executeInput
        = some (true,
            [{ handler_func := 1
               argc := (readySample._argc : Int) - 1
               argv := fun j => readySample._arguments (j + 1)
               handler_data := 7 }],
            readySample._input_reset) ∧
      readySample._input_reset.executeInput = some (false, [], readySample._input_reset)) :=
  ⟨by decide, (executeInput_without_line (sampleInterface 8 [])).1 (by decide), by decide,
    by decide, rfl, by decide, by decide,
    (executeInput_without_line readySample).2.1 sampleTable ⟨some [111, 110], 1, 7⟩ (by decide)
      (by decide) rfl (by decide) (by decide)⟩

end CommandInterface
namespace CommandInterface

theorem processInput_of_ready (t : CommandInterface) (h : t._cmd_ready = true) :
    t.processInput = some (true, t) := by
  simp [processInput, h]

/-- Claim C11.  A pending line is protected from new input.  In a state whose
ready flag is set, whatever the stream holds, `processInput` returns `true` and
leaves the whole state as it is (no byte is taken from the stream; argument
count, argument table, buffer contents, cursor and ready flag are unchanged);
so do any number of calls in a row. -/
theorem processInput_pending_line (t : CommandInterface) (h : t._cmd_ready = true) :
    t.processInput = some (true, t) ∧
    ∀ n, processInputTimes n t = some (List.replicate n true, t) := by
  refine ⟨processInput_of_ready t h, fun n => ?_⟩
  induction n with
  | zero => rfl
  | succ n ih => simp [processInputTimes, processInput_of_ready t h, ih, List.replicate_succ]

/-- Claim C11 on the sample line `on x` with two more bytes waiting. -/
theorem processInput_pending_line_witness :
    (readySample.feed [97, 13])._cmd_ready = true ∧
    (readySample.feed [97, 13]).processInput = some (true, readySample.feed [97, 13]) ∧
    ∀ n, processInputTimes n (readySample.feed [97, 13])
      = some (List.replicate n true, readySample.feed [97, 13]) :=
  ⟨by decide, processInput_pending_line (readySample.feed [97, 13]) (by decide)⟩

/-- Claim C15.  Initialisation validation.  When the manifest, the stream or
the buffer is `NULL` or the capacity is below two, `begin` returns the instance
as it was, every field and all of memory unchanged; otherwise it stores stream,
buffer and capacity, sets `_argc` to zero, cursor and argument slot 0 to the
buffer start, clears the quote flag and the ready flag, writes a terminator at
offset 0 of the buffer, and leaves the manifest, the other argument slots and
the rest of memory as they were. -/
theorem begin_validation (t : CommandInterface) (s : Option (List Nat)) (inbuf n : Nat) :
    (t._manifest = none ∨ s = none ∨ inbuf = 0 ∨ n < 2 → t.begin s inbuf n = t) ∧
    (¬ (t._manifest = none ∨ s = none ∨ inbuf = 0 ∨ n < 2) →
      (t.begin s inbuf n)._stream = s ∧
      (t.begin s inbuf n)._inputBuffer = inbuf ∧
      (t.begin s inbuf n)._inputBufferLength = n ∧
      (t.begin s inbuf n)._argc = 0 ∧
      (t.begin s inbuf n)._head = inbuf ∧
      (t.begin s inbuf n)._arguments 0 = inbuf ∧
      (t.begin s inbuf n)._ignore_spaces = false ∧
      (t.begin s inbuf n)._cmd_ready = false ∧
      (t.begin s inbuf n).mem inbuf = NUL ∧
      (t.begin s inbuf n)._manifest = t._manifest ∧
      (∀ i, i ≠ 0 → (t.begin s inbuf n)._arguments i = t._arguments i) ∧
      (∀ x, x ≠ inbuf → (t.begin s inbuf n).mem x = t.mem x)) := by
  constructor
  · intro h
    unfold begin
    rw [if_pos h]
  · intro h
    unfold begin
    rw [if_neg h]
    exact ⟨rfl, rfl, rfl, rfl, rfl, store_same t._arguments 0 inbuf, rfl, rfl,
      store_same t.mem inbuf NUL, rfl, fun i hi => store_other _ _ _ _ hi,
      fun x hx => store_other _ _ _ _ hx⟩

/-- Claim C15 on a constructed object: a capacity of one is refused, a capacity
of two is accepted. -/
theorem begin_validation_witness :
    (rawObject.ctor (some sampleTable)).begin (some []) 4096 1
      = rawObject.ctor (some sampleTable) ∧
    ((rawObject.ctor (some sampleTable)).begin (some []) 4096 2)._inputBufferLength = 2 ∧
    ((rawObject.ctor (some sampleTable)).begin (some []) 4096 2)._head = 4096 ∧
    ((rawObject.ctor (some sampleTable)).begin (some []) 4096 2).mem 4096 = NUL :=
  ⟨(begin_validation (rawObject.ctor (some sampleTable)) (some []) 4096 1).1 (by decide),
    ((begin_validation (rawObject.ctor (some sampleTable)) (some []) 4096 2).2 (by decide)).2.2.1,
    ((begin_validation (rawObject.ctor (some sampleTable)) (some []) 4096 2).2
      (by decide)).2.2.2.2.1,
    ((begin_validation (rawObject.ctor (some sampleTable)) (some []) 4096 2).2
      (by decide)).2.2.2.2.2.2.2.2.1⟩

end CommandInterface
namespace CommandInterface

theorem processSubCommand_of_nonneg (t : CommandInterface) (table : List CLICommand)
    (argc : Int) (argv : Nat → Nat) (hargc : 0 ≤ argc) (hsent : SentinelTerminated table) :
    t.processSubCommand (some table) argc argv
      = some ((firstMatch t.mem (argv 0) table).isSome,
          t.expectedSubInvocations table argc argv, t) := by
  unfold processSubCommand expectedSubInvocations
  rw [if_pos hargc]
  simp only
  rw [scanTable_eq_firstMatch _ _ _ hsent]
  cases firstMatch t.mem (argv 0) table <;> rfl

theorem processSubCommand_of_neg (t : CommandInterface) (subcmds : Option (List CLICommand))
    (argc : Int) (argv : Nat → Nat) (hargc : argc < 0) :
    t.processSubCommand subcmds argc argv = some (false, [], t) := by
  unfold processSubCommand
  rw [if_neg (by omega)]

/-- Claim C14.  Subcommand dispatch contract.  For a table with a sentinel and
a slice `argv` with count `argc ≥ 1`, `processSubCommand` returns `true`
exactly when some entry before the sentinel has a name equal to the string at
`argv[0]`; then it invokes the handler of the first such entry once, with count
`argc - 1`, the slice from `argv[1]` on and the user data of the entry; without
a match it returns `false` and invokes nothing, and so it does for every
negative count; in every case the state of the interface is left as it is.
The name test is byte-for-byte equality with the string read at `argv[0]`. -/
theorem processSubCommand_contract (t : CommandInterface) (table : List CLICommand)
    (argc : Int) (argv : Nat → Nat) (hsent : SentinelTerminated table) :
    (1 ≤ argc →
      ∃ r, t.processSubCommand (some table) argc argv
          = some (r, t.expectedSubInvocations table argc argv, t) ∧
        (r = true ↔ ∃ e ∈ entriesBeforeSentinel table, nameMatches t.mem (argv 0) e = true) ∧
        (∀ e, (entriesBeforeSentinel table).find? (nameMatches t.mem (argv 0)) = some e →
          t.expectedSubInvocations table argc argv
            = [{ handler_func := e.handler_func
                 argc := argc - 1
                 argv := fun j => argv (j + 1)
                 handler_data := e.handler_data }]) ∧
        ((∀ e ∈ entriesBeforeSentinel table, nameMatches t.mem (argv 0) e = false) →
          r = false ∧ t.expectedSubInvocations table argc argv = [])) ∧
    (argc < 0 → t.processSubCommand (some table) argc argv = some (false, [], t)) ∧
    (∀ fuel cmd e name, readCStr t.mem (argv 0) fuel = some cmd → e.cmd = some name →
      (nameMatches t.mem (argv 0) e = true ↔ commandName name = cmd)) := by
  refine ⟨fun h1 => ⟨_, processSubCommand_of_nonneg t table argc argv (by omega) hsent,
    ?_, ?_, ?_⟩, processSubCommand_of_neg t _ argc argv, ?_⟩
  · rw [firstMatch, List.find?_isSome]
  · intro e he
    simp only [expectedSubInvocations, firstMatch, he]
  · intro hnone
    have : (entriesBeforeSentinel table).find? (nameMatches t.mem (argv 0)) = none := by
      rw [List.find?_eq_none]
      intro e he
      rw [hnone e he]; decide
    constructor
    · rw [firstMatch, this]; rfl
    · simp only [expectedSubInvocations, firstMatch, this]
  · intro fuel cmd e name hcmd he
    exact nameMatches_iff _ _ fuel _ e name hcmd he

/-- Claim C14 on the table `on`, `off` with the slice `["on"]`: the handler of
`on` is invoked with count 0. -/
theorem processSubCommand_contract_witness :
    SentinelTerminated sampleTable ∧
    (sampleWithOn.processSubCommand (some sampleTable) 1 (fun _ => 4096)).map
        (fun r => (r.1, r.2.1.map (fun c => (c.handler_func, c.argc, c.handler_data))))
      = some (true, [(1, 0, 7)]) ∧
    sampleWithOn.processSubCommand (some sampleTable) (-1) (fun _ => 4096)
      = some (false, [], sampleWithOn) :=
  ⟨by decide, by decide,
    (processSubCommand_contract sampleWithOn sampleTable (-1) (fun _ => 4096) (by decide)).2.1
      (by decide)⟩

/-- Claim C19.  Subcommand dispatch on an empty slice.  With count 0 and a
table with a sentinel, `processSubCommand` does not return `false` up front: it
reads `argv[0]`, scans the table for the string found there and, on a match,
invokes the handler of the first matching entry with count `-1` and returns
`true`. -/
theorem processSubCommand_empty_slice (t : CommandInterface) (table : List CLICommand)
    (argv : Nat → Nat) (hsent : SentinelTerminated table) :
    t.processSubCommand (some table) 0 argv
      = some ((firstMatch t.mem (argv 0) table).isSome,
          t.expectedSubInvocations table 0 argv, t) ∧
    ∀ e, firstMatch t.mem (argv 0) table = some e →
      t.processSubCommand (some table) 0 argv
        = some (true,
            [{ handler_func := e.handler_func
               argc := -1
               argv := fun j => argv (j + 1)
               handler_data := e.handler_data }], t) := by
  have h := processSubCommand_of_nonneg t table 0 argv (Int.le_refl 0) hsent
  refine ⟨h, fun e he => ?_⟩
  rw [h]
  simp only [expectedSubInvocations, he]
  rfl

/-- Claim C19 on the table `on`, `off` with `argv[0]` pointing at the string
`on`: count 0 in, the handler of `on` is invoked with count `-1`. -/
theorem processSubCommand_empty_slice_witness :
    SentinelTerminated sampleTable ∧
    (sampleWithOn.processSubCommand (some sampleTable) 0 (fun _ => 4096)).map
        (fun r => (r.1, r.2.1.map (fun c => (c.handler_func, c.argc, c.handler_data))))
      = some (true, [(1, -1, 7)]) ∧
    sampleWithOn.processSubCommand (some sampleTable) 0 (fun _ => 4096)
      = some ((firstMatch sampleWithOn.mem 4096 sampleTable).isSome,
          sampleWithOn.expectedSubInvocations sampleTable 0 (fun _ => 4096), sampleWithOn) :=
  ⟨by decide, by decide,
    (processSubCommand_empty_slice sampleWithOn sampleTable (fun _ => 4096) (by decide)).1⟩

end CommandInterface
namespace CommandInterface

theorem loopBody_LF (t : CommandInterface) : t.loopBody LF = (t, false) := by
  unfold loopBody loopTail
  simp

theorem withoutLF_cons_LF (xs : List Nat) : withoutLF (LF :: xs) = withoutLF xs := by
  simp [withoutLF]

theorem withoutLF_cons (c : Nat) (xs : List Nat) (h : c ≠ LF) :
    withoutLF (c :: xs) = c :: withoutLF xs := by
  simp only [LF] at h
  simp [withoutLF, h]

/-- The loop ends in the same state whether or not the line feeds are deleted
from its input; the stream keeps the unread bytes, with their line feeds
deleted in the second case. -/
theorem drain_withoutLF (t : CommandInterface) (xs : List Nat) :
    t.drain (withoutLF xs)
      = ((t.drain xs).1,
          { (t.drain xs).2 with _stream := (t.drain xs).2._stream.map withoutLF }) := by
  induction xs generalizing t with
  | nil => rfl
  | cons c cs ih =>
    by_cases hc : c = LF
    · subst hc
      rw [withoutLF_cons_LF, ih]
      simp only [drain, loopBody_LF]
    · rw [withoutLF_cons c cs hc]
      simp only [drain]
      rcases h : t.loopBody c with ⟨t1, b⟩
      cases b
      · exact ih t1
      · rfl

/-- Claim C16.  Line feed is ignored unconditionally.  In every state the loop
body leaves the state as it is on a line feed and goes on; so `processInput`
in a not-ready state with the single byte line feed pending returns `false`
and changes nothing but the stream, which it empties.  Hence for every pending
byte sequence, deleting its line feeds changes neither the value `processInput`
returns nor the state it ends in; the stream then keeps the same unread bytes
without their line feeds. -/
theorem line_feed_ignored (t : CommandInterface) (xs : List Nat)
    (hready : t._cmd_ready = false) (hs : t._stream = some xs) :
    t.loopBody LF = (t, false) ∧
    ({ t with _stream := some [LF] }).processInput = some (false, { t with _stream := some [] }) ∧
    ∃ r t' rest, t.processInput = some (r, t') ∧ t'._stream = some rest ∧
      ({ t with _stream := some (withoutLF xs) }).processInput
        = some (r, { t' with _stream := some (withoutLF rest) }) := by
  refine ⟨loopBody_LF t, ?_, ?_⟩
  · rw [processInput_of_not_ready { t with _stream := some [LF] } [LF] hready rfl]
    simp only [drain, loopBody_LF]
  · have hd : ∃ rest, (t.drain xs).2._stream = some rest := by
      by_cases h : CR ∈ xs
      · obtain ⟨pre, post, h1, h2, _, _⟩ := split_at_first_CR xs h
        rw [h2, drain_line t pre post h1]
        exact ⟨post, rfl⟩
      · rw [drain_of_no_CR t xs h]
        exact ⟨[], rfl⟩
    obtain ⟨rest, hrest⟩ := hd
    refine ⟨(t.drain xs).1, (t.drain xs).2, rest, processInput_of_not_ready t xs hready hs,
      hrest, ?_⟩
    rw [processInput_of_not_ready { t with _stream := some (withoutLF xs) } (withoutLF xs)
      hready rfl, drain_with_stream t (some (withoutLF xs)), drain_withoutLF, hrest]
    rfl

/-- Claim C16 on the pending bytes `a`, line feed, `b`, carriage return, line
feed. -/
theorem line_feed_ignored_witness :
    (sampleInterface 8 [97, 10, 98, 13, 10])._cmd_ready = false ∧
    (sampleInterface 8 [97, 10, 98, 13, 10]).loopBody LF
      = (sampleInterface 8 [97, 10, 98, 13, 10], false) ∧
    ({ sampleInterface 8 [97, 10, 98, 13, 10] with _stream := some [LF] }).processInput
      = some (false, { sampleInterface 8 [97, 10, 98, 13, 10] with _stream := some [] }) ∧
    ∃ r t' rest, (sampleInterface 8 [97, 10, 98, 13, 10]).processInput = some (r, t') ∧
      t'._stream = some rest ∧
      ({ sampleInterface 8 [97, 10, 98, 13, 10] with
          _stream := some (withoutLF [97, 10, 98, 13, 10]) }).processInput
        = some (r, { t' with _stream := some (withoutLF rest) }) :=
  ⟨by decide, line_feed_ignored (sampleInterface 8 [97, 10, 98, 13, 10]) [97, 10, 98, 13, 10]
    (by decide) rfl⟩

end CommandInterface
namespace CommandInterface

theorem loopBody_inputBuffer (t : CommandInterface) (c : Nat) :
    (t.loopBody c).1._inputBuffer = t._inputBuffer ∧
    (t.loopBody c).1._inputBufferLength = t._inputBufferLength ∧
    (t.loopBody c).1._manifest = t._manifest := by
  unfold loopBody loopTail _head_record lineEnd
  dsimp only
  split_ifs <;> exact ⟨rfl, rfl, rfl⟩

theorem withinBounds_arguments (t : CommandInterface) (f : Nat → Nat) (h : t.WithinBounds) :
    ({ t with _arguments := f } : CommandInterface).WithinBounds := h

theorem withinBounds_ignore_spaces (t : CommandInterface) (b : Bool) (h : t.WithinBounds)
    (hr : t._cmd_ready = false) :
    ({ t with _ignore_spaces := b } : CommandInterface).WithinBounds := by
  obtain ⟨h1, h2, h3, h4, h5, h6⟩ := h
  exact ⟨h1, h2, h3, h4, fun e => absurd (hr.symm.trans e) (by decide), h6⟩

theorem withinBounds_argc (t : CommandInterface) (h : t.WithinBounds)
    (ha : t._argc < CLI_MAX_ARGUMENTS) :
    ({ t with _argc := t._argc + 1 } : CommandInterface).WithinBounds := by
  obtain ⟨h1, h2, h3, h4, h5, h6⟩ := h
  exact ⟨ha, h2, h3, h4, h5, h6⟩

theorem head_record_withinBounds (t : CommandInterface) (c : Nat) (h : t.WithinBounds) :
    (t._head_record c).1.WithinBounds := by
  obtain ⟨h1, h2, h3, h4, h5, h6⟩ := h
  have hti := toInt_cases t._inputBufferLength
  unfold _head_record
  split_ifs with hc
  · refine ⟨h1, ?_, ?_, h4, h5, ?_⟩
    · show t._inputBuffer ≤ t._head + 1; omega
    · show t._head + 1 ≤ t._inputBuffer + t._inputBufferLength; omega
    · right
      show ((t._head + 1 : Nat) : Int) - (t._inputBuffer : Int) ≤ toInt t._inputBufferLength
      omega
  · exact ⟨h1, h2, h3, h4, h5, h6⟩

theorem lineEnd_withinBounds (t : CommandInterface) (h : t.WithinBounds) :
    t.lineEnd.WithinBounds := by
  obtain ⟨h1, h2, h3, h4, h5, h6⟩ := h
  refine ⟨?_, Nat.le_refl _, Nat.le_add_right _ _, h4, fun _ => rfl, Or.inl rfl⟩
  show (if t._argc < CLI_MAX_ARGUMENTS ∧ t._arguments t._argc < t._head then t._argc + 1
    else t._argc) ≤ CLI_MAX_ARGUMENTS
  split_ifs with hc
  · exact hc.1
  · exact h1

/-- One pass of the loop body in a state without a pending line keeps the
bounds. -/
theorem loopBody_withinBounds (t : CommandInterface) (c : Nat) (h : t.WithinBounds)
    (hr : t._cmd_ready = false) : (t.loopBody c).1.WithinBounds := by
  have htail : (t.loopTail c).1.WithinBounds := by
    unfold loopTail
    split_ifs
    · exact lineEnd_withinBounds t h
    · exact h
    · exact head_record_withinBounds t c h
  unfold loopBody
  dsimp only
  by_cases ha : t._argc < CLI_MAX_ARGUMENTS
  · rw [if_pos ha]
    have hflag : ∀ b, ({ t with _ignore_spaces := b } : CommandInterface).WithinBounds :=
      fun b => withinBounds_ignore_spaces t b h hr
    have hcount : ∀ b, ({ t with _ignore_spaces := b, _argc := t._argc + 1 }
        : CommandInterface).WithinBounds :=
      fun b => withinBounds_argc { t with _ignore_spaces := b } (hflag b) ha
    split_ifs
    · exact withinBounds_arguments _ _ (head_record_withinBounds _ _ (hcount _))
    · exact hcount _
    · exact hflag _
    · exact h
    · exact withinBounds_arguments _ _
        (head_record_withinBounds _ _ (withinBounds_argc t h ha))
    · exact head_record_withinBounds _ _ (withinBounds_argc t h ha)
    · exact htail
  · rw [if_neg ha]
    exact htail

theorem withinBounds_with_stream (t : CommandInterface) (x : Option (List Nat))
    (h : t.WithinBounds) : ({ t with _stream := x } : CommandInterface).WithinBounds := h

theorem drain_withinBounds (t : CommandInterface) (xs : List Nat) (h : t.WithinBounds)
    (hr : t._cmd_ready = false) : (t.drain xs).2.WithinBounds := by
  induction xs generalizing t with
  | nil => exact h
  | cons c cs ih =>
    have hb := loopBody_withinBounds t c h hr
    have hs := loopBody_snd t c
    have hc := loopBody_cmd_ready t c
    simp only [drain]
    rcases hl : t.loopBody c with ⟨t1, b⟩
    rw [hl] at hb hs hc
    simp only at hb hs hc
    cases b
    · have hne : c ≠ CR := by
        intro e; rw [e] at hs; simp at hs
      exact ih t1 hb (by rw [hc, hr]; simp [hne])
    · exact hb

theorem processInput_withinBounds (t t' : CommandInterface) (r : Bool) (h : t.WithinBounds)
    (hp : t.processInput = some (r, t')) : t'.WithinBounds := by
  unfold processInput at hp
  by_cases hr : t._cmd_ready = true
  · rw [if_pos hr] at hp
    simp only [Option.some.injEq, Prod.mk.injEq] at hp
    rw [← hp.2]; exact h
  · rw [if_neg hr] at hp
    simp only [Bool.not_eq_true] at hr
    cases hs : t._stream with
    | none => rw [hs] at hp; simp at hp
    | some pending =>
      rw [hs] at hp
      simp only [Option.some.injEq] at hp
      have := drain_withinBounds t pending h hr
      rw [hp] at this
      exact this

theorem input_reset_withinBounds (t : CommandInterface) (h : t.WithinBounds) :
    t._input_reset.WithinBounds := by
  obtain ⟨h1, h2, h3, h4, h5, h6⟩ := h
  exact ⟨Nat.zero_le _, Nat.le_refl _, Nat.le_add_right _ _, h4, fun _ => rfl, Or.inl rfl⟩

theorem executeInput_state (t t' : CommandInterface) (r : Bool) (calls : List Invocation)
    (he : t.executeInput = some (r, calls, t')) : t' = t ∨ t' = t._input_reset := by
  unfold executeInput at he
  split_ifs at he with h1 h2
  · left; simp only [Option.some.injEq, Prod.mk.injEq] at he; exact he.2.2.symm
  · right
    cases hm : t._manifest with
    | none => rw [hm] at he; simp at he
    | some table =>
      rw [hm] at he
      simp only at he
      cases hsc : scanTable t.mem (t._arguments 0) table with
      | none => rw [hsc] at he; simp at he
      | some o =>
        rw [hsc] at he
        cases o <;> simp only [Option.some.injEq, Prod.mk.injEq] at he <;> exact he.2.2.symm
  · right; simp only [Option.some.injEq, Prod.mk.injEq] at he; exact he.2.2.symm

theorem begin_withinBounds (t0 : CommandInterface) (s : Option (List Nat)) (inbuf n : Nat)
    (hm : t0._manifest ≠ none) (hs : s ≠ none) (hb : inbuf ≠ 0) (hn : 2 ≤ n) :
    (t0.begin s inbuf n).WithinBounds := by
  unfold begin
  rw [if_neg (by rintro (h | h | h | h) <;> [exact hm h; exact hs h; exact hb h; omega])]
  exact ⟨Nat.zero_le _, Nat.le_refl _, Nat.le_add_right _ _, hn, fun h => rfl, Or.inl rfl⟩

/-- Every reachable state is within the bounds. -/
theorem reachable_withinBounds (t : CommandInterface) (h : Reachable t) : t.WithinBounds := by
  induction h with
  | begin t0 s inbuf n hm hs hb hn => exact begin_withinBounds t0 s inbuf n hm hs hb hn
  | arrive t xs _ ih => exact ih
  | processInput t t' r _ hp ih => exact processInput_withinBounds t t' r ih hp
  | executeInput t t' r calls _ he ih =>
    rcases executeInput_state t t' r calls he with e | e
    · rw [e]; exact ih
    · rw [e]; exact input_reset_withinBounds t ih

/-- One pass of the loop body writes no slot outside the argument table. -/
theorem loopBody_arguments_frame (t : CommandInterface) (c : Nat) (i : Nat)
    (hi : CLI_MAX_ARGUMENTS ≤ i) : (t.loopBody c).1._arguments i = t._arguments i := by
  simp only [CLI_MAX_ARGUMENTS] at hi
  unfold loopBody loopTail _head_record lineEnd
  dsimp only
  split_ifs <;> dsimp only <;> first
    | rfl
    | (rw [store_other _ _ _ _ (by simp only [CLI_MAX_ARGUMENTS] at *; omega)])

theorem drain_arguments_frame (t : CommandInterface) (xs : List Nat) (i : Nat)
    (hi : CLI_MAX_ARGUMENTS ≤ i) : (t.drain xs).2._arguments i = t._arguments i := by
  induction xs generalizing t with
  | nil => rfl
  | cons c cs ih =>
    have hm := loopBody_arguments_frame t c i hi
    simp only [drain]
    rcases hl : t.loopBody c with ⟨t1, b⟩
    rw [hl] at hm
    simp only at hm
    cases b
    · rw [ih t1, hm]
    · exact hm

end CommandInterface
namespace CommandInterface

theorem outsideTable_of_lt (a b : Nat → Nat) (i : Nat) (h : i < CLI_MAX_ARGUMENTS) :
    outsideTable a b i = a i := by
  simp only [outsideTable, if_pos h]

theorem outsideTable_store (a b : Nat → Nat) (i v : Nat) (h : i < CLI_MAX_ARGUMENTS) :
    store (outsideTable a b) i v = outsideTable (store a i v) b := by
  funext x
  simp only [CLI_MAX_ARGUMENTS] at h
  simp only [store, outsideTable, CLI_MAX_ARGUMENTS]
  split_ifs <;> first | rfl | omega

/-- One pass of the loop body reads no slot outside the argument table: with
other values in the slots from `CLI_MAX_ARGUMENTS` on it takes the same path and
ends in the same state, these slots keeping the other values. -/
theorem loopBody_outsideTable (t : CommandInterface) (b : Nat → Nat) (c : Nat) :
    ({ t with _arguments := outsideTable t._arguments b } : CommandInterface).loopBody c
      = ({ (t.loopBody c).1 with _arguments := outsideTable (t.loopBody c).1._arguments b },
          (t.loopBody c).2) := by
  by_cases ha : t._argc < CLI_MAX_ARGUMENTS
  · unfold loopBody loopTail _head_record lineEnd
    dsimp only
    rw [outsideTable_of_lt _ _ _ ha]
    split_ifs <;> dsimp only <;> first
      | rfl
      | (rw [outsideTable_store _ _ _ _ (by assumption)])
  · unfold loopBody loopTail _head_record lineEnd
    dsimp only
    rw [if_neg ha, if_neg ha]
    split_ifs <;> first
      | rfl
      | (exfalso; simp only [CLI_MAX_ARGUMENTS] at *; omega)

theorem drain_outsideTable (t : CommandInterface) (b : Nat → Nat) (xs : List Nat) :
    ({ t with _arguments := outsideTable t._arguments b } : CommandInterface).drain xs
      = ((t.drain xs).1,
          { (t.drain xs).2 with _arguments := outsideTable (t.drain xs).2._arguments b }) := by
  induction xs generalizing t with
  | nil => rfl
  | cons c cs ih =>
    simp only [drain, loopBody_outsideTable]
    rcases hl : t.loopBody c with ⟨t1, f⟩
    cases f
    · exact ih t1
    · rfl

theorem processInput_outsideTable (t : CommandInterface) (b : Nat → Nat) :
    ({ t with _arguments := outsideTable t._arguments b } : CommandInterface).processInput
      = (t.processInput).map
          (fun r => (r.1, { r.2 with _arguments := outsideTable r.2._arguments b })) := by
  unfold processInput
  dsimp only
  by_cases hr : t._cmd_ready = true
  · rw [if_pos hr, if_pos hr]; rfl
  · rw [if_neg hr, if_neg hr]
    cases hs : t._stream with
    | none => rfl
    | some pending =>
      simp only [Option.map_some']
      rw [← hs]
      exact congrArg some (drain_outsideTable t b pending)

theorem processInput_arguments_frame (t t' : CommandInterface) (r : Bool)
    (hp : t.processInput = some (r, t')) (i : Nat) (hi : CLI_MAX_ARGUMENTS ≤ i) :
    t'._arguments i = t._arguments i := by
  unfold processInput at hp
  by_cases hr : t._cmd_ready = true
  · rw [if_pos hr] at hp
    simp only [Option.some.injEq, Prod.mk.injEq] at hp
    rw [← hp.2]
  · rw [if_neg hr] at hp
    cases hs : t._stream with
    | none => rw [hs] at hp; simp at hp
    | some pending =>
      rw [hs] at hp
      simp only [Option.some.injEq] at hp
      have := drain_arguments_frame t pending i hi
      rw [hp] at this
      exact this

/-- Claim C17.  Argument count bound.  In every reachable state `_argc` is at
most `CLI_MAX_ARGUMENTS`.  A call of `processInput` writes no slot of the
argument table from index `CLI_MAX_ARGUMENTS` on, and reads none: with other
values in these slots it returns the same value and ends in the same state,
these slots keeping the other values.  So every access to the table lies
inside its `CLI_MAX_ARGUMENTS` entries. -/
theorem argument_count_bound (t : CommandInterface) (h : Reachable t) :
    t._argc ≤ CLI_MAX_ARGUMENTS ∧
    (∀ r t', t.processInput = some (r, t') →
      t'._argc ≤ CLI_MAX_ARGUMENTS ∧
      ∀ i, CLI_MAX_ARGUMENTS ≤ i → t'._arguments i = t._arguments i) ∧
    (∀ b, ({ t with _arguments := outsideTable t._arguments b } : CommandInterface).processInput
      = (t.processInput).map
          (fun r => (r.1, { r.2 with _arguments := outsideTable r.2._arguments b }))) :=
  ⟨(reachable_withinBounds t h).1,
    fun r t' hp =>
      ⟨(processInput_withinBounds t t' r (reachable_withinBounds t h) hp).1,
        fun i hi => processInput_arguments_frame t t' r hp i hi⟩,
    fun b => processInput_outsideTable t b⟩

/-- Claim C17 on the sample interface after `begin`. -/
theorem argument_count_bound_witness :
    Reachable (sampleInterface 8 [97, 13]) ∧
    (sampleInterface 8 [97, 13])._argc ≤ CLI_MAX_ARGUMENTS ∧
    (∀ r t', (sampleInterface 8 [97, 13]).processInput = some (r, t') →
      t'._argc ≤ CLI_MAX_ARGUMENTS ∧
      ∀ i, CLI_MAX_ARGUMENTS ≤ i → t'._arguments i = (sampleInterface 8 [97, 13])._arguments i) ∧
    (∀ b, ({ sampleInterface 8 [97, 13] with
          _arguments := outsideTable (sampleInterface 8 [97, 13])._arguments b }
        : CommandInterface).processInput
      = ((sampleInterface 8 [97, 13]).processInput).map
          (fun r => (r.1, { r.2 with _arguments := outsideTable r.2._arguments b }))) :=
  ⟨Reachable.begin _ _ _ _ (by decide) (by decide) (by decide) (by decide),
    argument_count_bound (sampleInterface 8 [97, 13])
      (Reachable.begin _ _ _ _ (by decide) (by decide) (by decide) (by decide))⟩

end CommandInterface
namespace CommandInterface

theorem drain_true_ignore_spaces (t : CommandInterface) (xs : List Nat)
    (h : (t.drain xs).1 = true) : (t.drain xs).2._ignore_spaces = false := by
  induction xs generalizing t with
  | nil => simp [drain] at h
  | cons c cs ih =>
    have hs := loopBody_snd t c
    simp only [drain] at h ⊢
    rcases hl : t.loopBody c with ⟨t1, b⟩
    rw [hl] at hs h
    simp only at hs h
    cases b
    · simp only at h ⊢
      exact ih t1 h
    · have hc : c = CR := by simpa using hs.symm
      rw [hc, loopBody_CR] at hl
      simp only [Prod.mk.injEq] at hl
      rw [← hl.1]
      rfl

/-- In a reachable state, a call of `processInput` that returns `true` ends
with the quote flag clear. -/
theorem processInput_true_ignore_spaces (t t' : CommandInterface) (h : Reachable t)
    (hp : t.processInput = some (true, t')) : t'._ignore_spaces = false := by
  have hb := reachable_withinBounds t h
  unfold processInput at hp
  by_cases hr : t._cmd_ready = true
  · rw [if_pos hr] at hp
    simp only [Option.some.injEq, Prod.mk.injEq, true_and] at hp
    rw [← hp]
    exact hb.2.2.2.2.1 hr
  · rw [if_neg hr] at hp
    cases hs : t._stream with
    | none => rw [hs] at hp; simp at hp
    | some pending =>
      rw [hs] at hp
      simp only [Option.some.injEq] at hp
      have := drain_true_ignore_spaces t pending (by rw [hp])
      rw [hp] at this
      exact this

/-- Claim C13, as amended.  An unclosed quote is auto-closed at the line
boundary.  For an interface at the start of a line with a capacity of at most
`INT_MAX` and a non-empty byte string `s` holding no double quote, carriage
return, line feed or terminator byte and shorter than the buffer,
`processInput` on `"`, `s`, carriage return makes the
line ready with the single argument `s` and the quote flag clear; and in every
reachable state a call of `processInput` that returns `true` ends with the
quote flag clear. -/
theorem unclosed_quote_auto_closed (t : CommandInterface) (s rest : List Nat)
    (hfresh : t.FreshLine) (hcap : t._inputBufferLength ≤ INT_MAX)
    (hs : t._stream = some (QUOTE :: s ++ CR :: rest))
    (hne : s ≠ [])
    (hbytes : ∀ c ∈ s, c ≠ QUOTE ∧ c ≠ CR ∧ c ≠ LF ∧ c ≠ NUL)
    (hroom : s.length < t._inputBufferLength) :
    (∃ t', t.processInput = some (true, t') ∧ t'._cmd_ready = true ∧ t'._argc = 1 ∧
      t'.argumentVector = [some s] ∧ t'._ignore_spaces = false ∧ t'._stream = some rest) ∧
    (∀ u u', Reachable u → u.processInput = some (true, u') → u'._ignore_spaces = false) := by
  refine ⟨?_, fun u u' hu hp => processInput_true_ignore_spaces u u' hu hp⟩
  obtain ⟨h1, h2, h3, h4, h5⟩ := hfresh
  have hlen : 0 < s.length := List.length_pos.2 hne
  have hti : toInt t._inputBufferLength = (t._inputBufferLength : Int) := toInt_of_le _ hcap
  have hcr : CR ∉ QUOTE :: s := by
    simp only [List.mem_cons, not_or]
    exact ⟨by decide, fun h => (hbytes CR h).2.1 rfl⟩
  have e2 : ({ t with _ignore_spaces := true } : CommandInterface).consumeBytes s
      = { t with
          _ignore_spaces := true
          mem := writeBytes t.mem t._inputBuffer s
          _head := t._inputBuffer + s.length } := by
    rw [consumeBytes_plain { t with _ignore_spaces := true } s
      (fun c hc => ⟨(hbytes c hc).2.1, (hbytes c hc).2.2.1,
        fun _ => ⟨(hbytes c hc).1, fun h => by simp at h⟩⟩)
      hcap
      (by show t._inputBuffer ≤ t._head; omega)
      (by show t._head ≤ t._inputBuffer + t._inputBufferLength; omega)]
    show ({ t with
      _ignore_spaces := true
      mem := writeBytes t.mem t._head (s.take (t._inputBuffer + t._inputBufferLength - t._head))
      _head := t._head + min s.length (t._inputBuffer + t._inputBufferLength - t._head) }
        : CommandInterface) = _
    rw [h3, List.take_of_length_le (by omega), Nat.min_eq_left (by omega)]
  have hargc : ({ ({ t with
          _ignore_spaces := true
          mem := writeBytes t.mem t._inputBuffer s
          _head := t._inputBuffer + s.length } : CommandInterface).lineEnd with
        _stream := some rest } : CommandInterface)._argc = 1 := by
    simp only [lineEnd, h2, h4]
    rw [if_pos (by constructor <;> [decide; omega])]
  refine ⟨_, ?_, rfl, hargc, ?_, rfl, rfl⟩
  · rw [processInput_of_not_ready t _ h1 hs,
      show QUOTE :: s ++ CR :: rest = (QUOTE :: s) ++ CR :: rest from rfl,
      drain_line t (QUOTE :: s) rest hcr, consumeBytes_cons,
      loopBody_open t (by rw [h2]; decide) h5, e2]
  · rw [argumentVector_one _ hargc]
    simp only [argument, bufferEnd, lineEnd, h4, Nat.add_sub_cancel_left]
    congr 1
    rw [if_neg (by omega)]
    apply readCStr_of_storedAt _ _ _ _ _ _ (fun b hb => (hbytes b hb).2.2.2) hroom
    · apply storedAt_congr _ _ _ _ _ (storedAt_writeBytes t.mem t._inputBuffer s)
      intro x hx1 hx2
      rw [store_other _ _ _ _ (by omega)]
    · rw [store_same]

/-- Claim C13 fails as stated for a quoted string with a terminator byte and
for a capacity above `INT_MAX`.  For `"` followed by the byte `0` the argument
read back is the empty string.  With a capacity of `2^31` bytes the line `"a b`
leaves the argument count `0`: the capacity converted to `int` is negative and
no byte is recorded. -/
theorem unclosed_quote_counterexample :
    ((sampleInterface 8 [QUOTE, NUL, CR]).processInput).map
        (fun r => (r.1, r.2._argc, r.2.argumentVector))
      = some (true, 1, [some []]) ∧
    ((sampleInterface 2147483648 [QUOTE, 97, 32, 98, CR]).FreshLine ∧
      ((sampleInterface 2147483648 [QUOTE, 97, 32, 98, CR]).processInput).map
          (fun r => (r.1, r.2._argc, r.2.argumentVector))
        = some (true, 0, [])) := by
  refine ⟨?_, ?_, ?_⟩ <;> decide

/-- Claim C13 at the line `"a b` without a closing quote. -/
theorem unclosed_quote_auto_closed_witness :
    (sampleInterface 8 [34, 97, 32, 98, 13]).FreshLine ∧
    (sampleInterface 8 [34, 97, 32, 98, 13])._inputBufferLength ≤ INT_MAX ∧
    ([97, 32, 98] : List Nat).length < (sampleInterface 8 [34, 97, 32, 98, 13])._inputBufferLength ∧
    (∃ t', (sampleInterface 8 [34, 97, 32, 98, 13]).processInput = some (true, t') ∧
      t'._cmd_ready = true ∧ t'._argc = 1 ∧
      t'.argumentVector = [some [97, 32, 98]] ∧ t'._ignore_spaces = false ∧
      t'._stream = some []) ∧
    (∀ u u', Reachable u → u.processInput = some (true, u') → u'._ignore_spaces = false) :=
  ⟨by decide, by decide, by decide,
    unclosed_quote_auto_closed (sampleInterface 8 [34, 97, 32, 98, 13]) [97, 32, 98] []
      (by decide) (by decide) rfl (by decide) (by decide) (by decide)⟩

end CommandInterface
namespace CommandInterface

theorem head_record_fields (t : CommandInterface) (c : Nat) :
    (t._head_record c).1._argc = t._argc ∧
    (t._head_record c).1._arguments = t._arguments ∧
    (t._head_record c).1._inputBuffer = t._inputBuffer ∧
    (t._head_record c).1._inputBufferLength = t._inputBufferLength ∧
    (t._head_record c).1._ignore_spaces = t._ignore_spaces ∧
    (t._head_record c).1._cmd_ready = t._cmd_ready := by
  unfold _head_record
  split_ifs <;> exact ⟨rfl, rfl, rfl, rfl, rfl, rfl⟩

/-- Recording a byte keeps two interfaces in agreement. -/
theorem sameCore_head_record (t u : CommandInterface) (c n : Nat)
    (hc : SameCore t u) (hs : SameSlots n t u) :
    SameCore (t._head_record c).1 (u._head_record c).1 ∧
      SameSlots n (t._head_record c).1 (u._head_record c).1 := by
  obtain ⟨c1, c2, c3, c4, c5, c6, c7, c8, c9⟩ := hc
  have hlen : toInt t._inputBufferLength = toInt u._inputBufferLength := by rw [c1]
  have hti := toInt_cases t._inputBufferLength
  by_cases hr : (t._head : Int) - (t._inputBuffer : Int) < toInt t._inputBufferLength
  · rw [head_record_of_lt t c hr, head_record_of_lt u c (by omega)]
    refine ⟨⟨c1, c2, c3, c4, ?_, ?_, ?_, ⟨?_, ?_⟩, ?_⟩, ?_⟩
    · show t._inputBuffer ≤ t._head + 1; omega
    · show u._inputBuffer ≤ u._head + 1; omega
    · show t._head + 1 - t._inputBuffer = u._head + 1 - u._inputBuffer; omega
    · show t._head + 1 ≤ t._inputBuffer + t._inputBufferLength; omega
    · right
      show ((t._head + 1 : Nat) : Int) - (t._inputBuffer : Int) ≤ toInt t._inputBufferLength
      omega
    · intro j hj
      show store t.mem t._head c (t._inputBuffer + j) = store u.mem u._head c (u._inputBuffer + j)
      have hj' : t._inputBuffer + j < t._head + 1 := hj
      by_cases e : t._inputBuffer + j = t._head
      · rw [e, show u._inputBuffer + j = u._head by omega, store_same, store_same]
      · rw [store_other _ _ _ _ e, store_other _ _ _ _ (by omega)]
        exact c9 j (by omega)
    · intro i hi1 hi2
      obtain ⟨s1, s2, s3, s4⟩ := hs i hi1 hi2
      exact ⟨s1, Nat.le_succ_of_le s2, s3, s4⟩
  · rw [head_record_of_not_lt t c hr, head_record_of_not_lt u c (by omega)]
    exact ⟨⟨c1, c2, c3, c4, c5, c6, c7, c8, c9⟩, hs⟩

/-- Pointing the slot at the argument count to the cursor keeps two
interfaces in agreement. -/
theorem sameSlots_set (t u : CommandInterface) (n : Nat)
    (hc : SameCore t u) (hs : SameSlots n t u) (ha : t._argc = n + 1) :
    SameLine { t with _arguments := store t._arguments t._argc t._head }
      { u with _arguments := store u._arguments u._argc u._head } := by
  obtain ⟨c1, c2, c3, c4, c5, c6, c7, c8, c9⟩ := hc
  refine ⟨⟨c1, c2, c3, c4, c5, c6, c7, c8, c9⟩, ?_⟩
  intro i hi1 hi2
  show t._inputBuffer ≤ store t._arguments t._argc t._head i ∧
    store t._arguments t._argc t._head i ≤ t._head ∧
    u._inputBuffer ≤ store u._arguments u._argc u._head i ∧
    store t._arguments t._argc t._head i - t._inputBuffer
      = store u._arguments u._argc u._head i - u._inputBuffer
  have hi1' : i ≤ t._argc := hi1
  by_cases e : i = t._argc
  · rw [e, store_same, show t._argc = u._argc from c2, store_same]
    exact ⟨c5, Nat.le_refl _, c6, c7⟩
  · rw [store_other _ _ _ _ e, store_other _ _ _ _ (by omega)]
    exact hs i (by omega) hi2

theorem loopBody_close_quote_gen (t : CommandInterface)
    (ha : t._argc + 1 < CLI_MAX_ARGUMENTS) (hi : t._ignore_spaces = true) :
    t.loopBody QUOTE =
      ({ (({ t with _ignore_spaces := false, _argc := t._argc + 1 }
              : CommandInterface)._head_record NUL).1 with
          _arguments :=
            store (({ t with _ignore_spaces := false, _argc := t._argc + 1 }
                : CommandInterface)._head_record NUL).1._arguments
              (({ t with _ignore_spaces := false, _argc := t._argc + 1 }
                : CommandInterface)._head_record NUL).1._argc
              (({ t with _ignore_spaces := false, _argc := t._argc + 1 }
                : CommandInterface)._head_record NUL).1._head }, false) := by
  unfold loopBody
  dsimp only
  rw [if_pos (by omega), if_pos rfl, hi]
  simp only [Bool.xor_self, if_true]
  rw [if_pos ha]

theorem loopBody_close_quote_last (t : CommandInterface)
    (ha : t._argc < CLI_MAX_ARGUMENTS) (hl : ¬ t._argc + 1 < CLI_MAX_ARGUMENTS)
    (hi : t._ignore_spaces = true) :
    t.loopBody QUOTE = ({ t with _ignore_spaces := false, _argc := t._argc + 1 }, false) := by
  unfold loopBody
  dsimp only
  rw [if_pos ha, if_pos rfl, hi]
  simp only [Bool.xor_self, if_true]
  rw [if_neg hl]

theorem loopBody_close_gen (t : CommandInterface) (c : Nat) (hc : c = SPACE ∨ c = TAB)
    (ha : t._argc + 1 < CLI_MAX_ARGUMENTS) (hi : t._ignore_spaces = false)
    (he : t._arguments t._argc ≠ t._head) :
    t.loopBody c =
      ({ (({ t with _argc := t._argc + 1 } : CommandInterface)._head_record NUL).1 with
          _arguments :=
            store (({ t with _argc := t._argc + 1 } : CommandInterface)._head_record NUL).1._arguments
              (({ t with _argc := t._argc + 1 } : CommandInterface)._head_record NUL).1._argc
              (({ t with _argc := t._argc + 1 } : CommandInterface)._head_record NUL).1._head },
        false) := by
  have hq : c ≠ QUOTE := by rcases hc with e | e <;> simp [e]
  unfold loopBody
  dsimp only
  rw [if_pos (by omega), if_neg hq, if_pos ⟨hi, hc⟩, if_neg he, if_pos ha]

theorem loopBody_overflow_gen (t : CommandInterface) (c : Nat) (hc : c = SPACE ∨ c = TAB)
    (ha : t._argc < CLI_MAX_ARGUMENTS) (hl : ¬ t._argc + 1 < CLI_MAX_ARGUMENTS)
    (hi : t._ignore_spaces = false) (he : t._arguments t._argc ≠ t._head) :
    t.loopBody c
      = ((({ t with _argc := t._argc + 1 } : CommandInterface)._head_record c).1, false) := by
  have hq : c ≠ QUOTE := by rcases hc with e | e <;> simp [e]
  unfold loopBody
  dsimp only
  rw [if_pos ha, if_neg hq, if_pos ⟨hi, hc⟩, if_neg he, if_neg hl]

theorem sameLine_head_record (t u : CommandInterface) (c : Nat) (h : SameLine t u) :
    SameLine (t._head_record c).1 (u._head_record c).1 := by
  obtain ⟨r1, r2⟩ := sameCore_head_record t u c t._argc h.1 h.2
  refine ⟨r1, ?_⟩
  rw [(head_record_fields t c).1]
  exact r2

/-- One pass of the loop body on a byte other than carriage return keeps two
interfaces in agreement. -/
theorem loopBody_sameLine (t u : CommandInterface) (c : Nat) (h : SameLine t u) :
    SameLine (t.loopBody c).1 (u.loopBody c).1 ∨ c = CR := by
  by_cases hcr : c = CR
  · exact Or.inr hcr
  left
  have hline := h
  obtain ⟨⟨c1, c2, c3, c4, c5, c6, c7, c8, c9⟩, hslots⟩ := h
  by_cases hlf : c = LF
  · rw [hlf, loopBody_LF, loopBody_LF]; exact hline
  by_cases ha : t._argc < CLI_MAX_ARGUMENTS
  · have hau : u._argc < CLI_MAX_ARGUMENTS := by rw [← c2]; exact ha
    obtain ⟨s1, s2, s3', s4'⟩ := hslots t._argc (Nat.le_refl _) ha
    have s3 : u._inputBuffer ≤ u._arguments u._argc := by rw [← c2]; exact s3'
    have s4 : t._arguments t._argc - t._inputBuffer = u._arguments u._argc - u._inputBuffer := by
      rw [← c2]; exact s4'
    by_cases hq : c = QUOTE
    · subst hq
      by_cases hi : t._ignore_spaces = true
      · have hiu : u._ignore_spaces = true := by rw [← c3]; exact hi
        by_cases hl : t._argc + 1 < CLI_MAX_ARGUMENTS
        · rw [loopBody_close_quote_gen t hl hi,
            loopBody_close_quote_gen u (by rw [← c2]; exact hl) hiu]
          have core2 : SameCore
              ({ t with _ignore_spaces := false, _argc := t._argc + 1 } : CommandInterface)
              ({ u with _ignore_spaces := false, _argc := u._argc + 1 } : CommandInterface) :=
            ⟨c1, by show t._argc + 1 = u._argc + 1; omega, rfl, c4, c5, c6, c7, c8, c9⟩
          have slots2 : SameSlots t._argc
              ({ t with _ignore_spaces := false, _argc := t._argc + 1 } : CommandInterface)
              ({ u with _ignore_spaces := false, _argc := u._argc + 1 } : CommandInterface) :=
            hslots
          obtain ⟨core3, slots3⟩ := sameCore_head_record _ _ NUL t._argc core2 slots2
          exact sameSlots_set _ _ t._argc core3 slots3 (head_record_fields _ NUL).1
        · rw [loopBody_close_quote_last t ha hl hi,
            loopBody_close_quote_last u hau (by rw [← c2]; exact hl) hiu]
          refine ⟨⟨c1, by show t._argc + 1 = u._argc + 1; omega, rfl, c4, c5, c6, c7, c8, c9⟩,
            fun i hi1 hi2 => hslots i ?_ hi2⟩
          have hi1' : i ≤ t._argc + 1 := hi1
          simp only [CLI_MAX_ARGUMENTS] at hi2 hl
          omega
      · simp only [Bool.not_eq_true] at hi
        rw [loopBody_open t ha hi, loopBody_open u hau (by rw [← c3]; exact hi)]
        exact ⟨⟨c1, c2, rfl, c4, c5, c6, c7, c8, c9⟩, hslots⟩
    · by_cases hd : c = SPACE ∨ c = TAB
      · by_cases hi : t._ignore_spaces = false
        · have hiu : u._ignore_spaces = false := by rw [← c3]; exact hi
          by_cases he : t._arguments t._argc = t._head
          · rw [loopBody_skip t c hd ha hi he, loopBody_skip u c hd hau hiu (by omega)]
            exact hline
          · have heu : u._arguments u._argc ≠ u._head := by omega
            by_cases hl : t._argc + 1 < CLI_MAX_ARGUMENTS
            · rw [loopBody_close_gen t c hd hl hi he,
                loopBody_close_gen u c hd (by rw [← c2]; exact hl) hiu heu]
              have core2 : SameCore ({ t with _argc := t._argc + 1 } : CommandInterface)
                  ({ u with _argc := u._argc + 1 } : CommandInterface) :=
                ⟨c1, by show t._argc + 1 = u._argc + 1; omega, c3, c4, c5, c6, c7, c8, c9⟩
              have slots2 : SameSlots t._argc ({ t with _argc := t._argc + 1 } : CommandInterface)
                  ({ u with _argc := u._argc + 1 } : CommandInterface) := hslots
              obtain ⟨core3, slots3⟩ := sameCore_head_record _ _ NUL t._argc core2 slots2
              exact sameSlots_set _ _ t._argc core3 slots3 (head_record_fields _ NUL).1
            · rw [loopBody_overflow_gen t c hd ha hl hi he,
                loopBody_overflow_gen u c hd hau (by rw [← c2]; exact hl) hiu heu]
              apply sameLine_head_record
              refine ⟨⟨c1, by show t._argc + 1 = u._argc + 1; omega, c3, c4, c5, c6, c7, c8, c9⟩,
                fun i hi1 hi2 => hslots i ?_ hi2⟩
              have hi1' : i ≤ t._argc + 1 := hi1
              simp only [CLI_MAX_ARGUMENTS] at hi2 hl
              omega
        · rw [loopBody_plain t c ⟨hcr, hlf, fun _ => ⟨hq, fun e => absurd e hi⟩⟩,
            loopBody_plain u c ⟨hcr, hlf, fun _ => ⟨hq, fun e => absurd (c3.trans e) hi⟩⟩]
          exact sameLine_head_record t u c hline
      · have hd' : c ≠ SPACE ∧ c ≠ TAB := by
          constructor
          · exact fun e => hd (Or.inl e)
          · exact fun e => hd (Or.inr e)
        rw [loopBody_plain t c ⟨hcr, hlf, fun _ => ⟨hq, fun _ => hd'⟩⟩,
          loopBody_plain u c ⟨hcr, hlf, fun _ => ⟨hq, fun _ => hd'⟩⟩]
        exact sameLine_head_record t u c hline
  · rw [loopBody_plain t c (plain_of_full t c ha hcr hlf),
      loopBody_plain u c (plain_of_full u c (by rw [← c2]; exact ha) hcr hlf)]
    exact sameLine_head_record t u c hline

theorem consumeBytes_sameLine (t u : CommandInterface) (xs : List Nat) (h : SameLine t u)
    (hcr : CR ∉ xs) : SameLine (t.consumeBytes xs) (u.consumeBytes xs) := by
  induction xs generalizing t u with
  | nil => exact h
  | cons c cs ih =>
    simp only [List.mem_cons, not_or] at hcr
    rw [consumeBytes_cons, consumeBytes_cons]
    rcases loopBody_sameLine t u c h with h' | h'
    · exact ih _ _ h' hcr.2
    · exact absurd h'.symm hcr.1

theorem consumeBytes_inputBuffer (t : CommandInterface) (xs : List Nat) :
    (t.consumeBytes xs)._inputBuffer = t._inputBuffer ∧
    (t.consumeBytes xs)._inputBufferLength = t._inputBufferLength := by
  induction xs generalizing t with
  | nil => exact ⟨rfl, rfl⟩
  | cons c cs ih =>
    rw [consumeBytes_cons]
    obtain ⟨i1, i2⟩ := ih (t.loopBody c).1
    obtain ⟨j1, j2, _⟩ := loopBody_inputBuffer t c
    exact ⟨i1.trans j1, i2.trans j2⟩

end CommandInterface

/-- Two strings read the same when memory agrees from their starts up to a
terminator that lies within the bytes read. -/
theorem readCStr_agree (m m' : Nat → Nat) (a a' fuel z : Nat)
    (hag : ∀ d, d ≤ z → m (a + d) = m' (a' + d)) (hz : m (a + z) = NUL) (hf : z < fuel) :
    readCStr m a fuel = readCStr m' a' fuel := by
  induction fuel generalizing a a' z with
  | zero => omega
  | succ n ih =>
    have h0 := hag 0 (Nat.zero_le _)
    simp only [Nat.add_zero] at h0
    rw [readCStr, readCStr, ← h0]
    by_cases hm : m a = NUL
    · rw [if_pos hm, if_pos hm]
    · rw [if_neg hm, if_neg hm]
      cases z with
      | zero => exact absurd hz hm
      | succ z' =>
        rw [ih (a + 1) (a' + 1) z'
          (fun d hd => by
            have := hag (d + 1) (by omega)
            rw [show a + 1 + d = a + (d + 1) by omega, show a' + 1 + d = a' + (d + 1) by omega]
            exact this)
          (by rw [show a + 1 + z' = a + (z' + 1) by omega]; exact hz) (by omega)]

namespace CommandInterface

theorem consumeBytes_withinBounds (t : CommandInterface) (xs : List Nat) (h : t.WithinBounds)
    (hr : t._cmd_ready = false) (hcr : CR ∉ xs) : (t.consumeBytes xs).WithinBounds := by
  induction xs generalizing t with
  | nil => exact h
  | cons c cs ih =>
    simp only [List.mem_cons, not_or] at hcr
    rw [consumeBytes_cons]
    apply ih _ (loopBody_withinBounds t c h hr) _ hcr.2
    rw [loopBody_cmd_ready, hr]
    simp [Ne.symm hcr.1]

theorem consumeBytes_manifest (t : CommandInterface) (xs : List Nat) :
    (t.consumeBytes xs)._manifest = t._manifest := by
  induction xs generalizing t with
  | nil => rfl
  | cons c cs ih =>
    rw [consumeBytes_cons, ih, (loopBody_inputBuffer t c).2.2]

theorem freshLine_withinBounds (t : CommandInterface) (h : t.FreshLine)
    (hn : 2 ≤ t._inputBufferLength) : t.WithinBounds := by
  obtain ⟨h1, h2, h3, h4, h5⟩ := h
  exact ⟨by rw [h2]; exact Nat.zero_le _, by rw [h3], by rw [h3]; exact Nat.le_add_right _ _, hn,
    fun _ => h5, Or.inl h3⟩

theorem freshLine_sameLine (t u : CommandInterface) (ht : t.FreshLine) (hu : u.FreshLine)
    (hcap : t._inputBufferLength = u._inputBufferLength) : SameLine t u := by
  obtain ⟨h1, h2, h3, h4, h5⟩ := ht
  obtain ⟨k1, k2, k3, k4, k5⟩ := hu
  refine ⟨⟨hcap, by rw [h2, k2], by rw [h5, k5], by rw [h1, k1], by rw [h3], by rw [k3],
    by rw [h3, k3]; simp, ⟨by rw [h3]; exact Nat.le_add_right _ _, Or.inl h3⟩, ?_⟩, ?_⟩
  · intro j hj
    rw [h3] at hj
    omega
  · intro i hi1 hi2
    rw [h2] at hi1
    have hi0 : i = 0 := by omega
    rw [hi0, h4, k4, h3]
    exact ⟨Nat.le_refl _, Nat.le_refl _, Nat.le_refl _, by simp⟩

/-- Two interfaces in agreement take the same branch of the test for a full
buffer at the end of the line: both are full, with the cursor at the buffer
end, or both are not, with the cursor inside the buffer. -/
theorem sameCore_full (t u : CommandInterface) (h : SameCore t u)
    (hlen : 1 ≤ t._inputBufferLength) :
    ((t._head : Int) - (t._inputBuffer : Int) = toInt t._inputBufferLength ∧
      (u._head : Int) - (u._inputBuffer : Int) = toInt u._inputBufferLength ∧
      t._head = t._inputBuffer + t._inputBufferLength) ∨
    (¬ (t._head : Int) - (t._inputBuffer : Int) = toInt t._inputBufferLength ∧
      ¬ (u._head : Int) - (u._inputBuffer : Int) = toInt u._inputBufferLength ∧
      t._head < t._inputBuffer + t._inputBufferLength) := by
  obtain ⟨c1, c2, c3, c4, c5, c6, c7, ⟨c8, c8b⟩, c9⟩ := h
  have hcast : toInt u._inputBufferLength = toInt t._inputBufferLength := by rw [c1]
  have hti := toInt_cases t._inputBufferLength
  by_cases hfull : (t._head : Int) - (t._inputBuffer : Int) = toInt t._inputBufferLength
  · left; exact ⟨hfull, by omega, by omega⟩
  · right; exact ⟨hfull, by omega, by omega⟩

/-- At the end of the line two interfaces in agreement count the same
arguments and read the same strings for them. -/
theorem lineEnd_sameLine (t u : CommandInterface) (h : SameLine t u)
    (hargc : t._argc ≤ CLI_MAX_ARGUMENTS) (hlen : 1 ≤ t._inputBufferLength) :
    t.lineEnd._argc = u.lineEnd._argc ∧ t.lineEnd.argumentVector = u.lineEnd.argumentVector := by
  have hcore : SameCore t u := h.1
  obtain ⟨⟨c1, c2, c3, c4, c5, c6, c7, ⟨c8, -⟩, c9⟩, hslots⟩ := h
  simp only [CLI_MAX_ARGUMENTS] at hargc
  have hcond : (t._argc < CLI_MAX_ARGUMENTS ∧ t._arguments t._argc < t._head)
      ↔ (u._argc < CLI_MAX_ARGUMENTS ∧ u._arguments u._argc < u._head) := by
    by_cases ha : t._argc < CLI_MAX_ARGUMENTS
    · obtain ⟨s1, s2, s3, s4⟩ := hslots t._argc (Nat.le_refl _) ha
      rw [← c2]
      constructor
      · rintro ⟨_, hlt⟩; exact ⟨ha, by omega⟩
      · rintro ⟨_, hlt⟩; exact ⟨ha, by omega⟩
    · constructor
      · rintro ⟨h', _⟩; exact absurd h' ha
      · rintro ⟨h', _⟩; rw [← c2] at h'; exact absurd h' ha
  have hargc' : t.lineEnd._argc = u.lineEnd._argc := by
    simp only [lineEnd]
    by_cases hc : t._argc < CLI_MAX_ARGUMENTS ∧ t._arguments t._argc < t._head
    · rw [if_pos hc, if_pos (hcond.1 hc), c2]
    · rw [if_neg hc, if_neg (fun h' => hc (hcond.2 h')), c2]
  refine ⟨hargc', ?_⟩
  rw [argumentVector_eq, argumentVector_eq, ← hargc']
  apply List.map_congr_left
  intro i hi
  have hi' : i < t.lineEnd._argc := by
    have := (List.mem_range'_1.1 hi).2
    omega
  have hbound : i ≤ t._argc ∧ i < CLI_MAX_ARGUMENTS := by
    simp only [lineEnd] at hi'
    simp only [CLI_MAX_ARGUMENTS] at hi' ⊢
    split_ifs at hi' with hc
    · omega
    · omega
  obtain ⟨s1, s2, s3, s4⟩ := hslots i hbound.1 hbound.2
  show readCStr t.lineEnd.mem (t._arguments i)
      (t._inputBuffer + t._inputBufferLength - t._arguments i)
    = readCStr u.lineEnd.mem (u._arguments i)
      (u._inputBuffer + u._inputBufferLength - u._arguments i)
  have hfuel : u._inputBuffer + u._inputBufferLength - u._arguments i
      = t._inputBuffer + t._inputBufferLength - t._arguments i := by omega
  rw [hfuel]
  simp only [lineEnd]
  clear hcond hargc' hi hi' hbound hslots
  rcases sameCore_full t u hcore hlen with ⟨hfull, hfu, hend⟩ | ⟨hfull, hfu, hroom⟩
  · rw [if_pos hfull, if_pos hfu]
    clear hfull hfu
    by_cases hlast : t._arguments i = t._head
    · rw [show t._inputBuffer + t._inputBufferLength - t._arguments i = 0 by omega]
      rfl
    · apply readCStr_agree _ _ _ _ _ (t._head - 1 - t._arguments i)
      · intro d hd
        by_cases hp : t._arguments i + d = t._head - 1
        · rw [hp, show u._arguments i + d = u._head - 1 by omega, store_same, store_same]
        · rw [store_other _ _ _ _ hp, store_other _ _ _ _ (by omega)]
          have := c9 (t._arguments i - t._inputBuffer + d) (by omega)
          rw [show t._inputBuffer + (t._arguments i - t._inputBuffer + d) = t._arguments i + d
            by omega,
            show u._inputBuffer + (t._arguments i - t._inputBuffer + d) = u._arguments i + d
            by omega] at this
          exact this
      · rw [show t._arguments i + (t._head - 1 - t._arguments i) = t._head - 1 by omega,
          store_same]
      · omega
  · rw [if_neg hfull, if_neg hfu]
    clear hfull hfu
    apply readCStr_agree _ _ _ _ _ (t._head - t._arguments i)
    · intro d hd
      by_cases hp : t._arguments i + d = t._head
      · rw [hp, show u._arguments i + d = u._head by omega, store_same, store_same]
      · rw [store_other _ _ _ _ hp, store_other _ _ _ _ (by omega)]
        have := c9 (t._arguments i - t._inputBuffer + d) (by omega)
        rw [show t._inputBuffer + (t._arguments i - t._inputBuffer + d) = t._arguments i + d
          by omega,
          show u._inputBuffer + (t._arguments i - t._inputBuffer + d) = u._arguments i + d
          by omega] at this
        exact this
    · rw [show t._arguments i + (t._head - t._arguments i) = t._head by omega, store_same]
    · omega

end CommandInterface
namespace CommandInterface

/-- From the start of a line, `processInput` on a line followed by a carriage
return ends in the state of the loop after the line, closed by the line end. -/
theorem processInput_whole_line (t : CommandInterface) (line : List Nat)
    (hready : t._cmd_ready = false) (hs : t._stream = some (line ++ [CR]))
    (hcr : CR ∉ line) :
    t.processInput = some (true, { (t.consumeBytes line).lineEnd with _stream := some [] }) := by
  rw [processInput_of_not_ready t _ hready hs, drain_line t line [] hcr]

/-- Two interfaces at the start of a line with the same capacity end the same
line with the same argument count and the same argument strings, whatever their
buffers and argument tables held before. -/
theorem freshLine_same_arguments (t u : CommandInterface) (line : List Nat)
    (ht : t.FreshLine) (hu : u.FreshLine)
    (hcap : t._inputBufferLength = u._inputBufferLength) (hn : 2 ≤ t._inputBufferLength)
    (hcr : CR ∉ line) :
    (t.consumeBytes line).lineEnd._argc = (u.consumeBytes line).lineEnd._argc ∧
    (t.consumeBytes line).lineEnd.argumentVector
      = (u.consumeBytes line).lineEnd.argumentVector := by
  have hsim := consumeBytes_sameLine t u line (freshLine_sameLine t u ht hu hcap) hcr
  have hb := consumeBytes_withinBounds t line (freshLine_withinBounds t ht hn) ht.1 hcr
  exact lineEnd_sameLine _ _ hsim hb.1 (by
    rw [(consumeBytes_inputBuffer t line).2]; omega)

/-- Claim C12.  No contamination across lines.  Take an interface at the start
of a line with a buffer of at least two bytes and a manifest with a sentinel,
and byte sequences `L1` and `L2` without carriage return.  Let `L1` and a
carriage return arrive and call `processInput`, call `executeInput`, let `L2`
and a carriage return arrive and call `processInput`: the line is ready with
the same argument count and the same argument strings as when `L2` and a
carriage return arrive at any interface at the start of a line with the same
capacity — whatever `L1` was. -/
theorem no_contamination (t u : CommandInterface) (table : List CLICommand)
    (L1 L2 : List Nat) (ht : t.FreshLine) (hu : u.FreshLine)
    (hcap : t._inputBufferLength = u._inputBufferLength) (hn : 2 ≤ t._inputBufferLength)
    (hm : t._manifest = some table) (hsent : SentinelTerminated table)
    (hts : t._stream = some []) (hus : u._stream = some [])
    (h1 : CR ∉ L1) (h2 : CR ∉ L2) :
    ∃ t1 r calls t2 t3 u3,
      (t.feed (L1 ++ [CR])).processInput = some (true, t1) ∧
      t1.executeInput = some (r, calls, t2) ∧
      (t2.feed (L2 ++ [CR])).processInput = some (true, t3) ∧
      (u.feed (L2 ++ [CR])).processInput = some (true, u3) ∧
      t3._argc = u3._argc ∧ t3.argumentVector = u3.argumentVector := by
  have hfeed : ∀ (v : CommandInterface) (xs : List Nat), v._stream = some [] →
      (v.feed xs)._stream = some xs := by
    intro v xs hv
    simp [feed, hv]
  have hfresh : ∀ (v : CommandInterface) (xs : List Nat), v.FreshLine → (v.feed xs).FreshLine :=
    fun v xs hv => hv
  -- the first line
  have p1 := processInput_whole_line (t.feed (L1 ++ [CR])) L1 ht.1 (hfeed t _ hts) h1
  -- the dispatch
  have hex : ∃ r calls,
      ({ ((t.feed (L1 ++ [CR])).consumeBytes L1).lineEnd with _stream := some [] }
        : CommandInterface).executeInput
      = some (r, calls,
          ({ ((t.feed (L1 ++ [CR])).consumeBytes L1).lineEnd with _stream := some [] }
            : CommandInterface)._input_reset) := by
    by_cases hargc : 0 < ((t.feed (L1 ++ [CR])).consumeBytes L1).lineEnd._argc
    · exact ⟨_, _, executeInput_of_ready _ table rfl hargc
        (by show ((t.feed (L1 ++ [CR])).consumeBytes L1)._manifest = some table
            rw [consumeBytes_manifest]; exact hm) hsent⟩
    · exact ⟨_, _, executeInput_of_empty _ rfl (by
        show ((t.feed (L1 ++ [CR])).consumeBytes L1).lineEnd._argc = 0
        omega)⟩
  obtain ⟨r, calls, hex⟩ := hex
  -- the second line, on both interfaces
  have hreset := input_reset_freshLine
    ({ ((t.feed (L1 ++ [CR])).consumeBytes L1).lineEnd with _stream := some [] }
      : CommandInterface)
  have p2 := processInput_whole_line
    ((({ ((t.feed (L1 ++ [CR])).consumeBytes L1).lineEnd with _stream := some [] }
      : CommandInterface)._input_reset).feed (L2 ++ [CR])) L2 hreset.1 (hfeed _ _ rfl) h2
  have p3 := processInput_whole_line (u.feed (L2 ++ [CR])) L2 hu.1 (hfeed u _ hus) h2
  have hlen : (({ ((t.feed (L1 ++ [CR])).consumeBytes L1).lineEnd with _stream := some [] }
      : CommandInterface)._input_reset)._inputBufferLength = t._inputBufferLength :=
    (consumeBytes_inputBuffer (t.feed (L1 ++ [CR])) L1).2
  have hsame := freshLine_same_arguments
    ((({ ((t.feed (L1 ++ [CR])).consumeBytes L1).lineEnd with _stream := some [] }
      : CommandInterface)._input_reset).feed (L2 ++ [CR]))
    (u.feed (L2 ++ [CR])) L2 (hfresh _ _ hreset) (hfresh _ _ hu)
    (by show _ = u._inputBufferLength; rw [← hcap]; exact hlen)
    (by rw [show ((({ ((t.feed (L1 ++ [CR])).consumeBytes L1).lineEnd with _stream := some [] }
          : CommandInterface)._input_reset).feed (L2 ++ [CR]))._inputBufferLength
          = t._inputBufferLength from hlen]; exact hn)
    h2
  exact ⟨_, r, calls, _, _, _, p1, hex, p2, p3, hsame.1, hsame.2⟩

/-- Claim C12 with a first line that ends inside an open quote and overfills a
buffer of four bytes, and the second line `a b`. -/
theorem no_contamination_witness :
    (sampleInterface 4 []).FreshLine ∧ (sampleInterface 4 [])._manifest = some sampleTable ∧
    SentinelTerminated sampleTable ∧
    ∃ t1 r calls t2 t3 u3,
      ((sampleInterface 4 []).feed ([120, 32, 34, 121, 122, 119, 118] ++ [CR])).processInput
        = some (true, t1) ∧
      t1.executeInput = some (r, calls, t2) ∧
      (t2.feed ([97, 32, 98] ++ [CR])).processInput = some (true, t3) ∧
      ((sampleInterface 4 []).feed ([97, 32, 98] ++ [CR])).processInput = some (true, u3) ∧
      t3._argc = u3._argc ∧ t3.argumentVector = u3.argumentVector :=
  ⟨by decide, rfl, by decide,
    no_contamination (sampleInterface 4 []) (sampleInterface 4 []) sampleTable
      [120, 32, 34, 121, 122, 119, 118] [97, 32, 98] (by decide) (by decide) rfl (by decide)
      rfl (by decide) rfl rfl (by decide) (by decide)⟩

end CommandInterface
end CLI

